import Mathlib

/-!
# Template-profiler postprocessor: `postprocess.cpp`

A shallow embedding of `src/postprocess.cpp` and proofs about it.

Modelling conventions.

* `node` objects live in a heap `List node`; a `node*` is `Option Nat` (`none` is the null
  pointer, `some i` the address of heap cell `i`).  Cell `0` is the member `root` of
  `instantiation_state`.  Dereferencing a null or dangling pointer is undefined behaviour
  in C++ and is the failure `failure.undefined_behaviour` here.
* A non-null `const line_id*` always points into the `std::set<line_id> lines`, whose
  elements are pairwise different, so such a pointer is modelled by the `line_id` it
  points to and a nullable one by `Option line_id`.
* `std::map` is an association list without repeated keys, in order of first insertion.
  `std::map` iterates in key order instead; the only consumers of the iteration order are
  `std::sort` calls (unstable, so the order of ties is unspecified anyway) and the
  set insertion of the registry fill.
* Counters and lengths (`int`, `std::size_t`) are natural numbers: they are only ever
  incremented by one per input line or per pair of tree nodes, and signed overflow has no
  defined result in C++.  Likewise a line is shorter than `2^31` characters, so that
  `numeric_cast<int>` of a capture length does not throw.
* Loops whose termination depends on the shape of the heap take a fuel argument;
  running out of fuel is the result `failure.diverges`.
-/

namespace Postprocess

/-! ## Data model -/

/-- The C++ `typedef std::pair<std::string, int> line_id`. -/
abbrev line_id := String × Int

/-- What a run can end in instead of a value. -/
inductive failure where
  /-- The exception `boost::bad_lexical_cast` thrown by `boost::lexical_cast<int>`. -/
  | bad_lexical_cast
  /-- Dereference of a null pointer, a dangling pointer or an `end()` iterator. -/
  | undefined_behaviour
  /-- The fuel of the model ran out (the C++ loop would not stop). -/
  | diverges
deriving DecidableEq, Repr

/-- Lookup `m.find(k)` in a `std::map`. -/
def map_find {K V : Type} [DecidableEq K] : List (K × V) → K → Option V
  | [], _ => none
  | (k', v) :: r, k => if k' = k then some v else map_find r k

/-- The update `m[k] = f(m[k])`, where `m[k]` value-initialises (`dflt`) an absent key. -/
def map_index {K V : Type} [DecidableEq K] (dflt : V) (f : V → V) (k : K) :
    List (K × V) → List (K × V)
  | [] => [(k, f dflt)]
  | (k', v) :: r => if k' = k then (k', f v) :: r else (k', v) :: map_index dflt f k r

/-- The C++ `struct node_info`; the default is the constructor `node_info()`. -/
structure node_info where
  children : List (line_id × Nat) := []
  parents : List (line_id × Nat) := []
  count : Nat := 0
  total_with_children : Nat := 0
deriving DecidableEq, Repr

/-- The C++ `std::map<const line_id*, node_info>`. -/
abbrev graph_t := List (line_id × node_info)

/-- The C++ `struct instantiation_state::node`. `children` holds the addresses of the
owned nodes in `push_back` order. -/
structure node where
  children : List Nat
  id : Option line_id
  up : Option Nat
  depth : Nat
deriving DecidableEq, Repr

/-- The C++ `class instantiation_state`: the heap of nodes (cell `0` is `root`) and the
pointer `current`. -/
structure instantiation_state where
  heap : List node
  current : Option Nat
deriving DecidableEq, Repr

/-- Dereference of a `node*`. -/
def deref (heap : List node) (p : Option Nat) : Except failure node :=
  match p with
  | none => .error .undefined_behaviour
  | some i =>
    match heap[i]? with
    | none => .error .undefined_behaviour
    | some n => .ok n

/-- The constructor `node(const line_id* i = 0, node* u = 0)`:
`id(i), up(u), depth(up ? up->depth+1 : 0)`. -/
def node.ctor (heap : List node) (i : Option line_id) (u : Option Nat) : Except failure node :=
  match u with
  | none => .ok ⟨[], i, none, 0⟩
  | some p => do
    let pn ← deref heap (some p)
    .ok ⟨[], i, some p, pn.depth + 1⟩

/-- The constructor `instantiation_state() : current(&root) {}`; `root` is `node()`. -/
def instantiation_state.init : instantiation_state :=
  ⟨[⟨[], none, none, 0⟩], some 0⟩

/-- The C++ `instantiation_state::finish_instantiation`. -/
def finish_instantiation (s : instantiation_state) : Except failure instantiation_state :=
  if s.current ≠ some 0 then do
    let c ← deref s.heap s.current
    .ok { s with current := c.up }
  else .ok s

/-- The C++ `instantiation_state::add_instantiation`; the second argument is ignored, as
in the source. -/
def add_instantiation (s : instantiation_state) (new_line : Option line_id)
    (_backtrace_size : Nat) : Except failure instantiation_state := do
  let child ← node.ctor s.heap new_line s.current
  let c ← deref s.heap s.current
  match s.current with
  | none => .error .undefined_behaviour
  | some ci =>
    let addr := s.heap.length
    .ok ⟨(s.heap.set ci { c with children := c.children ++ [addr] }) ++ [child], some addr⟩

/-- The C++ `instantiation_state::add_child`. -/
def add_child (graph : graph_t) (parent child : Option line_id) : graph_t :=
  match parent, child with
  | some p, some c =>
    if p ≠ c then
      let g1 := map_index ({} : node_info)
        (fun ni => { ni with children := map_index 0 (· + 1) c ni.children }) p graph
      let g2 := map_index ({} : node_info)
        (fun ni => { ni with parents := map_index 0 (· + 1) p ni.parents }) c g1
      map_index ({} : node_info)
        (fun ni => { ni with total_with_children := ni.total_with_children + 1 }) p g2
    else graph
  | _, _ => graph

/-- The loop `for(node* parent = root->up; parent != 0; parent = parent->up)
add_child(graph, parent->id, root->id)` of `get_graph_impl`. -/
def walk_up (heap : List node) (child : Option line_id) :
    Nat → graph_t → Option Nat → Except failure graph_t
  | _, graph, none => .ok graph
  | 0, _, some _ => .error .diverges
  | fuel + 1, graph, some p => do
    let pn ← deref heap (some p)
    walk_up heap child fuel (add_child graph pn.id child) pn.up

/-- The part of `get_graph_impl` after the loop over the children: count the node, then
walk up. -/
def visit_node (heap : List node) (graph : graph_t) (n : node) : Except failure graph_t :=
  let graph := match n.id with
    | some l => map_index ({} : node_info) (fun ni => { ni with count := ni.count + 1 }) l graph
    | none => graph
  walk_up heap n.id heap.length graph n.up

/-- The C++ `instantiation_state::get_graph_impl`, called on the node at address `root`. -/
def get_graph_impl (heap : List node) : Nat → graph_t → Nat → Except failure graph_t
  | 0, _, _ => .error .diverges
  | fuel + 1, graph, root => do
    let n ← deref heap (some root)
    let graph ← n.children.foldlM (fun g child => get_graph_impl heap fuel g child) graph
    visit_node heap graph n

/-- The C++ `instantiation_state::get_graph`: `get_graph_impl(graph, &root)`. -/
def get_graph (s : instantiation_state) (graph : graph_t) : Except failure graph_t :=
  get_graph_impl s.heap s.heap.length graph 0

/-- One call of a public mutating member of `instantiation_state`. -/
inductive call where
  | add (new_line : Option line_id) (backtrace_size : Nat)
  | finish
deriving DecidableEq, Repr

/-- Apply a sequence of member calls to a state. -/
def run_calls (s : instantiation_state) : List call → Except failure instantiation_state
  | [] => .ok s
  | call.add l b :: cs => do
    let s ← add_instantiation s l b
    run_calls s cs
  | call.finish :: cs => do
    let s ← finish_instantiation s
    run_calls s cs

/-- The node_info stored under `a`, as read by `graph[a]` (an absent key reads as
`node_info()`). -/
def graph_at (graph : graph_t) (a : line_id) : node_info :=
  (map_find graph a).getD {}

/-- The weight stored under `k` in an edge map, an absent key counted as `0`. -/
def weight (m : List (line_id × Nat)) (k : line_id) : Nat :=
  (map_find m k).getD 0

/-! ## Patterns (`namespace expressions`) -/

/-- The four `sregex` objects of `namespace expressions`, each given by the outcome of
`regex_match` on a whole string: for `enter_message` the capture `match[1]`, for
`split_file_and_line` the captures `(match[1], match[2])`, for the other two (whose
captures are never read) whether the string matches. -/
structure patterns where
  enter_message : String → Option String
  exit_message : String → Bool
  call_graph_line : String → Bool
  split_file_and_line : String → Option (String × String)

/-- Whole-string match of `(s1= *_) >> lit`: the capture `s1`. -/
def match_before (lit : String) (s : String) : Option String :=
  if lit.data.isSuffixOf s.data then some ⟨s.data.take (s.data.length - lit.data.length)⟩
  else none

/-- Whole-string match of `(s1= *_) >> open >> (s2= +_d) >> close`, where `close` is a
list of characters: the captures `(s1, s2)`. The digits are the longest run of digits in
front of `close`, since the character before them is `open`, not a digit. -/
def match_file_and_digits (open_ : Char) (close_ : List Char) (s : List Char) :
    Option (String × String) :=
  if close_.isSuffixOf s then
    let body := s.take (s.length - close_.length)
    let digits := (body.reverse.takeWhile Char.isDigit).reverse
    let front := body.take (body.length - digits.length)
    if digits ≠ [] ∧ front.getLast? = some open_ then some (⟨front.dropLast⟩, ⟨digits⟩)
    else none
  else none

/-- Whether `s` is `a ++ lit ++ b` for some `a` accepted by `front` and any `b`. -/
def match_around (front : List Char → Bool) (lit : List Char) (s : List Char) : Bool :=
  (List.range (s.length + 1)).any (fun i => front (s.take i) && lit.isPrefixOf (s.drop i))

def msvc_enter_text : String :=
  " : warning C4150: deletion of pointer to incomplete type 'template_profiler::incomplete_enter'; no destructor called"

def msvc_exit_text : String :=
  " : warning C4150: deletion of pointer to incomplete type 'template_profiler::incomplete_exit'; no destructor called"

/-- The `_MSC_VER` branch of `namespace expressions`. -/
def expressions_msvc : patterns where
  enter_message := match_before msvc_enter_text
  exit_message := fun s => (match_before msvc_exit_text s).isSome
  call_graph_line := fun s =>
    "        ".data.isPrefixOf s.data &&
      match_around (fun a => (match_file_and_digits '(' [')'] a).isSome)
        " : see reference to ".data (s.data.drop 8)
  split_file_and_line := fun s => match_file_and_digits '(' [')'] s.data

/-- Whole-string match of `(.*)` followed by `lit`, at least `least` arbitrary characters,
`lit2` and `.*`: the capture, which is the longest possible one. -/
def match_greedy_before (lit : List Char) (least : Nat) (lit2 : List Char) (s : List Char) :
    Option String :=
  ((List.range (s.length + 1)).reverse.find? (fun i =>
      lit.isPrefixOf (s.drop i) &&
        (List.range (s.length + 1)).any (fun j =>
          decide (least ≤ j) && lit2.isPrefixOf (s.drop (i + lit.length + j))))).map
    (fun i => ⟨s.take i⟩)

/-- The `__GNUC__` branch of `namespace expressions`, in its `#else` part (the one taken
when `__GNUC__ >= 4` and `__GNUC_MINOR__ >= 3`). -/
def expressions_gnuc : patterns where
  enter_message :=
    fun s => match_greedy_before ": warning: ".data 1 "int template_profiler::enter(int)".data s.data
  exit_message :=
    fun s => (match_greedy_before ": warning: ".data 1 "int template_profiler::exit(int)".data
      s.data).isSome
  call_graph_line := fun s =>
    match_around (fun a => (match_file_and_digits ':' [] a).isSome)
      ":   instantiated from ".data s.data
  split_file_and_line := fun s => match_file_and_digits ':' [] s.data

/-- The call `boost::lexical_cast<int>(s)` for a 32-bit `int`: an optional sign and at
least one decimal digit, in range; anything else throws `bad_lexical_cast`. -/
def lexical_cast_int (s : String) : Except failure Int :=
  let negative := s.data.head? = some '-'
  let digits := if s.data.head? = some '-' ∨ s.data.head? = some '+' then s.data.tail else s.data
  if digits = [] ∨ ¬ digits.all Char.isDigit then .error .bad_lexical_cast
  else
    let v : Nat := digits.foldl (fun a c => 10 * a + (c.toNat - 48)) 0
    if negative then
      if v ≤ 2147483648 then .ok (- (v : Int)) else .error .bad_lexical_cast
    else
      if v ≤ 2147483647 then .ok (v : Int) else .error .bad_lexical_cast

/-! ## The frequency pass and the flat report -/

/-- The variables `messages`, `total_matches` and `max_match_length` of `postprocess`. -/
structure tally where
  messages : List (String × Nat)
  total_matches : Nat
  max_match_length : Nat
deriving DecidableEq, Repr

/-- The body of the first `while(std::getline(input, line))` loop. -/
def tally_line (p : patterns) (t : tally) (line : String) : tally :=
  match p.enter_message line with
  | some m1 =>
    { messages := map_index 0 (· + 1) m1 t.messages
      total_matches := t.total_matches + 1
      max_match_length := max t.max_match_length m1.length }
  | none => t

/-- The first `while(std::getline(input, line))` loop. -/
def frequency_pass (p : patterns) (input : List String) : tally :=
  input.foldl (tally_line p) ⟨[], 0, 0⟩

/-- The C++ `struct compare`. -/
def compare (lhs rhs : String × Nat) : Bool := decide (lhs.2 > rhs.2)

/-- The call `std::sort(first, last, less)`: an arrangement in which no element is `less`
than one before it. Which arrangement `std::sort` picks among ties is unspecified; the
model takes the one of insertion sort. -/
def std_sort {α : Type} (less : α → α → Bool) (l : List α) : List α :=
  l.insertionSort (fun a b => less b a = false)

/-- The C++ `print::operator()`: advance `*cummulative` and emit one row. -/
def print (cummulative : Nat) (t : String × Nat) : Nat × (String × Nat × Nat) :=
  (cummulative + t.2, (t.1, t.2, cummulative + t.2))

/-- The call `std::for_each(copy.begin(), copy.end(), p)`: the rows emitted. -/
def for_each_print : Nat → List (String × Nat) → List (String × Nat × Nat)
  | _, [] => []
  | cummulative, t :: ts => (print cummulative t).2 :: for_each_print (print cummulative t).1 ts

/-- What the first half of `postprocess` writes: the total and the table rows
`(location text, count, cumulative count)`. -/
structure flat_report where
  total_matches : Nat
  rows : List (String × Nat × Nat)
deriving DecidableEq, Repr

/-- The first half of `postprocess`: tally, copy, sort, print. -/
def flat (p : patterns) (input : List String) : flat_report :=
  let t := frequency_pass p input
  let copy := std_sort compare t.messages
  ⟨t.total_matches, for_each_print 0 copy⟩

/-! ## The registry and the tree-building loops -/

/-- The call `lines.insert(x)` on the `std::set<line_id>`. -/
def set_insert (lines : List line_id) (x : line_id) : List line_id :=
  if x ∈ lines then lines else lines ++ [x]

/-- The statements `regex_match(text, match, split_file_and_line)` and
`line_id(match[1], lexical_cast<int>(match[2].str()))`. The result of `regex_match` is not
tested; after a failed match every capture reads as the empty string. -/
def make_line_id (p : patterns) (text : String) : Except failure line_id := do
  let m := (p.split_file_and_line text).getD ("", "")
  let line ← lexical_cast_int m.2
  pure (m.1, line)

/-- The loop `BOOST_FOREACH(const raw_line& l, messages)` that fills `lines`. -/
def registry_fill (p : patterns) (messages : List (String × Nat)) :
    Except failure (List line_id) :=
  messages.foldlM (fun lines l => do
    let x ← make_line_id p l.1
    pure (set_insert lines x)) []

/-- The expression `&*lines.find(line_id(file, line))` of the enter branches, after the
split of the text: dereferencing `lines.end()` is undefined. -/
def find_line (p : patterns) (lines : List line_id) (text : String) : Except failure line_id := do
  let x ← make_line_id p text
  if x ∈ lines then pure x else .error .undefined_behaviour

/-- How the `if`/`else if` chain of the tree-building loops classifies a line. An enter
event carries the outcome of `&*lines.find(...)` for its text, which the enter branch
evaluates. -/
inductive event where
  | enter (location : Except failure line_id)
  | frame
  | exit
  | unmatched

/-- The `if`/`else if` chain of the tree-building loops (the same in both): the enter
pattern is tried first, then the backtrace pattern, then the exit pattern. -/
def classify (p : patterns) (lines : List line_id) (line : String) : event :=
  match p.enter_message line with
  | some text => .enter (find_line p lines text)
  | none =>
    if p.call_graph_line line then .frame
    else if p.exit_message line then .exit
    else .unmatched

/-- The variables `backtrace_depth`, `state` and `current_instantiation` of `postprocess`. -/
structure loop_state where
  backtrace_depth : Nat
  state : instantiation_state
  current_instantiation : Option line_id
deriving DecidableEq, Repr

/-- The values of the three variables in front of the loop. -/
def loop_state.init : loop_state := ⟨0, instantiation_state.init, none⟩

/-- The statement `if(current_instantiation) state.add_instantiation(current_instantiation,
backtrace_depth);` ("commit the current instantiation"). -/
def commit (st : loop_state) : Except failure loop_state :=
  match st.current_instantiation with
  | some ci => do
    let state ← add_instantiation st.state (some ci) st.backtrace_depth
    pure { st with state := state }
  | none => pure st

/-- The body of the `_MSC_VER` loop. -/
def msvc_step (st : loop_state) : event → Except failure loop_state
  | .enter location => do
    let st ← commit st
    let loc ← location
    pure { st with current_instantiation := some loc }
  | .frame => pure { st with backtrace_depth := st.backtrace_depth + 1 }
  | .exit => do
    let st ← commit st
    let state ← finish_instantiation st.state
    pure ⟨if st.backtrace_depth ≠ 0 then st.backtrace_depth - 1 else st.backtrace_depth,
      state, none⟩
  | .unmatched => pure st

/-- The `_MSC_VER` loop together with the commit that follows it. -/
def msvc_loop (events : List event) : Except failure loop_state := do
  let st ← events.foldlM msvc_step loop_state.init
  commit st

/-- The body of the `__GNUC__` loop. -/
def gnuc_step (st : loop_state) : event → Except failure loop_state
  | .enter location => do
    let loc ← location
    let state ← add_instantiation st.state (some loc) (st.backtrace_depth + 1)
    pure ⟨0, state, some loc⟩
  | .frame => pure { st with backtrace_depth := st.backtrace_depth + 1 }
  | .exit => do
    let state ← finish_instantiation st.state
    pure { st with state := state, backtrace_depth := 0 }
  | .unmatched => pure st

/-- The `__GNUC__` loop. -/
def gnuc_loop (events : List event) : Except failure loop_state :=
  events.foldlM gnuc_step loop_state.init

/-- The compilers `postprocess.cpp` builds for: which branch of the preprocessor
conditionals is taken. -/
inductive compiler where
  | msvc
  | gnuc
deriving DecidableEq, Repr

/-- The tree-building loop selected by the preprocessor. -/
def tree_loop : compiler → List event → Except failure loop_state
  | .msvc => msvc_loop
  | .gnuc => gnuc_loop

/-- The C++ `struct call_graph_less`. -/
def call_graph_less (lhs rhs : line_id × node_info) : Bool :=
  decide (lhs.2.total_with_children > rhs.2.total_with_children)

/-- The `if(use_call_graph)` block of `postprocess` up to the sort of `call_graph`; the
report prints the records of the result in order. -/
def call_graph (c : compiler) (p : patterns) (input : List String) :
    Except failure (List (line_id × node_info)) := do
  let lines ← registry_fill p (frequency_pass p input).messages
  let st ← tree_loop c (input.map (classify p lines))
  let graph ← get_graph st.state []
  pure (std_sort call_graph_less graph)

/-- The function `postprocess` on the lines of the input file: the flat report, which
is written first, and the call-graph report or the failure that ends the run. -/
def postprocess (c : compiler) (p : patterns) (input : List String) :
    flat_report × Except failure (List (line_id × node_info)) :=
  (flat p input, call_graph c p input)

/-! ## Events with well-formed locations -/

/-- A line as the loops see it when the text of every enter line splits and is found in
the registry: an enter event with its location, a backtrace frame, an exit event or a
line that matches no pattern. -/
inductive located where
  | enter (location : line_id)
  | frame
  | exit
  | unmatched
deriving DecidableEq, Repr

/-- The event of the loops for a located event. -/
def located.event : located → event
  | .enter l => .enter (.ok l)
  | .frame => .frame
  | .exit => .exit
  | .unmatched => .unmatched

/-! ## Shape of the heap -/

/-- The `up` pointer of the node at address `j` (null when there is no such node). -/
def up_of (h : List node) (j : Nat) : Option Nat := h[j]?.bind node.up

/-- The `id` pointer of the node at address `j`. -/
def id_of (h : List node) (j : Nat) : Option line_id := h[j]?.bind node.id

/-- The `children` container of the node at address `i`. -/
def kids_of (h : List node) (i : Nat) : List Nat := (h[i]?.map node.children).getD []

/-- The `depth` of the node at address `i`. -/
def depth_of (h : List node) (i : Nat) : Nat := (h[i]?.map node.depth).getD 0

/-- The shape every heap built by `instantiation_state` has: the root has no `up` and no
`id`, every other node was allocated after the node its `up` points to, and the
`children` of a node are exactly the nodes whose `up` points to it, in allocation order. -/
structure heap_ok (h : List node) : Prop where
  len_pos : 0 < h.length
  root_up : up_of h 0 = none
  root_id : id_of h 0 = none
  root_depth : depth_of h 0 = 0
  up_lt : ∀ j, 0 < j → j < h.length → ∃ p, up_of h j = some p ∧ p < j
  depth_up : ∀ j p, up_of h j = some p → depth_of h j = depth_of h p + 1
  kids : ∀ i, i < h.length →
    kids_of h i = (List.range h.length).filter (fun j => decide (up_of h j = some i))

/-- The invariant of `instantiation_state`: the heap is well shaped and `current` points
into it. -/
def state_ok (s : instantiation_state) : Prop :=
  heap_ok s.heap ∧ ∃ c, s.current = some c ∧ c < s.heap.length

/-- The node at `current == c` after the `push_back` of a child allocated at the end of
the heap. -/
def with_child (h : List node) (c : Nat) : node :=
  ⟨kids_of h c ++ [h.length], id_of h c, up_of h c, depth_of h c⟩

/-- The node `new node(new_line, current)` for `current == c`. -/
def new_node (h : List node) (c : Nat) (l : Option line_id) : node :=
  ⟨[], l, some c, depth_of h c + 1⟩

/-- The heap after `add_instantiation` at `current == c`. -/
def heap_add (h : List node) (c : Nat) (l : Option line_id) : List node :=
  h.set c (with_child h c) ++ [new_node h c l]

/-! ## The traversal of `get_graph_impl` -/

/-- The addresses the loop `for(parent = p; parent != 0; parent = parent->up)` goes
through. -/
def chain (h : List node) : Nat → Option Nat → List Nat
  | _, none => []
  | 0, some _ => []
  | fuel + 1, some p => p :: chain h fuel (up_of h p)

/-- The proper ancestors of the node at `i`, nearest first, as reached through `up`. -/
def ancestors (h : List node) (i : Nat) : List Nat := chain h h.length (up_of h i)

/-- The increment `++graph[root->id].count` under `if(root->id != 0)`. -/
def count_node (graph : graph_t) (id : Option line_id) : graph_t :=
  match id with
  | some l => map_index ({} : node_info) (fun ni => { ni with count := ni.count + 1 }) l graph
  | none => graph

/-- The effect of `get_graph_impl` at one node, after its children: the node is counted
and `add_child` runs for each proper ancestor. -/
def visit (h : List node) (graph : graph_t) (i : Nat) : graph_t :=
  (ancestors h i).foldl (fun g a => add_child g (id_of h a) (id_of h i))
    (count_node graph (id_of h i))

/-- The addresses of the nodes of the tree below and at node `i`, found through the
`children` containers, each after its children (the order of `get_graph_impl`). -/
def subtree (h : List node) : Nat → Nat → List Nat
  | 0, _ => []
  | fuel + 1, i => (kids_of h i).flatMap (subtree h fuel) ++ [i]

/-! ## Reading the graph -/

/-- The weight of the edge to `b` in `graph[a].children`. -/
def child_weight (g : graph_t) (a b : line_id) : Nat := weight (graph_at g a).children b

/-- The weight of the edge to `a` in `graph[b].parents`. -/
def parent_weight (g : graph_t) (b a : line_id) : Nat := weight (graph_at g b).parents a

/-- What the graph says about every edge agrees in the `children` and `parents` maps. -/
def symmetric (g : graph_t) : Prop :=
  ∀ a b, child_weight g a b = parent_weight g b a

/-! ## Reference for the aggregated graph: the tree through its `children` containers -/

/-- The proper descendants of the node at `a`: the nodes of the subtrees of its
children. -/
def descendants (h : List node) (a : Nat) : List Nat :=
  (kids_of h a).flatMap (subtree h h.length)

/-- The number of non-root nodes of the tree whose location is `l`. -/
def occurrences (h : List node) (l : line_id) : Nat :=
  (descendants h 0).countP (fun n => decide (id_of h n = some l))

/-- All pairs `(n, a)` of a node `n` of the tree and a proper ancestor `a` of `n`, at any
distance. -/
def ancestor_pairs (h : List node) : List (Nat × Nat) :=
  (subtree h h.length 0).flatMap (fun a => (descendants h a).map (fun n => (n, a)))

/-- The number of pairs `(n, a)` where `n` is a node with location `b` and `a` is a proper
ancestor of `n` with location `a`. -/
def nested_occurrences (h : List node) (a b : line_id) : Nat :=
  (ancestor_pairs h).countP (fun na => decide (id_of h na.1 = some b ∧ id_of h na.2 = some a))

/-- The pairs `(n, a)` for which `get_graph_impl` calls `add_child`: `a` is reached from
`n` by the walk through `up`. -/
def walked_pairs (h : List node) (t : List Nat) : List (Nat × Nat) :=
  t.flatMap (fun n => (ancestors h n).map (fun a => (n, a)))

/-! ## The loops on located events -/

/-- The state of the tree once the pending location of the `_MSC_VER` loop, if any, has
been committed. -/
def settled (st : loop_state) : instantiation_state :=
  match st.current_instantiation, st.state.current with
  | some l, some c => ⟨heap_add st.state.heap c (some l), some st.state.heap.length⟩
  | _, _ => st.state

/-- The locations of the enter events of a stream, in order. -/
def enter_locations : List located → List line_id
  | [] => []
  | .enter l :: es => l :: enter_locations es
  | _ :: es => enter_locations es

/-! ## Reference for the tree of a balanced stream: the bracket structure -/

/-- The tree of the bracket structure while a stream is read: the nodes so far and the
addresses of the nodes of the enter events not yet closed, innermost first. -/
structure bracket_state where
  tree : List node
  unclosed : List Nat
deriving DecidableEq, Repr

/-- Reference for the bracket structure, from the spec. An enter event opens a bracket:
its node is allocated with the innermost enclosing unclosed enter (or the root) as parent
and the nesting level, counted from 1, as depth. An exit event closes the innermost open
bracket, if there is one. -/
def bracket_step (b : bracket_state) : located → bracket_state
  | .enter l =>
    let parent := b.unclosed.headD 0
    ⟨b.tree.set parent (with_child b.tree parent) ++
        [⟨[], some l, some parent, b.unclosed.length + 1⟩],
      b.tree.length :: b.unclosed⟩
  | .frame => b
  | .exit => ⟨b.tree, b.unclosed.tail⟩
  | .unmatched => b

/-- The tree of the bracket structure of a stream. -/
def bracket_tree (evs : List located) : List node :=
  (evs.foldl bracket_step ⟨[⟨[], none, none, 0⟩], []⟩).tree

/-- The bracket nesting level after a stream read at level `level`, or `none` when an
exit event closes a bracket that is not open. -/
def nesting : Nat → List located → Option Nat
  | level, [] => some level
  | level, .enter _ :: es => nesting (level + 1) es
  | level, .frame :: es => nesting level es
  | level, .unmatched :: es => nesting level es
  | 0, .exit :: _ => none
  | level + 1, .exit :: es => nesting level es

/-- A stream is bracket-balanced when every exit closes an open enter and no enter is
left open at the end. -/
def balanced (evs : List located) : Bool := nesting 0 evs = some 0

/-- The addresses in `unclosed` are a chain of `up` pointers that ends at the root, and
the depth of each is its position in the chain. -/
def stack_ok (h : List node) : List Nat → Prop
  | [] => True
  | c :: rest =>
    0 < c ∧ c < h.length ∧ up_of h c = some (rest.headD 0) ∧ depth_of h c = rest.length + 1 ∧
      stack_ok h rest

/-! ## Reference for the frequency table -/

/-- The texts captured from the enter lines of the input, in order. -/
def enter_texts (p : patterns) (input : List String) : List String :=
  input.filterMap p.enter_message

/-! ## Tree edges and more distant ancestors -/

/-- The edges of the tree as pairs `(n, a)`: `n` is in the `children` of the node `a`. -/
def tree_edges (h : List node) : List (Nat × Nat) :=
  (subtree h h.length 0).flatMap (fun a => (kids_of h a).map (fun n => (n, a)))

/-- The number of tree edges whose parent has location `a` and whose child has location
`b`. -/
def edge_count (h : List node) (a b : line_id) : Nat :=
  (tree_edges h).countP (fun na => decide (id_of h na.1 = some b ∧ id_of h na.2 = some a))

/-- The pairs `(n, a)` where `n` is below a child of `a`: `a` is an ancestor of `n` at
distance two or more. -/
def distant_pairs (h : List node) : List (Nat × Nat) :=
  (subtree h h.length 0).flatMap
    (fun a => ((kids_of h a).flatMap (descendants h)).map (fun n => (n, a)))

/-- The number of pairs of a node with location `b` and an ancestor of it with location
`a` that is not its parent. -/
def distant_count (h : List node) (a b : line_id) : Nat :=
  (distant_pairs h).countP (fun na => decide (id_of h na.1 = some b ∧ id_of h na.2 = some a))

/-- The number of pairs of a node and a proper ancestor of it where the ancestor has
location `a` and the node has another location. -/
def nested_elsewhere (h : List node) (a : line_id) : Nat :=
  (ancestor_pairs h).countP (fun na =>
    decide (id_of h na.2 = some a ∧ id_of h na.1 ≠ none ∧ id_of h na.1 ≠ some a))

/-- No location is a key of its own `children` or `parents` map. -/
def no_self_edge (g : graph_t) : Prop :=
  ∀ a, map_find (graph_at g a).children a = none ∧ map_find (graph_at g a).parents a = none

/-- The sum of the weights of an edge map. -/
def weight_sum (m : List (line_id × Nat)) : Nat := (m.map Prod.snd).sum

/-- Every record's total-with-children is the sum of the weights of its `children`. -/
def totals_ok (g : graph_t) : Prop :=
  ∀ a, (graph_at g a).total_with_children = weight_sum (graph_at g a).children

/-- The sum over the records of the graph of what `F` reads from a record. -/
def sum_records (F : node_info → Nat) (g : graph_t) : Nat := (g.map (fun e => F e.2)).sum

/-- Whether `add_child` passes its guard `parent && child && parent != child`. -/
def adds_edge (parent child : Option line_id) : Bool :=
  match parent, child with
  | some p, some c => decide (p ≠ c)
  | _, _ => false

/-- The sums of all `children` weights and of all `parents` weights of the graph agree. -/
def sums_agree (g : graph_t) : Prop :=
  sum_records (fun ni => weight_sum ni.children) g =
    sum_records (fun ni => weight_sum ni.parents) g

/-- The number of proper ancestors of the node at `j`: the nodes of the tree that have
`j` among their proper descendants. -/
def proper_ancestor_count (h : List node) (j : Nat) : Nat :=
  (subtree h h.length 0).countP (fun a => decide (j ∈ descendants h a))

/-- The iterator `lines.find(x)` on the `std::set<line_id>`: the position of the element
equal to `x`, or `none` for `lines.end()`. The address `&*lines.find(x)` is the address of
the element at that position. -/
def lines_find (lines : List line_id) (x : line_id) : Option Nat :=
  match lines with
  | [] => none
  | y :: rest => if y = x then some 0 else (lines_find rest x).map (· + 1)

/-- Whether a line matches none of the enter, backtrace-frame and exit patterns. -/
def is_unmatched (p : patterns) (line : String) : Bool :=
  (p.enter_message line).isNone && !p.call_graph_line line && !p.exit_message line

/-- What the loops keep of a state besides `backtrace_depth`: the tree with its cursor and
the pending location. -/
def view (st : loop_state) : instantiation_state × Option line_id :=
  (st.state, st.current_instantiation)

/-- Whether an event is anything but a backtrace frame. -/
def not_frame : event → Bool
  | .frame => false
  | _ => true

/-- Whether the loops take a line as a backtrace frame: it does not match the enter
pattern and matches the backtrace pattern. -/
def is_frame (p : patterns) (line : String) : Bool :=
  (p.enter_message line).isNone && p.call_graph_line line

/-- Whether the text of an enter line splits to the location `l`: the `line_id` made from
it is `l`. -/
def splits_to (p : patterns) (text : String) (l : line_id) : Bool :=
  match make_line_id p text with
  | .ok x => decide (x = l)
  | .error _ => false

/-- An `_MSC_VER` build log with two nested enter lines whose texts, `a.cpp(10)` and
`a.cpp(010)`, differ but split to the same location, followed by the two exit lines. -/
def two_spellings_log : List String :=
  ["a.cpp(10) : warning C4150: deletion of pointer to incomplete type 'template_profiler::incomplete_enter'; no destructor called",
   "a.cpp(010) : warning C4150: deletion of pointer to incomplete type 'template_profiler::incomplete_enter'; no destructor called",
   "a.cpp(010) : warning C4150: deletion of pointer to incomplete type 'template_profiler::incomplete_exit'; no destructor called",
   "a.cpp(10) : warning C4150: deletion of pointer to incomplete type 'template_profiler::incomplete_exit'; no destructor called"]

/-! # Theorems -/

/-! ## The heap invariant -/

theorem heap_ok_init : heap_ok instantiation_state.init.heap := by
  refine ⟨by decide, rfl, rfl, rfl, ?_, ?_, ?_⟩
  · intro j hj hlt
    simp [instantiation_state.init] at hlt
    omega
  · intro j p hp
    simp [instantiation_state.init, up_of] at hp
    rcases j with _ | j <;> simp at hp
  · intro i hi
    simp [instantiation_state.init] at hi
    subst hi
    decide

theorem state_ok_init : state_ok instantiation_state.init :=
  ⟨heap_ok_init, 0, rfl, by decide⟩

theorem add_instantiation_eq (h : List node) (c : Nat) (l : Option line_id) (b : Nat)
    (hc : c < h.length) :
    add_instantiation ⟨h, some c⟩ l b = .ok ⟨heap_add h c l, some h.length⟩ := by
  have hget : h[c]? = some h[c] := List.getElem?_eq_getElem hc
  simp [add_instantiation, node.ctor, deref, hget, heap_add, kids_of, id_of, up_of, depth_of,
    bind, Except.bind, with_child, new_node]

theorem length_heap_add (h : List node) (c : Nat) (l : Option line_id) :
    (heap_add h c l).length = h.length + 1 := by
  simp [heap_add]

theorem getElem?_heap_add (h : List node) (c : Nat) (l : Option line_id) (j : Nat)
    (hc : c < h.length) :
    (heap_add h c l)[j]? =
      if j = h.length then some (new_node h c l)
      else if j = c then some (with_child h c) else h[j]? := by
  unfold heap_add
  by_cases hj : j < h.length
  · rw [List.getElem?_append_left (by simpa using hj)]
    have : j ≠ h.length := by omega
    simp only [this, if_false]
    by_cases hcj : c = j
    · subst hcj
      simp [List.getElem?_set, hj]
    · have : j ≠ c := fun e => hcj e.symm
      simp [List.getElem?_set, hcj, this]
  · by_cases hj2 : j = h.length
    · subst hj2
      simp [List.getElem?_append_right]
    · have h1 : h[j]? = none := List.getElem?_eq_none (by omega)
      have h2 : (h.set c (with_child h c) ++ [new_node h c l])[j]? = none :=
        List.getElem?_eq_none (by simp; omega)
      have : j ≠ c := by omega
      simp [h1, h2, hj2, this]

theorem up_of_heap_add (h : List node) (c : Nat) (l : Option line_id) (j : Nat)
    (hc : c < h.length) :
    up_of (heap_add h c l) j = if j = h.length then some c else up_of h j := by
  unfold up_of
  rw [getElem?_heap_add h c l j hc]
  by_cases h1 : j = h.length
  · simp [h1, new_node]
  · by_cases h2 : j = c
    · subst h2
      simp [h1, with_child, up_of]
    · simp [h1, h2]

theorem id_of_heap_add (h : List node) (c : Nat) (l : Option line_id) (j : Nat)
    (hc : c < h.length) :
    id_of (heap_add h c l) j = if j = h.length then l else id_of h j := by
  unfold id_of
  rw [getElem?_heap_add h c l j hc]
  by_cases h1 : j = h.length
  · simp [h1, new_node]
  · by_cases h2 : j = c
    · subst h2
      simp [h1, with_child, id_of]
    · simp [h1, h2]

theorem depth_of_heap_add (h : List node) (c : Nat) (l : Option line_id) (j : Nat)
    (hc : c < h.length) :
    depth_of (heap_add h c l) j = if j = h.length then depth_of h c + 1 else depth_of h j := by
  unfold depth_of
  rw [getElem?_heap_add h c l j hc]
  by_cases h1 : j = h.length
  · simp [h1, new_node, depth_of]
  · by_cases h2 : j = c
    · subst h2
      simp [h1, with_child, depth_of]
    · simp [h1, h2]

theorem kids_of_heap_add (h : List node) (c : Nat) (l : Option line_id) (i : Nat)
    (hc : c < h.length) :
    kids_of (heap_add h c l) i =
      if i = h.length then [] else if i = c then kids_of h c ++ [h.length] else kids_of h i := by
  unfold kids_of
  rw [getElem?_heap_add h c l i hc]
  by_cases h1 : i = h.length
  · simp [h1, new_node]
  · by_cases h2 : i = c
    · subst h2
      simp [h1, with_child, kids_of]
    · simp [h1, h2]

theorem up_of_none_of_le (h : List node) (j : Nat) (hj : h.length ≤ j) : up_of h j = none := by
  simp [up_of, List.getElem?_eq_none hj]

theorem heap_ok_add (h : List node) (c : Nat) (l : Option line_id) (hc : c < h.length)
    (ok : heap_ok h) : heap_ok (heap_add h c l) := by
  have hlen := length_heap_add h c l
  have hpos := ok.len_pos
  refine ⟨by omega, ?_, ?_, ?_, ?_, ?_, ?_⟩
  · rw [up_of_heap_add h c l 0 hc, if_neg (by omega)]
    exact ok.root_up
  · rw [id_of_heap_add h c l 0 hc, if_neg (by omega)]
    exact ok.root_id
  · rw [depth_of_heap_add h c l 0 hc, if_neg (by omega)]
    exact ok.root_depth
  · intro j hj hlt
    rw [up_of_heap_add h c l j hc]
    by_cases h1 : j = h.length
    · simp only [h1, if_true]
      exact ⟨c, rfl, hc⟩
    · simp only [h1, if_false]
      exact ok.up_lt j hj (by omega)
  · intro j p hp
    rw [up_of_heap_add h c l j hc] at hp
    rw [depth_of_heap_add h c l j hc, depth_of_heap_add h c l p hc]
    by_cases h1 : j = h.length
    · simp only [h1, if_true] at hp ⊢
      have hpc : c = p := by simpa using hp
      subst hpc
      rw [if_neg (by omega)]
    · simp only [h1, if_false] at hp ⊢
      have hjl : j < h.length := by
        by_contra hge
        rw [up_of_none_of_le h j (by omega)] at hp
        cases hp
      have hpl : p < j := by
        rcases Nat.eq_zero_or_pos j with h0 | h0
        · subst h0
          rw [ok.root_up] at hp
          cases hp
        · obtain ⟨q, hq, hqlt⟩ := ok.up_lt j h0 hjl
          rw [hq] at hp
          cases hp
          exact hqlt
      rw [if_neg (by omega)]
      exact ok.depth_up j p hp
  · intro i hi
    rw [hlen, List.range_succ, List.filter_append, kids_of_heap_add h c l i hc]
    have hfil : (List.range h.length).filter
        (fun j => decide (up_of (heap_add h c l) j = some i)) =
        (List.range h.length).filter (fun j => decide (up_of h j = some i)) := by
      apply List.filter_congr
      intro j hj
      have : j ≠ h.length := by
        have := List.mem_range.1 hj
        omega
      rw [up_of_heap_add h c l j hc, if_neg this]
    rw [hfil]
    by_cases h1 : i = h.length
    · have hne : ¬ (c = i) := by omega
      have hnil : (List.range h.length).filter (fun j => decide (up_of h j = some i)) = [] := by
        rw [List.filter_eq_nil_iff]
        intro j hj
        have hjl := List.mem_range.1 hj
        simp only [decide_eq_true_eq]
        intro hup
        rcases Nat.eq_zero_or_pos j with h0 | h0
        · subst h0
          rw [ok.root_up] at hup
          cases hup
        · obtain ⟨q, hq, hqlt⟩ := ok.up_lt j h0 hjl
          rw [hq] at hup
          cases hup
          omega
      have hcl : ¬ (c = h.length) := by omega
      rw [hnil, if_pos h1]
      simp [h1, up_of_heap_add h c l h.length hc, hcl]
    · have hil : i < h.length := by omega
      by_cases h2 : i = c
      · subst h2
        simp [h1, up_of_heap_add h i l h.length hc, ok.kids i hil]
      · have hne : ¬ (c = i) := fun e => h2 e.symm
        simp [h1, h2, up_of_heap_add h c l h.length hc, hne, ok.kids i hil]

theorem finish_instantiation_eq (h : List node) (c : Nat) (hc : c < h.length) :
    finish_instantiation ⟨h, some c⟩ = .ok ⟨h, if c = 0 then some 0 else up_of h c⟩ := by
  have hget : h[c]? = some h[c] := List.getElem?_eq_getElem hc
  by_cases h0 : c = 0
  · subst h0
    simp [finish_instantiation]
  · simp [finish_instantiation, h0, deref, hget, up_of, bind, Except.bind]

theorem state_ok_add (s : instantiation_state) (l : Option line_id) (b : Nat)
    (ok : state_ok s) :
    ∃ c, s.current = some c ∧ c < s.heap.length ∧
      add_instantiation s l b = .ok ⟨heap_add s.heap c l, some s.heap.length⟩ ∧
      state_ok ⟨heap_add s.heap c l, some s.heap.length⟩ := by
  obtain ⟨hok, c, hcur, hc⟩ := ok
  refine ⟨c, hcur, hc, ?_, heap_ok_add s.heap c l hc hok, s.heap.length, rfl, ?_⟩
  · cases s with
    | mk h cur =>
      simp only at hcur hc ⊢
      subst hcur
      exact add_instantiation_eq h c l b hc
  · simp [length_heap_add]

theorem state_ok_finish (s : instantiation_state) (ok : state_ok s) :
    ∃ c, s.current = some c ∧ c < s.heap.length ∧
      finish_instantiation s = .ok ⟨s.heap, if c = 0 then some 0 else up_of s.heap c⟩ ∧
      state_ok ⟨s.heap, if c = 0 then some 0 else up_of s.heap c⟩ := by
  obtain ⟨hok, c, hcur, hc⟩ := ok
  refine ⟨c, hcur, hc, ?_, hok, ?_⟩
  · cases s with
    | mk h cur =>
      simp only at hcur hc ⊢
      subst hcur
      exact finish_instantiation_eq h c hc
  · by_cases h0 : c = 0
    · exact ⟨0, by simp [h0], hok.len_pos⟩
    · obtain ⟨p, hp, hlt⟩ := hok.up_lt c (Nat.pos_of_ne_zero h0) hc
      exact ⟨p, by simp [h0, hp], by simp only; omega⟩

theorem run_calls_ok (cs : List call) :
    ∀ s, state_ok s → ∃ s', run_calls s cs = .ok s' ∧ state_ok s' := by
  induction cs with
  | nil => intro s ok; exact ⟨s, rfl, ok⟩
  | cons c cs ih =>
    intro s ok
    cases c with
    | add l b =>
      obtain ⟨c, _, _, heq, ok'⟩ := state_ok_add s l b ok
      obtain ⟨s', hs', ok''⟩ := ih _ ok'
      exact ⟨s', by simp [run_calls, heq, bind, Except.bind, hs'], ok''⟩
    | finish =>
      obtain ⟨c, _, _, heq, ok'⟩ := state_ok_finish s ok
      obtain ⟨s', hs', ok''⟩ := ih _ ok'
      exact ⟨s', by simp [run_calls, heq, bind, Except.bind, hs'], ok''⟩

/-! ## `get_graph_impl` as a fold over the post-order of the tree -/

theorem up_of_lt {h : List node} (ok : heap_ok h) {j p : Nat} (hp : up_of h j = some p) :
    p < j ∧ j < h.length := by
  have hjl : j < h.length := by
    by_contra hge
    rw [up_of_none_of_le h j (by omega)] at hp
    cases hp
  rcases Nat.eq_zero_or_pos j with h0 | h0
  · subst h0
    rw [ok.root_up] at hp
    cases hp
  · obtain ⟨q, hq, hqlt⟩ := ok.up_lt j h0 hjl
    rw [hq] at hp
    cases hp
    exact ⟨hqlt, hjl⟩

theorem walk_up_eq {h : List node} (ok : heap_ok h) (child : Option line_id) :
    ∀ (fuel : Nat) (g : graph_t) (p : Option Nat),
      (∀ q, p = some q → q < fuel ∧ q < h.length) →
      walk_up h child fuel g p =
        .ok ((chain h fuel p).foldl (fun g a => add_child g (id_of h a) child) g) := by
  intro fuel
  induction fuel with
  | zero =>
    intro g p hp
    cases p with
    | none => simp [walk_up, chain]
    | some q => exact absurd (hp q rfl).1 (by omega)
  | succ f ih =>
    intro g p hp
    cases p with
    | none => simp [walk_up, chain]
    | some q =>
      obtain ⟨hqf, hql⟩ := hp q rfl
      have hget : h[q]? = some h[q] := List.getElem?_eq_getElem hql
      have hup : h[q].up = up_of h q := by simp [up_of, hget]
      have hid : h[q].id = id_of h q := by simp [id_of, hget]
      simp only [walk_up, deref, hget, chain, List.foldl_cons, bind, Except.bind]
      rw [hup, hid]
      apply ih
      intro q' hq'
      have := up_of_lt ok hq'
      omega

theorem visit_node_eq {h : List node} (ok : heap_ok h) (g : graph_t) (i : Nat)
    (hi : i < h.length) :
    visit_node h g (h[i]) = .ok (visit h g i) := by
  have hget : h[i]? = some h[i] := List.getElem?_eq_getElem hi
  have hup : h[i].up = up_of h i := by simp [up_of, hget]
  have hid : h[i].id = id_of h i := by simp [id_of, hget]
  unfold visit_node visit ancestors
  rw [hup, hid]
  have := walk_up_eq ok (id_of h i) h.length (count_node g (id_of h i)) (up_of h i)
    (by
      intro q hq
      have := up_of_lt ok hq
      omega)
  simpa [count_node] using this

theorem kids_of_mem {h : List node} (ok : heap_ok h) {i k : Nat} (hi : i < h.length) :
    k ∈ kids_of h i ↔ up_of h k = some i := by
  rw [ok.kids i hi, List.mem_filter, List.mem_range]
  constructor
  · intro hk
    simpa using hk.2
  · intro hk
    exact ⟨(up_of_lt ok hk).2, by simpa using hk⟩

theorem get_graph_impl_eq {h : List node} (ok : heap_ok h) :
    ∀ (fuel : Nat) (g : graph_t) (i : Nat), i < h.length → h.length ≤ fuel + i →
      get_graph_impl h fuel g i = .ok ((subtree h fuel i).foldl (visit h) g) := by
  intro fuel
  induction fuel with
  | zero =>
    intro g i hi hf
    omega
  | succ f ih =>
    intro g i hi hf
    have hget : h[i]? = some h[i] := List.getElem?_eq_getElem hi
    have hkids : h[i].children = kids_of h i := by simp [kids_of, hget]
    have inner : ∀ (ks : List Nat) (g : graph_t), (∀ k ∈ ks, up_of h k = some i) →
        ks.foldlM (fun g child => get_graph_impl h f g child) g =
          .ok ((ks.flatMap (subtree h f)).foldl (visit h) g) := by
      intro ks
      induction ks with
      | nil => intro g _; rfl
      | cons k ks ihk =>
        intro g hks
        have hk := up_of_lt ok (hks k (List.mem_cons_self _ _))
        rw [List.foldlM_cons, ih g k hk.2 (by omega)]
        simp only [bind, Except.bind, List.flatMap_cons, List.foldl_append]
        exact ihk _ (fun k' hk' => hks k' (List.mem_cons_of_mem _ hk'))
    simp only [get_graph_impl, deref, hget, bind, Except.bind, subtree, List.foldl_append,
      List.foldl_cons, List.foldl_nil]
    rw [hkids, inner (kids_of h i) g (fun k hk => (kids_of_mem ok hi).1 hk)]
    exact visit_node_eq ok _ i hi

/-! ## Reading the graph -/

theorem map_find_map_index {K V : Type} [DecidableEq K] (dflt : V) (f : V → V) (k k' : K)
    (m : List (K × V)) :
    map_find (map_index dflt f k m) k' =
      if k' = k then some (f ((map_find m k).getD dflt)) else map_find m k' := by
  induction m with
  | nil =>
    by_cases hk : k' = k
    · simp [map_index, map_find, hk]
    · have : ¬ (k = k') := fun e => hk e.symm
      simp [map_index, map_find, hk, this]
  | cons x m ih =>
    obtain ⟨k0, v⟩ := x
    by_cases h0 : k0 = k
    · subst h0
      by_cases hk : k' = k0
      · simp [map_index, map_find, hk]
      · have : ¬ (k0 = k') := fun e => hk e.symm
        simp [map_index, map_find, hk, this]
    · by_cases hk : k' = k
      · subst hk
        simp [map_index, map_find, h0, ih]
      · by_cases h1 : k0 = k'
        · simp [map_index, map_find, h0, hk, h1]
        · simp [map_index, map_find, h0, hk, h1, ih]

theorem graph_at_map_index (f : node_info → node_info) (p a : line_id) (g : graph_t) :
    graph_at (map_index ({} : node_info) f p g) a =
      if a = p then f (graph_at g p) else graph_at g a := by
  unfold graph_at
  rw [map_find_map_index]
  by_cases h : a = p <;> simp [h]

theorem weight_map_index (c b : line_id) (m : List (line_id × Nat)) :
    weight (map_index 0 (· + 1) c m) b = weight m b + if b = c then 1 else 0 := by
  unfold weight
  rw [map_find_map_index]
  by_cases h : b = c <;> simp [h]

theorem child_weight_add_child (g : graph_t) (p c : Option line_id) (a b : line_id) :
    child_weight (add_child g p c) a b =
      child_weight g a b + if p = some a ∧ c = some b ∧ a ≠ b then 1 else 0 := by
  unfold child_weight add_child
  cases p with
  | none => simp
  | some p =>
    cases c with
    | none => simp
    | some c =>
      by_cases hpc : p = c
      · subst hpc
        have : ¬ (p = a ∧ p = b ∧ a ≠ b) := by
          rintro ⟨h1, h2, h3⟩
          exact h3 (h1.symm.trans h2)
        simp [this]
      · simp only [ne_eq, hpc, not_false_eq_true, if_true, graph_at_map_index,
          Option.some.injEq]
        by_cases hap : a = p
        · subst hap
          have hac : ¬ (a = c) := hpc
          by_cases hb : b = c
          · subst hb
            simp [hac, weight_map_index]
          · have hcb : ¬ (c = b) := fun e => hb e.symm
            simp [hac, hcb, weight_map_index, hb]
        · have hpa : ¬ (p = a) := fun e => hap e.symm
          by_cases hac : a = c
          · subst hac
            simp [hap, hpa]
          · simp [hap, hpa, hac]

theorem parent_weight_add_child (g : graph_t) (p c : Option line_id) (b a : line_id) :
    parent_weight (add_child g p c) b a =
      parent_weight g b a + if p = some a ∧ c = some b ∧ a ≠ b then 1 else 0 := by
  unfold parent_weight add_child
  cases p with
  | none => simp
  | some p =>
    cases c with
    | none => simp
    | some c =>
      by_cases hpc : p = c
      · subst hpc
        have : ¬ (p = a ∧ p = b ∧ a ≠ b) := by
          rintro ⟨h1, h2, h3⟩
          exact h3 (h1.symm.trans h2)
        simp [this]
      · simp only [ne_eq, hpc, not_false_eq_true, if_true, graph_at_map_index,
          Option.some.injEq]
        have hcp : ¬ (c = p) := fun e => hpc e.symm
        by_cases hbc : b = c
        · subst hbc
          have hbp : ¬ (b = p) := hcp
          by_cases ha : a = p
          · subst ha
            simp [hbp, hpc, weight_map_index]
          · have hpa : ¬ (p = a) := fun e => ha e.symm
            simp [hbp, weight_map_index, ha, hpa]
        · have hcb : ¬ (c = b) := fun e => hbc e.symm
          by_cases hbp : b = p
          · subst hbp
            simp [hbc, hcb]
          · simp [hbc, hcb, hbp]

theorem child_weight_count_node (g : graph_t) (l : Option line_id) (a b : line_id) :
    child_weight (count_node g l) a b = child_weight g a b := by
  unfold child_weight count_node
  cases l with
  | none => rfl
  | some l =>
    simp only [graph_at_map_index]
    by_cases h : a = l
    · subst h; simp
    · simp [h]

theorem parent_weight_count_node (g : graph_t) (l : Option line_id) (b a : line_id) :
    parent_weight (count_node g l) b a = parent_weight g b a := by
  unfold parent_weight count_node
  cases l with
  | none => rfl
  | some l =>
    simp only [graph_at_map_index]
    by_cases h : b = l
    · subst h; simp
    · simp [h]

theorem symmetric_visit (h : List node) (g : graph_t) (i : Nat) (hg : symmetric g) :
    symmetric (visit h g i) := by
  unfold visit
  have h0 : symmetric (count_node g (id_of h i)) := by
    intro a b
    rw [child_weight_count_node, parent_weight_count_node]
    exact hg a b
  generalize count_node g (id_of h i) = g0 at h0
  induction ancestors h i generalizing g0 with
  | nil => exact h0
  | cons x xs ih =>
    simp only [List.foldl_cons]
    apply ih
    intro a b
    rw [child_weight_add_child, parent_weight_add_child, h0 a b]

theorem symmetric_foldl_visit (h : List node) (l : List Nat) :
    ∀ g, symmetric g → symmetric (l.foldl (visit h) g) := by
  induction l with
  | nil => intro g hg; exact hg
  | cons x xs ih =>
    intro g hg
    exact ih _ (symmetric_visit h g x hg)

theorem get_graph_eq {s : instantiation_state} (ok : state_ok s) (g : graph_t) :
    get_graph s g = .ok ((subtree s.heap s.heap.length 0).foldl (visit s.heap) g) :=
  get_graph_impl_eq ok.1 s.heap.length g 0 ok.1.len_pos (by omega)

/-! ## Ancestors through `up` and descendants through `children` -/

theorem chain_fuel {h : List node} (ok : heap_ok h) :
    ∀ (f f' : Nat) (p : Option Nat), (∀ q, p = some q → q < f ∧ q < f') →
      chain h f p = chain h f' p := by
  intro f
  induction f with
  | zero =>
    intro f' p hp
    cases p with
    | none => cases f' <;> rfl
    | some q => exact absurd (hp q rfl).1 (by omega)
  | succ f ih =>
    intro f' p hp
    cases p with
    | none => cases f' <;> rfl
    | some q =>
      obtain ⟨h1, h2⟩ := hp q rfl
      cases f' with
      | zero => omega
      | succ f' =>
        simp only [chain]
        rw [ih f' (up_of h q)]
        intro q' hq'
        have := up_of_lt ok hq'
        omega

theorem ancestors_of_up {h : List node} (ok : heap_ok h) {j p : Nat}
    (hp : up_of h j = some p) : ancestors h j = p :: ancestors h p := by
  have hlt := up_of_lt ok hp
  unfold ancestors
  rw [hp]
  obtain ⟨n, hn⟩ : ∃ n, h.length = n + 1 := ⟨h.length - 1, by omega⟩
  rw [hn]
  simp only [chain]
  rw [chain_fuel ok n (n + 1) (up_of h p)]
  intro q hq
  have := up_of_lt ok hq
  omega

theorem ancestors_of_none {h : List node} {j : Nat} (hp : up_of h j = none) :
    ancestors h j = [] := by
  unfold ancestors
  rw [hp]
  cases h.length <;> rfl

theorem mem_ancestors_lt {h : List node} (ok : heap_ok h) :
    ∀ (j a : Nat), a ∈ ancestors h j → a < j := by
  intro j
  induction j using Nat.strong_induction_on with
  | _ j ih =>
    intro a ha
    cases hp : up_of h j with
    | none =>
      rw [ancestors_of_none hp] at ha
      cases ha
    | some p =>
      have hlt := up_of_lt ok hp
      rw [ancestors_of_up ok hp, List.mem_cons] at ha
      rcases ha with ha | ha
      · omega
      · have := ih p hlt.1 a ha
        omega

theorem mem_ancestors_length {h : List node} (ok : heap_ok h) {j a : Nat}
    (ha : a ∈ ancestors h j) : j < h.length := by
  cases hp : up_of h j with
  | none =>
    rw [ancestors_of_none hp] at ha
    cases ha
  | some p => exact (up_of_lt ok hp).2

theorem nodup_ancestors {h : List node} (ok : heap_ok h) :
    ∀ j : Nat, (ancestors h j).Nodup := by
  intro j
  induction j using Nat.strong_induction_on with
  | _ j ih =>
    cases hp : up_of h j with
    | none =>
      rw [ancestors_of_none hp]
      exact List.nodup_nil
    | some p =>
      have hlt := up_of_lt ok hp
      rw [ancestors_of_up ok hp, List.nodup_cons]
      refine ⟨?_, ih p hlt.1⟩
      intro hmem
      have := mem_ancestors_lt ok p p hmem
      omega

theorem mem_ancestors_up {h : List node} (ok : heap_ok h) :
    ∀ (j k i : Nat), k ∈ ancestors h j → up_of h k = some i → i ∈ ancestors h j := by
  intro j
  induction j using Nat.strong_induction_on with
  | _ j ih =>
    intro k i hk hi
    cases hp : up_of h j with
    | none =>
      rw [ancestors_of_none hp] at hk
      cases hk
    | some p =>
      have hlt := up_of_lt ok hp
      rw [ancestors_of_up ok hp, List.mem_cons] at hk ⊢
      right
      rcases hk with hk | hk
      · subst hk
        rw [ancestors_of_up ok hi]
        exact List.mem_cons_self _ _
      · exact ih p hlt.1 k i hk hi

theorem exists_up_of_mem_ancestors {h : List node} (ok : heap_ok h) :
    ∀ (j i : Nat), i ∈ ancestors h j →
      ∃ k, (k = j ∨ k ∈ ancestors h j) ∧ up_of h k = some i := by
  intro j
  induction j using Nat.strong_induction_on with
  | _ j ih =>
    intro i hi
    cases hp : up_of h j with
    | none =>
      rw [ancestors_of_none hp] at hi
      cases hi
    | some p =>
      have hlt := up_of_lt ok hp
      rw [ancestors_of_up ok hp] at hi ⊢
      rcases List.mem_cons.1 hi with hi | hi
      · subst hi
        exact ⟨j, Or.inl rfl, hp⟩
      · obtain ⟨k, hk, hup⟩ := ih p hlt.1 i hi
        refine ⟨k, Or.inr ?_, hup⟩
        rcases hk with hk | hk
        · subst hk
          exact List.mem_cons_self _ _
        · exact List.mem_cons_of_mem _ hk

theorem up_unique_on_chain {h : List node} (ok : heap_ok h) :
    ∀ (j k1 k2 i : Nat), (k1 = j ∨ k1 ∈ ancestors h j) → (k2 = j ∨ k2 ∈ ancestors h j) →
      up_of h k1 = some i → up_of h k2 = some i → k1 = k2 := by
  intro j
  induction j using Nat.strong_induction_on with
  | _ j ih =>
    intro k1 k2 i h1 h2 u1 u2
    cases hp : up_of h j with
    | none =>
      rw [ancestors_of_none hp] at h1 h2
      simp only [List.not_mem_nil, or_false] at h1 h2
      rw [h1, h2]
    | some p =>
      have hlt := up_of_lt ok hp
      rw [ancestors_of_up ok hp, List.mem_cons] at h1 h2
      have key : ∀ k, (k = p ∨ k ∈ ancestors h p) → up_of h k = some i →
          up_of h j = some i → False := by
        intro k hk uk uj
        have hip : p = i := by
          rw [hp] at uj
          exact Option.some.inj uj
        have hik := (up_of_lt ok uk).1
        rcases hk with hk | hk
        · omega
        · have := mem_ancestors_lt ok p k hk
          omega
      rcases h1 with h1 | h1
      · rcases h2 with h2 | h2
        · rw [h1, h2]
        · subst h1
          exact (key k2 h2 u2 u1).elim
      · rcases h2 with h2 | h2
        · subst h2
          exact (key k1 h1 u1 u2).elim
        · exact ih p hlt.1 k1 k2 i h1 h2 u1 u2

theorem subtree_fuel {h : List node} (ok : heap_ok h) :
    ∀ (f f' i : Nat), i < h.length → h.length ≤ f + i → h.length ≤ f' + i →
      subtree h f i = subtree h f' i := by
  intro f
  induction f with
  | zero => intro f' i hi hf; omega
  | succ f ih =>
    intro f' i hi hf hf'
    cases f' with
    | zero => omega
    | succ f' =>
      simp only [subtree]
      congr 1
      apply List.flatMap_congr
      intro k hk
      have := up_of_lt ok ((kids_of_mem ok hi).1 hk)
      exact ih f' k this.2 (by omega) (by omega)

theorem mem_subtree {h : List node} (ok : heap_ok h) :
    ∀ (f i j : Nat), i < h.length → h.length ≤ f + i →
      (j ∈ subtree h f i ↔ (j = i ∨ i ∈ ancestors h j)) := by
  intro f
  induction f with
  | zero => intro i j hi hf; omega
  | succ f ih =>
    intro i j hi hf
    simp only [subtree, List.mem_append, List.mem_flatMap, List.mem_singleton]
    constructor
    · rintro (⟨k, hk, hj⟩ | hj)
      · have hup := (kids_of_mem ok hi).1 hk
        have hlt := up_of_lt ok hup
        right
        rcases (ih k j hlt.2 (by omega)).1 hj with hj | hj
        · subst hj
          rw [ancestors_of_up ok hup]
          exact List.mem_cons_self _ _
        · exact mem_ancestors_up ok j k i hj hup
      · exact Or.inl hj
    · rintro (hj | hj)
      · exact Or.inr hj
      · left
        obtain ⟨k, hk, hup⟩ := exists_up_of_mem_ancestors ok j i hj
        have hlt := up_of_lt ok hup
        refine ⟨k, (kids_of_mem ok hi).2 hup, (ih k j hlt.2 (by omega)).2 ?_⟩
        rcases hk with hk | hk
        · exact Or.inl hk.symm
        · exact Or.inr hk

theorem nodup_kids_of {h : List node} (ok : heap_ok h) {i : Nat} (hi : i < h.length) :
    (kids_of h i).Nodup := by
  rw [ok.kids i hi]
  exact (List.nodup_range _).filter _

theorem nodup_subtree {h : List node} (ok : heap_ok h) :
    ∀ (f i : Nat), i < h.length → h.length ≤ f + i → (subtree h f i).Nodup := by
  intro f
  induction f with
  | zero => intro i hi hf; omega
  | succ f ih =>
    intro i hi hf
    simp only [subtree]
    rw [List.nodup_append]
    refine ⟨?_, List.nodup_singleton _, ?_⟩
    · rw [List.nodup_flatMap]
      constructor
      · intro k hk
        have := up_of_lt ok ((kids_of_mem ok hi).1 hk)
        exact ih k this.2 (by omega)
      · apply (nodup_kids_of ok hi).pairwise_of_forall_ne
        intro k1 hk1 k2 hk2 hne
        have u1 := (kids_of_mem ok hi).1 hk1
        have u2 := (kids_of_mem ok hi).1 hk2
        have l1 := up_of_lt ok u1
        have l2 := up_of_lt ok u2
        simp only [Function.onFun, List.disjoint_left]
        intro j hj1 hj2
        have m1 := (mem_subtree ok f k1 j l1.2 (by omega)).1 hj1
        have m2 := (mem_subtree ok f k2 j l2.2 (by omega)).1 hj2
        apply hne
        apply up_unique_on_chain ok j k1 k2 i _ _ u1 u2
        · rcases m1 with m1 | m1
          · exact Or.inl m1.symm
          · exact Or.inr m1
        · rcases m2 with m2 | m2
          · exact Or.inl m2.symm
          · exact Or.inr m2
    · rw [List.disjoint_left]
      intro j hj hji
      rw [List.mem_singleton] at hji
      subst hji
      obtain ⟨k, hk, hjk⟩ := List.mem_flatMap.1 hj
      have hup := (kids_of_mem ok hi).1 hk
      have hlt := up_of_lt ok hup
      rcases (mem_subtree ok f k j hlt.2 (by omega)).1 hjk with e | e
      · omega
      · have := mem_ancestors_lt ok j k e
        omega

theorem root_mem_ancestors {h : List node} (ok : heap_ok h) :
    ∀ j : Nat, 0 < j → j < h.length → 0 ∈ ancestors h j := by
  intro j
  induction j using Nat.strong_induction_on with
  | _ j ih =>
    intro hj hlt
    obtain ⟨p, hp, hpj⟩ := ok.up_lt j hj hlt
    rw [ancestors_of_up ok hp]
    rcases Nat.eq_zero_or_pos p with h0 | h0
    · subst h0
      exact List.mem_cons_self _ _
    · exact List.mem_cons_of_mem _ (ih p hpj h0 (by omega))

theorem mem_subtree_root {h : List node} (ok : heap_ok h) (j : Nat) :
    j ∈ subtree h h.length 0 ↔ j < h.length := by
  rw [mem_subtree ok h.length 0 j ok.len_pos (by omega)]
  constructor
  · rintro (hj | hj)
    · rw [hj]; exact ok.len_pos
    · exact mem_ancestors_length ok hj
  · intro hj
    rcases Nat.eq_zero_or_pos j with h0 | h0
    · exact Or.inl h0
    · exact Or.inr (root_mem_ancestors ok j h0 hj)

theorem subtree_root_perm {h : List node} (ok : heap_ok h) :
    (subtree h h.length 0).Perm (List.range h.length) := by
  rw [List.perm_ext_iff_of_nodup (nodup_subtree ok h.length 0 ok.len_pos (by omega))
    (List.nodup_range _)]
  intro j
  rw [mem_subtree_root ok, List.mem_range]

/-! ## The aggregated graph -/

theorem subtree_succ (h : List node) (a : Nat) :
    subtree h (h.length + 1) a = descendants h a ++ [a] := rfl

theorem nodup_descendants {h : List node} (ok : heap_ok h) {a : Nat} (ha : a < h.length) :
    (descendants h a).Nodup := by
  have := nodup_subtree ok (h.length + 1) a ha (by omega)
  rw [subtree_succ, List.nodup_append] at this
  exact this.1

theorem mem_descendants {h : List node} (ok : heap_ok h) {a n : Nat} (ha : a < h.length) :
    n ∈ descendants h a ↔ a ∈ ancestors h n := by
  have hm := mem_subtree ok (h.length + 1) a n ha (by omega)
  have hnd := nodup_subtree ok (h.length + 1) a ha (by omega)
  rw [subtree_succ] at hm hnd
  rw [List.mem_append, List.mem_singleton] at hm
  rw [List.nodup_append] at hnd
  constructor
  · intro hn
    rcases hm.1 (Or.inl hn) with e | e
    · subst e
      exact (List.disjoint_left.1 hnd.2.2 hn (List.mem_singleton_self _)).elim
    · exact e
  · intro hn
    rcases hm.2 (Or.inr hn) with e | e
    · exact e
    · have := mem_ancestors_lt ok n a hn
      omega

theorem subtree_root_eq {h : List node} (ok : heap_ok h) :
    subtree h h.length 0 = descendants h 0 ++ [0] := by
  rw [← subtree_succ]
  exact subtree_fuel ok _ _ 0 ok.len_pos (by omega) (by omega)

theorem walked_pairs_perm {h : List node} (ok : heap_ok h) :
    (walked_pairs h (subtree h h.length 0)).Perm (ancestor_pairs h) := by
  have hT := nodup_subtree ok h.length 0 ok.len_pos (by omega)
  have nd1 : (walked_pairs h (subtree h h.length 0)).Nodup := by
    unfold walked_pairs
    rw [List.nodup_flatMap]
    constructor
    · intro n _
      exact (nodup_ancestors ok n).map (fun x y hxy => (Prod.mk.inj hxy).2)
    · apply hT.pairwise_of_forall_ne
      intro n1 _ n2 _ hne
      simp only [Function.onFun, List.disjoint_left, List.mem_map]
      rintro ⟨x, y⟩ ⟨a1, _, e1⟩ ⟨a2, _, e2⟩
      apply hne
      rw [(Prod.mk.inj e1).1, (Prod.mk.inj e2).1]
  have nd2 : (ancestor_pairs h).Nodup := by
    unfold ancestor_pairs
    rw [List.nodup_flatMap]
    constructor
    · intro a ha
      exact (nodup_descendants ok ((mem_subtree_root ok a).1 ha)).map
        (fun x y hxy => (Prod.mk.inj hxy).1)
    · apply hT.pairwise_of_forall_ne
      intro a1 _ a2 _ hne
      simp only [Function.onFun, List.disjoint_left, List.mem_map]
      rintro ⟨x, y⟩ ⟨n1, _, e1⟩ ⟨n2, _, e2⟩
      apply hne
      rw [(Prod.mk.inj e1).2, (Prod.mk.inj e2).2]
  rw [List.perm_ext_iff_of_nodup nd1 nd2]
  rintro ⟨n, a⟩
  unfold walked_pairs ancestor_pairs
  simp only [List.mem_flatMap, List.mem_map, Prod.mk.injEq]
  constructor
  · rintro ⟨n', _, a', ha', rfl, rfl⟩
    have hlt := mem_ancestors_lt ok n' a' ha'
    have hlen := mem_ancestors_length ok ha'
    have hal : a' < h.length := by omega
    exact ⟨a', (mem_subtree_root ok a').2 hal, n', (mem_descendants ok hal).2 ha', rfl, rfl⟩
  · rintro ⟨a', ha', n', hn', rfl, rfl⟩
    have hal := (mem_subtree_root ok a').1 ha'
    have hanc := (mem_descendants ok hal).1 hn'
    exact ⟨n', (mem_subtree_root ok n').2 (mem_ancestors_length ok hanc), a', hanc, rfl, rfl⟩

theorem count_add_child (g : graph_t) (p c : Option line_id) (l : line_id) :
    (graph_at (add_child g p c) l).count = (graph_at g l).count := by
  unfold add_child
  cases p with
  | none => rfl
  | some p =>
    cases c with
    | none => rfl
    | some c =>
      by_cases hpc : p = c
      · simp [hpc]
      · simp only [ne_eq, hpc, not_false_eq_true, if_true, graph_at_map_index]
        have hcp : ¬ (c = p) := fun e => hpc e.symm
        by_cases h1 : l = p
        · subst h1
          simp [hpc]
        · by_cases h2 : l = c
          · subst h2
            simp [h1]
          · simp [h1, h2]

theorem count_visit (h : List node) (g : graph_t) (i : Nat) (l : line_id) :
    (graph_at (visit h g i) l).count =
      (graph_at g l).count + if id_of h i = some l then 1 else 0 := by
  unfold visit
  have h0 : (graph_at (count_node g (id_of h i)) l).count =
      (graph_at g l).count + if id_of h i = some l then 1 else 0 := by
    unfold count_node
    cases hid : id_of h i with
    | none => simp
    | some l' =>
      simp only [graph_at_map_index, Option.some.injEq]
      by_cases e : l = l'
      · subst e; simp
      · have : ¬ (l' = l) := fun x => e x.symm
        simp [e, this]
  generalize count_node g (id_of h i) = g0 at h0
  induction ancestors h i generalizing g0 with
  | nil => exact h0
  | cons x xs ih =>
    simp only [List.foldl_cons]
    apply ih
    rw [count_add_child]
    exact h0

theorem count_foldl_visit (h : List node) (l : line_id) (t : List Nat) :
    ∀ g : graph_t, (graph_at (t.foldl (visit h) g) l).count =
      (graph_at g l).count + t.countP (fun n => decide (id_of h n = some l)) := by
  induction t with
  | nil => intro g; simp
  | cons x xs ih =>
    intro g
    rw [List.foldl_cons, ih, count_visit, List.countP_cons]
    simp only [decide_eq_true_eq]
    omega

theorem child_weight_visit (h : List node) (g : graph_t) (i : Nat) (a b : line_id) :
    child_weight (visit h g i) a b =
      child_weight g a b +
        (ancestors h i).countP
          (fun x => decide (id_of h x = some a ∧ id_of h i = some b ∧ a ≠ b)) := by
  unfold visit
  have key : ∀ (xs : List Nat) (g0 : graph_t) (k : Nat),
      child_weight g0 a b = child_weight g a b + k →
      child_weight (xs.foldl (fun g x => add_child g (id_of h x) (id_of h i)) g0) a b =
        child_weight g a b + (k + xs.countP
          (fun x => decide (id_of h x = some a ∧ id_of h i = some b ∧ a ≠ b))) := by
    intro xs
    induction xs with
    | nil => intro g0 k hk; simpa using hk
    | cons x xs ih =>
      intro g0 k hk
      rw [List.foldl_cons, ih _ (k + if id_of h x = some a ∧ id_of h i = some b ∧ a ≠ b
        then 1 else 0), List.countP_cons]
      · simp only [decide_eq_true_eq]
        omega
      · rw [child_weight_add_child, hk]
        omega
  have := key (ancestors h i) (count_node g (id_of h i)) 0
    (by rw [child_weight_count_node]; rfl)
  simpa using this

theorem child_weight_foldl_visit (h : List node) (a b : line_id) (hab : a ≠ b) (t : List Nat) :
    ∀ g : graph_t, child_weight (t.foldl (visit h) g) a b =
      child_weight g a b + (walked_pairs h t).countP
        (fun na => decide (id_of h na.1 = some b ∧ id_of h na.2 = some a)) := by
  induction t with
  | nil => intro g; simp [walked_pairs]
  | cons x xs ih =>
    intro g
    rw [List.foldl_cons, ih, child_weight_visit]
    have hx : (ancestors h x).countP
        (fun y => decide (id_of h y = some a ∧ id_of h x = some b ∧ a ≠ b)) =
        ((ancestors h x).map (fun y => (x, y))).countP
          (fun na => decide (id_of h na.1 = some b ∧ id_of h na.2 = some a)) := by
      rw [List.countP_map]
      apply List.countP_congr
      intro y _
      simp [hab, and_comm]
    have hw : walked_pairs h (x :: xs) =
        (ancestors h x).map (fun y => (x, y)) ++ walked_pairs h xs := by
      simp [walked_pairs]
    rw [hw, List.countP_append, hx]
    unfold walked_pairs
    omega

theorem graph_of_calls (cs : List call) :
    ∃ s, run_calls instantiation_state.init cs = .ok s ∧ state_ok s ∧
      get_graph s [] = .ok ((subtree s.heap s.heap.length 0).foldl (visit s.heap) []) := by
  obtain ⟨s, hs, ok⟩ := run_calls_ok cs _ state_ok_init
  exact ⟨s, hs, ok, get_graph_eq ok []⟩

theorem graph_at_nil (l : line_id) : graph_at [] l = {} := rfl

/-! ## The two loops -/

theorem settled_none (bd : Nat) (s : instantiation_state) :
    settled ⟨bd, s, none⟩ = s := by
  unfold settled
  cases s.current <;> rfl

theorem settled_some (bd : Nat) (s : instantiation_state) (l : line_id) (c : Nat)
    (hc : s.current = some c) :
    settled ⟨bd, s, some l⟩ = ⟨heap_add s.heap c (some l), some s.heap.length⟩ := by
  unfold settled
  simp only [hc]

theorem state_ok_settled (st : loop_state) (ok : state_ok st.state) :
    state_ok (settled st) := by
  obtain ⟨bd, s, ci⟩ := st
  cases ci with
  | none =>
    rw [settled_none]
    exact ok
  | some l =>
    obtain ⟨c, hc, _, _, ok'⟩ := state_ok_add s (some l) 0 ok
    rw [settled_some bd s l c hc]
    exact ok'

theorem commit_eq (st : loop_state) (ok : state_ok st.state) :
    commit st = .ok { st with state := settled st } := by
  obtain ⟨bd, s, ci⟩ := st
  cases ci with
  | none =>
    rw [settled_none]
    rfl
  | some l =>
    obtain ⟨c, hc, hlt, heq, _⟩ := state_ok_add s (some l) bd ok
    rw [settled_some bd s l c hc]
    simp only [commit, heq, bind, Except.bind, pure, Except.pure]

theorem msvc_step_enter (st : loop_state) (l : line_id) (ok : state_ok st.state) :
    msvc_step st (located.event (.enter l)) =
      .ok ⟨st.backtrace_depth, settled st, some l⟩ := by
  simp only [located.event, msvc_step, commit_eq st ok, bind, Except.bind, pure, Except.pure]

theorem msvc_step_exit (st : loop_state) (ok : state_ok st.state) :
    ∃ s, finish_instantiation (settled st) = .ok s ∧ state_ok s ∧ s.heap = (settled st).heap ∧
      msvc_step st (located.event .exit) =
        .ok ⟨if st.backtrace_depth ≠ 0 then st.backtrace_depth - 1 else st.backtrace_depth,
          s, none⟩ := by
  obtain ⟨c, _, _, heq, ok'⟩ := state_ok_finish (settled st) (state_ok_settled st ok)
  refine ⟨_, heq, ok', rfl, ?_⟩
  simp only [located.event, msvc_step, commit_eq st ok, bind, Except.bind, pure, Except.pure,
    heq]

theorem add_instantiation_backtrace (s : instantiation_state) (l : Option line_id)
    (b b' : Nat) : add_instantiation s l b = add_instantiation s l b' := rfl

theorem loops_agree (evs : List located) :
    ∀ stm stg : loop_state, state_ok stm.state → settled stm = stg.state →
      ∃ sm sg, (evs.map located.event).foldlM msvc_step stm = .ok sm ∧
        (evs.map located.event).foldlM gnuc_step stg = .ok sg ∧
        state_ok sm.state ∧ settled sm = sg.state := by
  induction evs with
  | nil =>
    intro stm stg ok hs
    exact ⟨stm, stg, rfl, rfl, ok, hs⟩
  | cons e es ih =>
    intro stm stg ok hs
    have oks := state_ok_settled stm ok
    cases e with
    | enter l =>
      obtain ⟨c, hc, hlt, heq, ok'⟩ := state_ok_add (settled stm) (some l)
        (stg.backtrace_depth + 1) oks
      have hg : gnuc_step stg (located.event (.enter l)) =
          .ok ⟨0, ⟨heap_add (settled stm).heap c (some l), some (settled stm).heap.length⟩,
            some l⟩ := by
        simp only [located.event, gnuc_step, ← hs, heq, bind, Except.bind, pure, Except.pure]
      obtain ⟨sm, sg, h1, h2, h3⟩ := ih ⟨stm.backtrace_depth, settled stm, some l⟩
        ⟨0, ⟨heap_add (settled stm).heap c (some l), some (settled stm).heap.length⟩, some l⟩
        oks (settled_some _ _ l c hc)
      refine ⟨sm, sg, ?_, ?_, h3⟩
      · rw [List.map_cons, List.foldlM_cons, msvc_step_enter stm l ok]
        exact h1
      · rw [List.map_cons, List.foldlM_cons, hg]
        exact h2
    | frame =>
      obtain ⟨sm, sg, h1, h2, h3⟩ := ih { stm with backtrace_depth := stm.backtrace_depth + 1 }
        { stg with backtrace_depth := stg.backtrace_depth + 1 } ok hs
      exact ⟨sm, sg, h1, h2, h3⟩
    | unmatched =>
      obtain ⟨sm, sg, h1, h2, h3⟩ := ih stm stg ok hs
      exact ⟨sm, sg, h1, h2, h3⟩
    | exit =>
      obtain ⟨s, hfin, oks', _, hstep⟩ := msvc_step_exit stm ok
      have hg : gnuc_step stg (located.event .exit) =
          .ok { stg with state := s, backtrace_depth := 0 } := by
        simp only [located.event, gnuc_step, ← hs, hfin, bind, Except.bind, pure, Except.pure]
      obtain ⟨sm, sg, h1, h2, h3⟩ := ih
        ⟨if stm.backtrace_depth ≠ 0 then stm.backtrace_depth - 1 else stm.backtrace_depth,
          s, none⟩ { stg with state := s, backtrace_depth := 0 } oks' (settled_none _ _)
      refine ⟨sm, sg, ?_, ?_, h3⟩
      · rw [List.map_cons, List.foldlM_cons, hstep]
        exact h1
      · rw [List.map_cons, List.foldlM_cons, hg]
        exact h2

theorem loops_agree_init (evs : List located) :
    ∃ sm sg, (evs.map located.event).foldlM msvc_step loop_state.init = .ok sm ∧
      gnuc_loop (evs.map located.event) = .ok sg ∧ state_ok sm.state ∧
      msvc_loop (evs.map located.event) = .ok { sm with state := settled sm } ∧
      settled sm = sg.state :=by
  obtain ⟨sm, sg, h1, h2, h3, h4⟩ := loops_agree evs loop_state.init loop_state.init
    state_ok_init rfl
  refine ⟨sm, sg, h1, h2, h3, ?_, h4⟩
  simp only [msvc_loop, h1, bind, Except.bind, commit_eq sm h3]

theorem map_id_heap_add (h : List node) (c : Nat) (l : Option line_id) (hc : c < h.length) :
    (heap_add h c l).map node.id = h.map node.id ++ [l] := by
  apply List.ext_getElem?
  intro j
  rw [List.getElem?_map, getElem?_heap_add h c l j hc]
  by_cases h1 : j = h.length
  · subst h1
    simp [new_node, List.getElem?_append_right]
  · by_cases h2 : j = c
    · subst h2
      have hget : h[j]? = some h[j] := List.getElem?_eq_getElem hc
      simp [h1, with_child, id_of, hget, List.getElem?_append_left, hc]
    · by_cases h3 : j < h.length
      · simp [h1, h2, List.getElem?_append_left, h3]
      · have hn : h[j]? = none := List.getElem?_eq_none (by omega)
        have hn2 : (h.map node.id ++ [l])[j]? = none :=
          List.getElem?_eq_none (by simp; omega)
        simp [h1, h2, hn, hn2]

theorem gnuc_fold_ids (evs : List located) :
    ∀ stg : loop_state, state_ok stg.state →
      ∃ sg, (evs.map located.event).foldlM gnuc_step stg = .ok sg ∧ state_ok sg.state ∧
        sg.state.heap.map node.id =
          stg.state.heap.map node.id ++ (enter_locations evs).map some := by
  induction evs with
  | nil =>
    intro stg ok
    exact ⟨stg, rfl, ok, by simp [enter_locations]⟩
  | cons e es ih =>
    intro stg ok
    cases e with
    | enter l =>
      obtain ⟨c, hc, hlt, heq, ok'⟩ := state_ok_add stg.state (some l)
        (stg.backtrace_depth + 1) ok
      obtain ⟨sg, h1, h2, h3⟩ := ih
        ⟨0, ⟨heap_add stg.state.heap c (some l), some stg.state.heap.length⟩, some l⟩ ok'
      refine ⟨sg, ?_, h2, ?_⟩
      · rw [List.map_cons, List.foldlM_cons]
        simp only [located.event, gnuc_step, heq, bind, Except.bind, pure, Except.pure]
        exact h1
      · rw [h3, map_id_heap_add _ _ _ hlt]
        simp [enter_locations]
    | frame =>
      obtain ⟨sg, h1, h2, h3⟩ :=
        ih { stg with backtrace_depth := stg.backtrace_depth + 1 } ok
      exact ⟨sg, h1, h2, h3⟩
    | unmatched =>
      obtain ⟨sg, h1, h2, h3⟩ := ih stg ok
      exact ⟨sg, h1, h2, h3⟩
    | exit =>
      obtain ⟨c, _, _, heq, ok'⟩ := state_ok_finish stg.state ok
      obtain ⟨sg, h1, h2, h3⟩ := ih
        { stg with state := ⟨stg.state.heap, if c = 0 then some 0 else up_of stg.state.heap c⟩,
                   backtrace_depth := 0 } ok'
      refine ⟨sg, ?_, h2, h3⟩
      rw [List.map_cons, List.foldlM_cons]
      simp only [located.event, gnuc_step, heq, bind, Except.bind, pure, Except.pure]
      exact h1

theorem descendants_root_perm {h : List node} (ok : heap_ok h) :
    (descendants h 0).Perm (List.range h.length).tail := by
  have hp := subtree_root_perm ok
  rw [subtree_root_eq ok] at hp
  obtain ⟨n, hn⟩ : ∃ n, h.length = n + 1 := ⟨h.length - 1, by have := ok.len_pos; omega⟩
  rw [hn] at hp ⊢
  rw [List.range_succ_eq_map] at hp ⊢
  have h2 : (0 :: descendants h 0).Perm (0 :: List.map Nat.succ (List.range n)) :=
    (List.perm_append_singleton 0 (descendants h 0)).symm.trans hp
  simpa using h2.cons_inv

theorem map_id_of_range (h : List node) :
    (List.range h.length).map (id_of h) = h.map node.id := by
  apply List.ext_getElem?
  intro j
  by_cases hj : j < h.length
  · have hget : h[j]? = some h[j] := List.getElem?_eq_getElem hj
    simp [List.getElem?_map, List.getElem?_range hj, id_of, hget]
  · have h1 : ((List.range h.length).map (id_of h))[j]? = none :=
      List.getElem?_eq_none (by simp; omega)
    have h2 : (h.map node.id)[j]? = none := List.getElem?_eq_none (by simp; omega)
    rw [h1, h2]

theorem pending_kept (rest : List located)
    (hrest : ∀ e ∈ rest, e = located.frame ∨ e = located.unmatched) :
    ∀ st : loop_state, ∃ bd, (rest.map located.event).foldlM msvc_step st =
      .ok { st with backtrace_depth := bd } := by
  induction rest with
  | nil => intro st; exact ⟨st.backtrace_depth, rfl⟩
  | cons e es ih =>
    intro st
    have hes : ∀ e ∈ es, e = located.frame ∨ e = located.unmatched :=
      fun e he => hrest e (List.mem_cons_of_mem _ he)
    rcases hrest e (List.mem_cons_self _ _) with he | he
    · subst he
      obtain ⟨bd, hbd⟩ := ih hes { st with backtrace_depth := st.backtrace_depth + 1 }
      refine ⟨bd, ?_⟩
      rw [List.map_cons, List.foldlM_cons]
      simp only [located.event, msvc_step, bind, Except.bind, pure, Except.pure]
      exact hbd
    · subst he
      obtain ⟨bd, hbd⟩ := ih hes st
      refine ⟨bd, ?_⟩
      rw [List.map_cons, List.foldlM_cons]
      simp only [located.event, msvc_step, bind, Except.bind, pure, Except.pure]
      exact hbd

theorem pending_after_enter (evs0 : List located) (l : line_id) (rest : List located)
    (hrest : ∀ e ∈ rest, e = located.frame ∨ e = located.unmatched) :
    ∀ stm : loop_state, state_ok stm.state →
      ∃ st0, ((evs0 ++ located.enter l :: rest).map located.event).foldlM msvc_step stm =
          .ok st0 ∧ state_ok st0.state ∧ st0.current_instantiation = some l := by
  intro stm ok
  obtain ⟨sm, _, h1, _, h3, _⟩ := loops_agree evs0 stm ⟨0, settled stm, none⟩ ok rfl
  obtain ⟨bd, hbd⟩ := pending_kept rest hrest ⟨sm.backtrace_depth, settled sm, some l⟩
  refine ⟨⟨bd, settled sm, some l⟩, ?_, state_ok_settled sm h3, rfl⟩
  rw [List.map_append, List.foldlM_append, h1, List.map_cons]
  simp only [bind, Except.bind, List.foldlM_cons, msvc_step_enter sm l h3]
  exact hbd

/-! ## The `_MSC_VER` loop on balanced streams -/

theorem stack_ok_heap_add (h : List node) (c : Nat) (l : Option line_id) (hc : c < h.length) :
    ∀ stack : List Nat, stack_ok h stack → stack_ok (heap_add h c l) stack := by
  intro stack
  induction stack with
  | nil => intro _; trivial
  | cons x rest ih =>
    intro hs
    obtain ⟨h1, h2, h3, h4, h5⟩ := hs
    have hne : x ≠ h.length := by omega
    refine ⟨h1, ?_, ?_, ?_, ih h5⟩
    · rw [length_heap_add]; omega
    · rw [up_of_heap_add h c l x hc, if_neg hne]; exact h3
    · rw [depth_of_heap_add h c l x hc, if_neg hne]; exact h4

theorem stack_top (h : List node) (ok : heap_ok h) (stack : List Nat) (hs : stack_ok h stack) :
    stack.headD 0 < h.length ∧ depth_of h (stack.headD 0) = stack.length := by
  cases stack with
  | nil => exact ⟨ok.len_pos, ok.root_depth⟩
  | cons x rest => exact ⟨hs.2.1, hs.2.2.2.1⟩

theorem gnuc_fold_bracket (evs : List located) :
    ∀ (stg : loop_state) (b : bracket_state), heap_ok b.tree → stack_ok b.tree b.unclosed →
      stg.state = ⟨b.tree, some (b.unclosed.headD 0)⟩ →
      ∃ sg, (evs.map located.event).foldlM gnuc_step stg = .ok sg ∧
        sg.state = ⟨(evs.foldl bracket_step b).tree,
          some ((evs.foldl bracket_step b).unclosed.headD 0)⟩ ∧
        ∀ k, nesting b.unclosed.length evs = some k →
          (evs.foldl bracket_step b).unclosed.length = k := by
  induction evs with
  | nil =>
    intro stg b _ _ hst
    refine ⟨stg, rfl, hst, ?_⟩
    intro k hk
    simp only [nesting, Option.some.injEq] at hk
    simpa using hk
  | cons e es ih =>
    intro stg b hok hstack hst
    obtain ⟨htop, hdepth⟩ := stack_top b.tree hok b.unclosed hstack
    have oks : state_ok stg.state := by
      rw [hst]
      exact ⟨hok, _, rfl, htop⟩
    cases e with
    | enter l =>
      obtain ⟨c, hc, hlt, heq, ok'⟩ := state_ok_add stg.state (some l)
        (stg.backtrace_depth + 1) oks
      have hcb : c = b.unclosed.headD 0 := by
        rw [hst] at hc
        exact (Option.some.inj hc).symm
      have hheap : stg.state.heap = b.tree := by rw [hst]
      have hadd : heap_add stg.state.heap c (some l) =
          (bracket_step b (.enter l)).tree := by
        simp only [bracket_step, heap_add, new_node, hheap, hcb, hdepth]
      have hlen : stg.state.heap.length = b.tree.length := by rw [hheap]
      obtain ⟨sg, h1, h2, h3⟩ := ih
        ⟨0, ⟨heap_add stg.state.heap c (some l), some stg.state.heap.length⟩, some l⟩
        (bracket_step b (.enter l))
        (by rw [← hadd]; exact ok'.1)
        (by
          rw [← hadd]
          simp only [bracket_step]
          refine ⟨?_, ?_, ?_, ?_, ?_⟩
          · rw [← hlen]; exact oks.1.len_pos
          · rw [length_heap_add]; omega
          · rw [up_of_heap_add _ _ _ _ hlt, ← hlen, if_pos rfl, hcb]
          · rw [depth_of_heap_add _ _ _ _ hlt, ← hlen, if_pos rfl, hcb, hheap, hdepth]
          · exact stack_ok_heap_add _ _ _ hlt _ (by rw [hheap]; exact hstack))
        (by
          rw [← hadd]
          simp only [bracket_step, hlen, List.headD_cons])
      refine ⟨sg, ?_, h2, ?_⟩
      · rw [List.map_cons, List.foldlM_cons]
        simp only [located.event, gnuc_step, heq, bind, Except.bind, pure, Except.pure]
        exact h1
      · intro k hk
        exact h3 k (by simpa [nesting, bracket_step] using hk)
    | frame =>
      obtain ⟨sg, h1, h2, h3⟩ := ih { stg with backtrace_depth := stg.backtrace_depth + 1 }
        b hok hstack hst
      exact ⟨sg, h1, h2, fun k hk => h3 k (by simpa [nesting] using hk)⟩
    | unmatched =>
      obtain ⟨sg, h1, h2, h3⟩ := ih stg b hok hstack hst
      exact ⟨sg, h1, h2, fun k hk => h3 k (by simpa [nesting] using hk)⟩
    | exit =>
      obtain ⟨c, hc, _, heq, _⟩ := state_ok_finish stg.state oks
      have hcb : c = b.unclosed.headD 0 := by
        rw [hst] at hc
        exact (Option.some.inj hc).symm
      have hheap : stg.state.heap = b.tree := by rw [hst]
      have hcur : (if c = 0 then some 0 else up_of stg.state.heap c) =
          some (b.unclosed.tail.headD 0) := by
        rw [hheap]
        cases hu : b.unclosed with
        | nil =>
          rw [hu] at hcb
          simp [hcb]
        | cons x rest =>
          rw [hu] at hcb hstack
          obtain ⟨hx, _, hup, _, _⟩ := hstack
          have hx0 : ¬ (x = 0) := by omega
          simp [hcb, hx0, hup]
      have hstack' : stack_ok b.tree b.unclosed.tail := by
        cases hu : b.unclosed with
        | nil => trivial
        | cons x rest =>
          rw [hu] at hstack
          exact hstack.2.2.2.2
      obtain ⟨sg, h1, h2, h3⟩ := ih
        { stg with state := ⟨stg.state.heap, if c = 0 then some 0 else up_of stg.state.heap c⟩,
                   backtrace_depth := 0 }
        (bracket_step b .exit) hok hstack' (by rw [hcur, hheap]; rfl)
      refine ⟨sg, ?_, h2, ?_⟩
      · rw [List.map_cons, List.foldlM_cons]
        simp only [located.event, gnuc_step, heq, bind, Except.bind, pure, Except.pure]
        exact h1
      · intro k hk
        apply h3 k
        cases hu : b.unclosed with
        | nil =>
          rw [hu] at hk
          simp [nesting] at hk
        | cons x rest =>
          rw [hu] at hk
          simpa [nesting, bracket_step, hu] using hk

/-! ## The frequency table -/

theorem keys_map_index {K V : Type} [DecidableEq K] (dflt : V) (f : V → V) (k : K)
    (m : List (K × V)) :
    (map_index dflt f k m).map Prod.fst =
      if k ∈ m.map Prod.fst then m.map Prod.fst else m.map Prod.fst ++ [k] := by
  induction m with
  | nil => simp [map_index]
  | cons x m ih =>
    obtain ⟨k0, v⟩ := x
    by_cases h0 : k0 = k
    · subst h0
      simp [map_index]
    · have h1 : ¬ (k = k0) := fun e => h0 e.symm
      simp only [map_index, h0, if_false, List.map_cons, ih, List.mem_cons, h1, false_or]
      by_cases hm : k ∈ m.map Prod.fst
      · simp only [hm, if_true]
      · simp only [hm, if_false, List.cons_append]

theorem nodup_keys_map_index {K V : Type} [DecidableEq K] (dflt : V) (f : V → V) (k : K)
    (m : List (K × V)) (hm : (m.map Prod.fst).Nodup) :
    ((map_index dflt f k m).map Prod.fst).Nodup := by
  rw [keys_map_index]
  by_cases hk : k ∈ m.map Prod.fst
  · simpa [hk] using hm
  · simp only [hk, if_false]
    rw [List.nodup_append]
    exact ⟨hm, List.nodup_singleton _, by simpa [List.disjoint_left] using hk⟩

theorem sum_map_index (k : String) (m : List (String × Nat)) :
    ((map_index 0 (· + 1) k m).map Prod.snd).sum = (m.map Prod.snd).sum + 1 := by
  induction m with
  | nil => simp [map_index]
  | cons x m ih =>
    obtain ⟨k0, v⟩ := x
    by_cases h0 : k0 = k
    · simp [map_index, h0]
      omega
    · simp only [map_index, h0, if_false, List.map_cons, List.sum_cons, ih]
      omega

theorem map_find_of_mem {K V : Type} [DecidableEq K] (m : List (K × V))
    (hm : (m.map Prod.fst).Nodup) (k : K) (v : V) (hkv : (k, v) ∈ m) :
    map_find m k = some v := by
  induction m with
  | nil => cases hkv
  | cons x m ih =>
    obtain ⟨k0, v0⟩ := x
    rw [List.map_cons, List.nodup_cons] at hm
    rcases List.mem_cons.1 hkv with e | e
    · cases e
      simp [map_find]
    · have hne : ¬ (k0 = k) := by
        intro e'
        subst e'
        exact hm.1 (List.mem_map.2 ⟨(k0, v), e, rfl⟩)
      simp only [map_find, hne, if_false]
      exact ih hm.2 e

theorem frequency_fold (p : patterns) (input : List String) :
    ∀ t : tally, (t.messages.map Prod.fst).Nodup →
      ((input.foldl (tally_line p) t).messages.map Prod.fst).Nodup ∧
      (∀ x, x ∈ (input.foldl (tally_line p) t).messages.map Prod.fst ↔
        x ∈ t.messages.map Prod.fst ∨ x ∈ enter_texts p input) ∧
      (∀ x, (map_find (input.foldl (tally_line p) t).messages x).getD 0 =
        (map_find t.messages x).getD 0 + (enter_texts p input).count x) ∧
      (input.foldl (tally_line p) t).total_matches =
        t.total_matches + (enter_texts p input).length ∧
      ((input.foldl (tally_line p) t).messages.map Prod.snd).sum =
        (t.messages.map Prod.snd).sum + (enter_texts p input).length := by
  induction input with
  | nil =>
    intro t ht
    simp [enter_texts, ht]
  | cons line rest ih =>
    intro t ht
    rw [List.foldl_cons]
    cases hm : p.enter_message line with
    | none =>
      have hstep : tally_line p t line = t := by simp [tally_line, hm]
      have htexts : enter_texts p (line :: rest) = enter_texts p rest := by
        simp [enter_texts, List.filterMap_cons, hm]
      rw [hstep, htexts]
      exact ih t ht
    | some m1 =>
      have hstep : tally_line p t line =
          ⟨map_index 0 (· + 1) m1 t.messages, t.total_matches + 1,
            max t.max_match_length m1.length⟩ := by simp [tally_line, hm]
      have htexts : enter_texts p (line :: rest) = m1 :: enter_texts p rest := by
        simp [enter_texts, List.filterMap_cons, hm]
      rw [hstep, htexts]
      obtain ⟨i1, i2, i3, i4, i5⟩ := ih ⟨map_index 0 (· + 1) m1 t.messages, t.total_matches + 1,
        max t.max_match_length m1.length⟩ (nodup_keys_map_index _ _ _ _ ht)
      refine ⟨i1, ?_, ?_, ?_, ?_⟩
      · intro x
        rw [i2 x]
        simp only [keys_map_index, List.mem_cons]
        by_cases hk : m1 ∈ t.messages.map Prod.fst
        · simp only [hk, if_true]
          constructor
          · rintro (h | h)
            · exact Or.inl h
            · exact Or.inr (Or.inr h)
          · rintro (h | h | h)
            · exact Or.inl h
            · subst h; exact Or.inl hk
            · exact Or.inr h
        · simp only [hk, if_false, List.mem_append, List.mem_singleton]
          tauto
      · intro x
        rw [i3 x]
        simp only [map_find_map_index, List.count_cons]
        by_cases hx : x = m1
        · subst hx
          simp
          omega
        · have hx' : ¬ (m1 = x) := fun e => hx e.symm
          simp [hx, hx']
      · rw [i4]
        simp only [List.length_cons]
        omega
      · rw [i5, sum_map_index]
        simp only [List.length_cons]
        omega

theorem frequency_pass_spec (p : patterns) (input : List String) :
    ((frequency_pass p input).messages.map Prod.fst).Nodup ∧
    (∀ x, x ∈ (frequency_pass p input).messages.map Prod.fst ↔ x ∈ enter_texts p input) ∧
    (∀ x n, (x, n) ∈ (frequency_pass p input).messages → n = (enter_texts p input).count x) ∧
    (frequency_pass p input).total_matches = (enter_texts p input).length ∧
    ((frequency_pass p input).messages.map Prod.snd).sum = (enter_texts p input).length := by
  obtain ⟨i1, i2, i3, i4, i5⟩ := frequency_fold p input ⟨[], 0, 0⟩ List.nodup_nil
  refine ⟨i1, ?_, ?_, ?_, ?_⟩
  · intro x
    simpa using i2 x
  · intro x n hx
    have h3 : (map_find (frequency_pass p input).messages x).getD 0 =
        (map_find ([] : List (String × Nat)) x).getD 0 + (enter_texts p input).count x := i3 x
    rw [map_find_of_mem (frequency_pass p input).messages i1 x n hx] at h3
    simpa [map_find] using h3
  · simpa using i4
  · simpa using i5

theorem for_each_print_fst (l : List (String × Nat)) :
    ∀ c : Nat, (for_each_print c l).map (fun r => (r.1, r.2.1)) = l := by
  induction l with
  | nil => intro c; rfl
  | cons t ts ih =>
    intro c
    simp only [for_each_print, print, List.map_cons, ih]

theorem for_each_print_length (l : List (String × Nat)) :
    ∀ c : Nat, (for_each_print c l).length = l.length := by
  induction l with
  | nil => intro c; rfl
  | cons t ts ih =>
    intro c
    simp only [for_each_print, List.length_cons, ih]

theorem for_each_print_cumulative (l : List (String × Nat)) :
    ∀ (c i : Nat), i < l.length →
      ((for_each_print c l).map (fun r => r.2.2))[i]? =
        some (c + ((l.take (i + 1)).map Prod.snd).sum) := by
  induction l with
  | nil => intro c i hi; simp at hi
  | cons t ts ih =>
    intro c i hi
    cases i with
    | zero => simp [for_each_print, print]
    | succ i =>
      have hi' : i < ts.length := by simpa using hi
      simp only [for_each_print, print, List.map_cons, List.getElem?_cons_succ,
        List.take_succ_cons, List.sum_cons]
      rw [ih _ i hi']
      simp only [Nat.add_assoc]

theorem std_sort_perm {α : Type} (less : α → α → Bool) (l : List α) :
    (std_sort less l).Perm l :=
  List.perm_insertionSort _ l

theorem std_sort_compare_sorted (l : List (String × Nat)) :
    (std_sort compare l).Sorted (fun a b => a.2 ≥ b.2) := by
  have htot : IsTotal (String × Nat) (fun a b => compare b a = false) :=
    ⟨fun a b => by
      simp only [compare, decide_eq_false_iff_not, not_lt, gt_iff_lt]
      exact Nat.le_total _ _⟩
  have htr : IsTrans (String × Nat) (fun a b => compare b a = false) :=
    ⟨fun a b c hab hbc => by
      simp only [compare, decide_eq_false_iff_not, not_lt, gt_iff_lt] at hab hbc ⊢
      exact Nat.le_trans hbc hab⟩
  have := @List.sorted_insertionSort _ (fun a b => compare b a = false) _ htot htr l
  refine List.Pairwise.imp ?_ this
  intro a b hab
  simpa [compare] using hab

/-! ## Malformed location fragments -/

theorem lexical_cast_int_error (s : String) (e : failure)
    (h : lexical_cast_int s = .error e) : e = .bad_lexical_cast := by
  unfold lexical_cast_int at h
  simp only at h
  split_ifs at h <;> cases h <;> rfl

theorem make_line_id_error (p : patterns) (text : String) (e : failure)
    (h : make_line_id p text = .error e) : e = .bad_lexical_cast := by
  unfold make_line_id at h
  cases hl : lexical_cast_int ((p.split_file_and_line text).getD ("", "")).2 with
  | error e' =>
    simp only [hl, bind, Except.bind] at h
    cases h
    exact lexical_cast_int_error _ _ hl
  | ok v =>
    simp only [hl, bind, Except.bind, pure, Except.pure] at h
    cases h

theorem registry_fill_error (p : patterns) (messages : List (String × Nat)) :
    ∀ lines : List line_id,
      (∃ x ∈ messages, ∃ e, make_line_id p x.1 = .error e) →
      messages.foldlM (fun lines l => do
        let x ← make_line_id p l.1
        pure (set_insert lines x)) lines = .error .bad_lexical_cast := by
  induction messages with
  | nil =>
    intro lines h
    obtain ⟨x, hx, _⟩ := h
    cases hx
  | cons m ms ih =>
    intro lines h
    rw [List.foldlM_cons]
    cases hm : make_line_id p m.1 with
    | error e =>
      have := make_line_id_error p m.1 e hm
      subst this
      rfl
    | ok v =>
      simp only [bind, Except.bind, pure, Except.pure]
      apply ih
      obtain ⟨x, hx, e, he⟩ := h
      rcases List.mem_cons.1 hx with hx | hx
      · subst hx
        rw [hm] at he
        cases he
      · exact ⟨x, hx, e, he⟩

/-! ## Edge weights and tree edges -/

theorem countP_flatMap_sum {α β : Type} (q : β → Bool) (f : α → List β) (l : List α) :
    (l.flatMap f).countP q = (l.map (fun x => (f x).countP q)).sum := by
  induction l with
  | nil => rfl
  | cons x xs ih => simp [List.flatMap_cons, List.countP_append, ih]

theorem descendants_unfold {h : List node} (ok : heap_ok h) {a : Nat} (ha : a < h.length) :
    descendants h a = (kids_of h a).flatMap (fun k => descendants h k ++ [k]) := by
  unfold descendants
  apply List.flatMap_congr
  intro k hk
  have hlt := up_of_lt ok ((kids_of_mem ok ha).1 hk)
  show subtree h h.length k = descendants h k ++ [k]
  rw [← subtree_succ]
  exact subtree_fuel ok _ _ k hlt.2 (by omega) (by omega)

theorem countP_flatMap_snoc {α : Type} (q : α → Bool) (f : α → List α) (l : List α) :
    (l.flatMap (fun k => f k ++ [k])).countP q = l.countP q + (l.flatMap f).countP q := by
  induction l with
  | nil => rfl
  | cons x xs ih =>
    simp only [List.flatMap_cons, List.countP_append, ih, List.countP_cons, List.countP_nil]
    omega

theorem nested_eq_edges_add_distant {h : List node} (ok : heap_ok h) (a b : line_id) :
    nested_occurrences h a b = edge_count h a b + distant_count h a b := by
  unfold nested_occurrences edge_count distant_count ancestor_pairs tree_edges distant_pairs
  rw [countP_flatMap_sum, countP_flatMap_sum, countP_flatMap_sum, ← List.sum_map_add]
  congr 1
  apply List.map_congr_left
  intro x hx
  have hxl := (mem_subtree_root ok x).1 hx
  rw [List.countP_map, List.countP_map, List.countP_map, descendants_unfold ok hxl,
    countP_flatMap_snoc]

theorem child_weight_foldl_visit_self (h : List node) (a : line_id) (t : List Nat) :
    ∀ g : graph_t, child_weight (t.foldl (visit h) g) a a = child_weight g a a := by
  induction t with
  | nil => intro g; rfl
  | cons x xs ih =>
    intro g
    rw [List.foldl_cons, ih, child_weight_visit]
    simp

/-! ## From lines to located events -/

theorem mem_set_insert (lines : List line_id) (x y : line_id) :
    y ∈ set_insert lines x ↔ y ∈ lines ∨ y = x := by
  unfold set_insert
  by_cases hx : x ∈ lines
  · simp only [hx, if_true]
    constructor
    · exact Or.inl
    · rintro (h | h)
      · exact h
      · rw [h]; exact hx
  · simp [hx]

theorem registry_fill_ok (p : patterns) (messages : List (String × Nat)) :
    ∀ lines0 lines : List line_id,
      messages.foldlM (fun lines l => do
        let x ← make_line_id p l.1
        pure (set_insert lines x)) lines0 = .ok lines →
      (∀ x ∈ lines0, x ∈ lines) ∧
      ∀ m ∈ messages, ∃ loc, make_line_id p m.1 = .ok loc ∧ loc ∈ lines := by
  induction messages with
  | nil =>
    intro lines0 lines h
    cases h
    exact ⟨fun x hx => hx, fun m hm => by cases hm⟩
  | cons m ms ih =>
    intro lines0 lines h
    rw [List.foldlM_cons] at h
    cases hm : make_line_id p m.1 with
    | error e =>
      simp only [hm, bind, Except.bind] at h
      cases h
    | ok v =>
      simp only [hm, bind, Except.bind, pure, Except.pure] at h
      obtain ⟨h1, h2⟩ := ih _ _ h
      refine ⟨fun x hx => h1 x ((mem_set_insert _ _ _).2 (Or.inl hx)), ?_⟩
      intro m' hm'
      rcases List.mem_cons.1 hm' with e | e
      · subst e
        exact ⟨v, hm, h1 v ((mem_set_insert _ _ _).2 (Or.inr rfl))⟩
      · exact h2 m' e

theorem classify_located (p : patterns) (input : List String) (lines : List line_id)
    (hfill : registry_fill p (frequency_pass p input).messages = .ok lines) :
    ∀ line ∈ input, ∃ e : located, classify p lines line = e.event := by
  intro line hline
  unfold classify
  cases hm : p.enter_message line with
  | some text =>
    have hkey : text ∈ (frequency_pass p input).messages.map Prod.fst := by
      rw [(frequency_pass_spec p input).2.1]
      exact List.mem_filterMap.2 ⟨line, hline, hm⟩
    obtain ⟨x, hx, hxt⟩ := List.mem_map.1 hkey
    obtain ⟨loc, hloc, hmem⟩ := (registry_fill_ok p _ [] lines hfill).2 x hx
    rw [hxt] at hloc
    refine ⟨.enter loc, ?_⟩
    simp only [located.event, find_line, hloc, bind, Except.bind, hmem, if_true, pure,
      Except.pure]
  | none =>
    simp only
    by_cases h1 : p.call_graph_line line = true
    · exact ⟨.frame, by simp [h1, located.event]⟩
    · by_cases h2 : p.exit_message line = true
      · exact ⟨.exit, by simp [h1, h2, located.event]⟩
      · exact ⟨.unmatched, by simp [h1, h2, located.event]⟩

theorem map_classify_located (p : patterns) (lines : List line_id) (input : List String)
    (h : ∀ line ∈ input, ∃ e : located, classify p lines line = e.event) :
    ∃ evs : List located, input.map (classify p lines) = evs.map located.event := by
  induction input with
  | nil => exact ⟨[], rfl⟩
  | cons line rest ih =>
    obtain ⟨e, he⟩ := h line (List.mem_cons_self _ _)
    obtain ⟨evs, hevs⟩ := ih (fun l hl => h l (List.mem_cons_of_mem _ hl))
    exact ⟨e :: evs, by simp only [List.map_cons, he, hevs]⟩

theorem tree_loop_ok (c : compiler) (evs : List located) :
    ∃ st, tree_loop c (evs.map located.event) = .ok st ∧ state_ok st.state := by
  obtain ⟨sm, sg, _, h2, h3, h4, h5⟩ := loops_agree_init evs
  have oks := state_ok_settled sm h3
  cases c with
  | msvc => exact ⟨_, h4, oks⟩
  | gnuc => exact ⟨sg, h2, by rw [← h5]; exact oks⟩

theorem call_graph_ok (c : compiler) (p : patterns) (input : List String)
    (lines : List line_id)
    (hfill : registry_fill p (frequency_pass p input).messages = .ok lines) :
    ∃ (evs : List located) (st : loop_state) (g : graph_t),
      input.map (classify p lines) = evs.map located.event ∧
      tree_loop c (evs.map located.event) = .ok st ∧ state_ok st.state ∧
      get_graph st.state [] = .ok g ∧
      call_graph c p input = .ok (std_sort call_graph_less g) := by
  obtain ⟨evs, hevs⟩ := map_classify_located p lines input (classify_located p input lines hfill)
  obtain ⟨st, hst, ok⟩ := tree_loop_ok c evs
  have hg := get_graph_eq ok []
  refine ⟨evs, st, _, hevs, hst, ok, hg, ?_⟩
  simp only [call_graph, hfill, hevs, hst, hg, bind, Except.bind, pure, Except.pure]

theorem graph_at_add_child (g : graph_t) (p c a : line_id) (hpc : p ≠ c) :
    graph_at (add_child g (some p) (some c)) a =
      ⟨if a = p then map_index 0 (· + 1) c (graph_at g a).children else (graph_at g a).children,
        if a = c then map_index 0 (· + 1) p (graph_at g a).parents else (graph_at g a).parents,
        (graph_at g a).count,
        if a = p then (graph_at g a).total_with_children + 1
        else (graph_at g a).total_with_children⟩ := by
  have hcp : ¬ (c = p) := fun e => hpc e.symm
  simp only [add_child, ne_eq, hpc, not_false_eq_true, if_true, graph_at_map_index]
  by_cases h1 : a = p
  · subst h1
    simp [hpc]
  · by_cases h2 : a = c
    · subst h2
      simp [h1]
    · simp [h1, h2]

theorem total_add_child (g : graph_t) (p c : Option line_id) (a : line_id) :
    (graph_at (add_child g p c) a).total_with_children =
      (graph_at g a).total_with_children +
        if p = some a ∧ c ≠ none ∧ c ≠ some a then 1 else 0 := by
  cases p with
  | none => simp [add_child]
  | some p =>
    cases c with
    | none => simp [add_child]
    | some c =>
      by_cases hpc : p = c
      · subst hpc
        have : ¬ (p = a ∧ ¬ p = a) := fun h => h.2 h.1
        simp [add_child, this]
      · rw [graph_at_add_child g p c a hpc]
        by_cases h1 : a = p
        · subst h1
          have : ¬ (c = a) := fun e => hpc e.symm
          simp [this]
        · have : ¬ (p = a) := fun e => h1 e.symm
          simp [h1, this]

theorem total_count_node (g : graph_t) (l : Option line_id) (a : line_id) :
    (graph_at (count_node g l) a).total_with_children = (graph_at g a).total_with_children := by
  unfold count_node
  cases l with
  | none => rfl
  | some l =>
    simp only [graph_at_map_index]
    by_cases h : a = l
    · subst h; simp
    · simp [h]

theorem total_visit (h : List node) (g : graph_t) (i : Nat) (a : line_id) :
    (graph_at (visit h g i) a).total_with_children =
      (graph_at g a).total_with_children +
        (ancestors h i).countP
          (fun x => decide (id_of h x = some a ∧ id_of h i ≠ none ∧ id_of h i ≠ some a)) := by
  unfold visit
  have key : ∀ (xs : List Nat) (g0 : graph_t) (k : Nat),
      (graph_at g0 a).total_with_children = (graph_at g a).total_with_children + k →
      (graph_at (xs.foldl (fun g x => add_child g (id_of h x) (id_of h i)) g0)
          a).total_with_children =
        (graph_at g a).total_with_children + (k + xs.countP
          (fun x => decide (id_of h x = some a ∧ id_of h i ≠ none ∧ id_of h i ≠ some a))) := by
    intro xs
    induction xs with
    | nil => intro g0 k hk; simpa using hk
    | cons x xs ih =>
      intro g0 k hk
      rw [List.foldl_cons, ih _ (k + if id_of h x = some a ∧ id_of h i ≠ none ∧
        id_of h i ≠ some a then 1 else 0), List.countP_cons]
      · simp only [decide_eq_true_eq]
        omega
      · rw [total_add_child, hk]
        omega
  have := key (ancestors h i) (count_node g (id_of h i)) 0
    (by rw [total_count_node]; rfl)
  simpa using this

theorem total_foldl_visit (h : List node) (a : line_id) (t : List Nat) :
    ∀ g : graph_t, (graph_at (t.foldl (visit h) g) a).total_with_children =
      (graph_at g a).total_with_children + (walked_pairs h t).countP
        (fun na => decide (id_of h na.2 = some a ∧ id_of h na.1 ≠ none ∧
          id_of h na.1 ≠ some a)) := by
  induction t with
  | nil => intro g; simp [walked_pairs]
  | cons x xs ih =>
    intro g
    rw [List.foldl_cons, ih, total_visit]
    have hw : walked_pairs h (x :: xs) =
        (ancestors h x).map (fun y => (x, y)) ++ walked_pairs h xs := by
      simp [walked_pairs]
    rw [hw, List.countP_append, List.countP_map]
    have hx : (ancestors h x).countP
        (fun y => decide (id_of h y = some a ∧ id_of h x ≠ none ∧ id_of h x ≠ some a)) =
        (ancestors h x).countP
          ((fun na : Nat × Nat => decide (id_of h na.2 = some a ∧ id_of h na.1 ≠ none ∧
            id_of h na.1 ≠ some a)) ∘ fun y => (x, y)) := by
      apply List.countP_congr
      intro y _
      simp
    rw [hx]
    unfold walked_pairs
    omega

theorem no_self_edge_add_child (g : graph_t) (p c : Option line_id) (hg : no_self_edge g) :
    no_self_edge (add_child g p c) := by
  cases p with
  | none => simpa [add_child] using hg
  | some p =>
    cases c with
    | none => simpa [add_child] using hg
    | some c =>
      by_cases hpc : p = c
      · simpa [add_child, hpc] using hg
      · intro a
        have hcp : ¬ (c = p) := fun e => hpc e.symm
        rw [graph_at_add_child g p c a hpc]
        obtain ⟨h1, h2⟩ := hg a
        by_cases ha : a = p
        · subst ha
          simp [map_find_map_index, hpc, hcp, h1, h2]
        · by_cases hb : a = c
          · subst hb
            simp [map_find_map_index, hpc, hcp, h1, h2]
          · simp [ha, hb, h1, h2]

theorem no_self_edge_count_node (g : graph_t) (l : Option line_id) (hg : no_self_edge g) :
    no_self_edge (count_node g l) := by
  cases l with
  | none => exact hg
  | some l =>
    intro a
    simp only [count_node, graph_at_map_index]
    by_cases h : a = l
    · subst h
      simpa using hg a
    · simpa [h] using hg a

theorem no_self_edge_foldl_visit (h : List node) (t : List Nat) :
    ∀ g, no_self_edge g → no_self_edge (t.foldl (visit h) g) := by
  induction t with
  | nil => intro g hg; exact hg
  | cons x xs ih =>
    intro g hg
    rw [List.foldl_cons]
    apply ih
    unfold visit
    have h0 := no_self_edge_count_node g (id_of h x) hg
    generalize count_node g (id_of h x) = g0 at h0
    induction ancestors h x generalizing g0 with
    | nil => exact h0
    | cons y ys ihy =>
      simp only [List.foldl_cons]
      exact ihy _ (no_self_edge_add_child _ _ _ h0)

theorem parent_weight_visit (h : List node) (g : graph_t) (i : Nat) (b a : line_id) :
    parent_weight (visit h g i) b a =
      parent_weight g b a +
        (ancestors h i).countP
          (fun x => decide (id_of h x = some a ∧ id_of h i = some b ∧ a ≠ b)) := by
  unfold visit
  have key : ∀ (xs : List Nat) (g0 : graph_t) (k : Nat),
      parent_weight g0 b a = parent_weight g b a + k →
      parent_weight (xs.foldl (fun g x => add_child g (id_of h x) (id_of h i)) g0) b a =
        parent_weight g b a + (k + xs.countP
          (fun x => decide (id_of h x = some a ∧ id_of h i = some b ∧ a ≠ b))) := by
    intro xs
    induction xs with
    | nil => intro g0 k hk; simpa using hk
    | cons x xs ih =>
      intro g0 k hk
      rw [List.foldl_cons, ih _ (k + if id_of h x = some a ∧ id_of h i = some b ∧ a ≠ b
        then 1 else 0), List.countP_cons]
      · simp only [decide_eq_true_eq]
        omega
      · rw [parent_weight_add_child, hk]
        omega
  have := key (ancestors h i) (count_node g (id_of h i)) 0
    (by rw [parent_weight_count_node]; rfl)
  simpa using this

theorem parent_weight_foldl_visit (h : List node) (a b : line_id) (hab : a ≠ b)
    (t : List Nat) :
    ∀ g : graph_t, parent_weight (t.foldl (visit h) g) b a =
      parent_weight g b a + (walked_pairs h t).countP
        (fun na => decide (id_of h na.1 = some b ∧ id_of h na.2 = some a)) := by
  induction t with
  | nil => intro g; simp [walked_pairs]
  | cons x xs ih =>
    intro g
    rw [List.foldl_cons, ih, parent_weight_visit]
    have hx : (ancestors h x).countP
        (fun y => decide (id_of h y = some a ∧ id_of h x = some b ∧ a ≠ b)) =
        ((ancestors h x).map (fun y => (x, y))).countP
          (fun na => decide (id_of h na.1 = some b ∧ id_of h na.2 = some a)) := by
      rw [List.countP_map]
      apply List.countP_congr
      intro y _
      simp [hab, and_comm]
    have hw : walked_pairs h (x :: xs) =
        (ancestors h x).map (fun y => (x, y)) ++ walked_pairs h xs := by
      simp [walked_pairs]
    rw [hw, List.countP_append, hx]
    unfold walked_pairs
    omega

theorem parent_weight_foldl_visit_self (h : List node) (a : line_id) (t : List Nat) :
    ∀ g : graph_t, parent_weight (t.foldl (visit h) g) a a = parent_weight g a a := by
  induction t with
  | nil => intro g; rfl
  | cons x xs ih =>
    intro g
    rw [List.foldl_cons, ih, parent_weight_visit]
    simp

theorem get_graph_adds {s : instantiation_state} (ok : state_ok s) (g0 : graph_t) :
    ∃ g, get_graph s g0 = .ok g ∧
      (∀ A : line_id, (graph_at g A).count = (graph_at g0 A).count + occurrences s.heap A) ∧
      (∀ A : line_id, (graph_at g A).total_with_children =
        (graph_at g0 A).total_with_children + nested_elsewhere s.heap A) ∧
      (∀ A B : line_id, weight (graph_at g A).children B =
        weight (graph_at g0 A).children B +
          if A = B then 0 else nested_occurrences s.heap A B) ∧
      (∀ A B : line_id, weight (graph_at g B).parents A =
        weight (graph_at g0 B).parents A +
          if A = B then 0 else nested_occurrences s.heap A B) := by
  refine ⟨_, get_graph_eq ok g0, ?_, ?_, ?_, ?_⟩
  · intro A
    rw [count_foldl_visit, subtree_root_eq ok.1, List.countP_append]
    simp [occurrences, ok.1.root_id]
  · intro A
    rw [total_foldl_visit, (walked_pairs_perm ok.1).countP_eq]
    rfl
  · intro A B
    by_cases hAB : A = B
    · subst hAB
      have := child_weight_foldl_visit_self s.heap A (subtree s.heap s.heap.length 0) g0
      unfold child_weight at this
      rw [this]
      simp
    · have := child_weight_foldl_visit s.heap A B hAB (subtree s.heap s.heap.length 0) g0
      unfold child_weight at this
      rw [this, (walked_pairs_perm ok.1).countP_eq, if_neg hAB]
      rfl
  · intro A B
    by_cases hAB : A = B
    · subst hAB
      have := parent_weight_foldl_visit_self s.heap A (subtree s.heap s.heap.length 0) g0
      unfold parent_weight at this
      rw [this]
      simp
    · have := parent_weight_foldl_visit s.heap A B hAB (subtree s.heap s.heap.length 0) g0
      unfold parent_weight at this
      rw [this, (walked_pairs_perm ok.1).countP_eq, if_neg hAB]
      rfl

theorem sum_map_index_add {K V : Type} [DecidableEq K] (F : V → Nat) (dflt : V) (f : V → V)
    (d : Nat) (h0 : F dflt = 0) (hf : ∀ v, F (f v) = F v + d) (k : K) (m : List (K × V)) :
    ((map_index dflt f k m).map (fun e => F e.2)).sum = (m.map (fun e => F e.2)).sum + d := by
  induction m with
  | nil => simp [map_index, hf, h0]
  | cons x m ih =>
    obtain ⟨k0, v⟩ := x
    by_cases hk : k0 = k
    · simp only [map_index, hk, if_true, List.map_cons, List.sum_cons, hf]
      omega
    · simp only [map_index, hk, if_false, List.map_cons, List.sum_cons, ih]
      omega

theorem weight_sum_map_index (k : line_id) (m : List (line_id × Nat)) :
    weight_sum (map_index 0 (· + 1) k m) = weight_sum m + 1 := by
  have := sum_map_index_add (fun v : Nat => v) 0 (· + 1) 1 rfl (fun _ => rfl) k m
  simpa [weight_sum] using this

theorem totals_ok_add_child (g : graph_t) (p c : Option line_id) (hg : totals_ok g) :
    totals_ok (add_child g p c) := by
  cases p with
  | none => simpa [add_child] using hg
  | some p =>
    cases c with
    | none => simpa [add_child] using hg
    | some c =>
      by_cases hpc : p = c
      · simpa [add_child, hpc] using hg
      · intro a
        rw [graph_at_add_child g p c a hpc]
        by_cases ha : a = p
        · simp only [ha, if_true, weight_sum_map_index]
          rw [hg p]
        · simp only [ha, if_false]
          exact hg a

theorem totals_ok_count_node (g : graph_t) (l : Option line_id) (hg : totals_ok g) :
    totals_ok (count_node g l) := by
  cases l with
  | none => exact hg
  | some l =>
    intro a
    simp only [count_node, graph_at_map_index]
    by_cases h : a = l
    · subst h
      simpa using hg a
    · simpa [h] using hg a

theorem sum_records_add_child (F : node_info → Nat) (h0 : F {} = 0)
    (dc dp : Nat)
    (hc : ∀ (ni : node_info) (c : line_id),
      F { ni with children := map_index 0 (· + 1) c ni.children } = F ni + dc)
    (hp : ∀ (ni : node_info) (p : line_id),
      F { ni with parents := map_index 0 (· + 1) p ni.parents } = F ni + dp)
    (ht : ∀ ni : node_info,
      F { ni with total_with_children := ni.total_with_children + 1 } = F ni)
    (g : graph_t) (p c : Option line_id) :
    sum_records F (add_child g p c) =
      sum_records F g + if adds_edge p c then dc + dp else 0 := by
  cases p with
  | none => simp [add_child, adds_edge]
  | some p =>
    cases c with
    | none => simp [add_child, adds_edge]
    | some c =>
      by_cases hpc : p = c
      · simp [add_child, adds_edge, hpc]
      · simp only [add_child, ne_eq, hpc, not_false_eq_true, if_true, sum_records]
        rw [sum_map_index_add F {} _ 0 h0 (fun v => ht v),
          sum_map_index_add F {} _ dp h0 (fun v => hp v p),
          sum_map_index_add F {} _ dc h0 (fun v => hc v c)]
        have : adds_edge (some p) (some c) = true := by simp [adds_edge, hpc]
        simp only [this, if_true]
        omega

theorem sum_records_count_node (F : node_info → Nat) (h0 : F {} = 0) (d : Nat)
    (hn : ∀ ni : node_info, F { ni with count := ni.count + 1 } = F ni + d)
    (g : graph_t) (l : Option line_id) :
    sum_records F (count_node g l) = sum_records F g + if l = none then 0 else d := by
  cases l with
  | none => simp [count_node]
  | some l =>
    simp only [count_node, sum_records]
    rw [sum_map_index_add F {} _ d h0 hn]
    simp

theorem sums_agree_add_child (g : graph_t) (p c : Option line_id) (hg : sums_agree g) :
    sums_agree (add_child g p c) := by
  unfold sums_agree
  rw [sum_records_add_child (fun ni => weight_sum ni.children) rfl 1 0
      (fun ni c => weight_sum_map_index c ni.children) (fun _ _ => rfl) (fun _ => rfl),
    sum_records_add_child (fun ni => weight_sum ni.parents) rfl 0 1
      (fun _ _ => rfl) (fun ni p => weight_sum_map_index p ni.parents) (fun _ => rfl), hg]

theorem sums_agree_count_node (g : graph_t) (l : Option line_id) (hg : sums_agree g) :
    sums_agree (count_node g l) := by
  unfold sums_agree
  rw [sum_records_count_node (fun ni => weight_sum ni.children) rfl 0 (fun _ => rfl),
    sum_records_count_node (fun ni => weight_sum ni.parents) rfl 0 (fun _ => rfl), hg]

theorem nodup_keys_add_child (g : graph_t) (p c : Option line_id)
    (hg : (g.map Prod.fst).Nodup) : ((add_child g p c).map Prod.fst).Nodup := by
  cases p with
  | none => simpa [add_child] using hg
  | some p =>
    cases c with
    | none => simpa [add_child] using hg
    | some c =>
      by_cases hpc : p = c
      · simpa [add_child, hpc] using hg
      · simp only [add_child, ne_eq, hpc, not_false_eq_true, if_true]
        exact nodup_keys_map_index _ _ _ _
          (nodup_keys_map_index _ _ _ _ (nodup_keys_map_index _ _ _ _ hg))

theorem nodup_keys_count_node (g : graph_t) (l : Option line_id)
    (hg : (g.map Prod.fst).Nodup) : ((count_node g l).map Prod.fst).Nodup := by
  cases l with
  | none => exact hg
  | some l => exact nodup_keys_map_index _ _ _ _ hg

theorem foldl_visit_invariant (P : graph_t → Prop)
    (hadd : ∀ g p c, P g → P (add_child g p c))
    (hcount : ∀ g l, P g → P (count_node g l)) (h : List node) (t : List Nat) :
    ∀ g, P g → P (t.foldl (visit h) g) := by
  induction t with
  | nil => intro g hg; exact hg
  | cons x xs ih =>
    intro g hg
    rw [List.foldl_cons]
    apply ih
    unfold visit
    have h0 := hcount g (id_of h x) hg
    generalize count_node g (id_of h x) = g0 at h0
    induction ancestors h x generalizing g0 with
    | nil => exact h0
    | cons y ys ihy =>
      simp only [List.foldl_cons]
      exact ihy _ (hadd _ _ _ h0)

theorem std_sort_call_graph_less_sorted (g : List (line_id × node_info)) :
    (std_sort call_graph_less g).Sorted
      (fun a b => a.2.total_with_children ≥ b.2.total_with_children) := by
  have htot : IsTotal (line_id × node_info) (fun a b => call_graph_less b a = false) :=
    ⟨fun a b => by
      simp only [call_graph_less, decide_eq_false_iff_not, not_lt, gt_iff_lt]
      exact Nat.le_total _ _⟩
  have htr : IsTrans (line_id × node_info) (fun a b => call_graph_less b a = false) :=
    ⟨fun a b c hab hbc => by
      simp only [call_graph_less, decide_eq_false_iff_not, not_lt, gt_iff_lt] at hab hbc ⊢
      exact Nat.le_trans hbc hab⟩
  have := @List.sorted_insertionSort _ (fun a b => call_graph_less b a = false) _ htot htr g
  refine List.Pairwise.imp ?_ this
  intro a b hab
  simpa [call_graph_less] using hab

theorem call_graph_inv (c : compiler) (p : patterns) (input : List String)
    (r : List (line_id × node_info)) (h : call_graph c p input = .ok r) :
    ∃ (lines : List line_id) (st : loop_state) (g : graph_t),
      registry_fill p (frequency_pass p input).messages = .ok lines ∧
      tree_loop c (input.map (classify p lines)) = .ok st ∧
      get_graph st.state [] = .ok g ∧ r = std_sort call_graph_less g := by
  unfold call_graph at h
  cases h1 : registry_fill p (frequency_pass p input).messages with
  | error e =>
    simp only [h1, bind, Except.bind] at h
    cases h
  | ok lines =>
    simp only [h1, bind, Except.bind] at h
    cases h2 : tree_loop c (input.map (classify p lines)) with
    | error e =>
      simp only [h2] at h
      cases h
    | ok st =>
      simp only [h2] at h
      cases h3 : get_graph st.state [] with
      | error e =>
        simp only [h3] at h
        cases h
      | ok g =>
        simp only [h3, pure, Except.pure] at h
        cases h
        exact ⟨lines, st, g, by first | exact h1 | rfl, h2, h3, rfl⟩

theorem depth_eq_length_ancestors {h : List node} (ok : heap_ok h) :
    ∀ j : Nat, j < h.length → depth_of h j = (ancestors h j).length := by
  intro j
  induction j using Nat.strong_induction_on with
  | _ j ih =>
    intro hj
    cases hp : up_of h j with
    | none =>
      rw [ancestors_of_none hp]
      rcases Nat.eq_zero_or_pos j with h0 | h0
      · subst h0
        exact ok.root_depth
      · obtain ⟨q, hq, _⟩ := ok.up_lt j h0 hj
        rw [hq] at hp
        cases hp
    | some p =>
      have hlt := up_of_lt ok hp
      rw [ancestors_of_up ok hp, ok.depth_up j p hp, ih p hlt.1 (by omega)]
      rfl

theorem countP_mem_range (l : List Nat) (n : Nat) (hl : l.Nodup) (hn : ∀ x ∈ l, x < n) :
    (List.range n).countP (fun a => decide (a ∈ l)) = l.length := by
  rw [List.countP_eq_length_filter]
  apply List.Perm.length_eq
  rw [List.perm_ext_iff_of_nodup ((List.nodup_range n).filter _) hl]
  intro a
  simp only [List.mem_filter, List.mem_range, decide_eq_true_eq]
  constructor
  · exact fun h => h.2
  · exact fun h => ⟨hn a h, h⟩

theorem proper_ancestor_count_eq {h : List node} (ok : heap_ok h) (j : Nat) :
    proper_ancestor_count h j = (ancestors h j).length := by
  unfold proper_ancestor_count
  rw [(subtree_root_perm ok).countP_eq,
    ← countP_mem_range (ancestors h j) h.length (nodup_ancestors ok j)
      (fun x hx => by
        have h1 := mem_ancestors_lt ok j x hx
        have h2 := mem_ancestors_length ok hx
        omega)]
  apply List.countP_congr
  intro a ha
  have hal := List.mem_range.1 ha
  simp only [decide_eq_true_eq]
  rw [mem_descendants ok hal]

theorem lines_find_isSome (lines : List line_id) (x : line_id) :
    (lines_find lines x).isSome ↔ x ∈ lines := by
  induction lines with
  | nil => simp [lines_find]
  | cons y rest ih =>
    by_cases hy : y = x
    · simp [lines_find, hy]
    · have hxy : ¬ (x = y) := fun e => hy e.symm
      simp [lines_find, hy, hxy, ih]

theorem lines_find_cons (z : line_id) (rest : List line_id) (x : line_id) :
    lines_find (z :: rest) x = if z = x then some 0 else (lines_find rest x).map (· + 1) := rfl

theorem lines_find_inj (lines : List line_id) (x y : line_id) (hx : x ∈ lines) :
    lines_find lines x = lines_find lines y ↔ x = y := by
  constructor
  · intro h
    induction lines with
    | nil => cases hx
    | cons z rest ih =>
      rw [lines_find_cons, lines_find_cons] at h
      by_cases hzx : z = x
      · by_cases hzy : z = y
        · rw [← hzx, ← hzy]
        · rw [if_pos hzx, if_neg hzy] at h
          cases hf : lines_find rest y with
          | none => rw [hf] at h; cases h
          | some k => rw [hf] at h; simp at h
      · have hxr : x ∈ rest := by
          rcases List.mem_cons.1 hx with e | e
          · exact absurd e.symm hzx
          · exact e
        by_cases hzy : z = y
        · rw [if_neg hzx, if_pos hzy] at h
          cases hf : lines_find rest x with
          | none => rw [hf] at h; cases h
          | some k => rw [hf] at h; simp at h
        · rw [if_neg hzx, if_neg hzy] at h
          apply ih hxr
          cases hf : lines_find rest x with
          | none =>
            have := (lines_find_isSome rest x).2 hxr
            rw [hf] at this
            cases this
          | some k =>
            rw [hf] at h
            cases hg : lines_find rest y with
            | none => rw [hg] at h; cases h
            | some k' =>
              rw [hg] at h
              simp only [Option.map_some', Option.some.injEq, add_left_inj] at h
              rw [h]
  · intro e
    rw [e]

theorem countP_eq_one_of_nodup (lines : List line_id) (x : line_id) (hnd : lines.Nodup)
    (hx : x ∈ lines) : lines.countP (fun y => decide (y = x)) = 1 := by
  induction lines with
  | nil => cases hx
  | cons z rest ih =>
    rw [List.nodup_cons] at hnd
    rw [List.countP_cons]
    by_cases hzx : z = x
    · subst hzx
      have : rest.countP (fun y => decide (y = z)) = 0 := by
        rw [List.countP_eq_zero]
        intro a ha
        simp only [decide_eq_true_eq]
        intro e
        subst e
        exact hnd.1 ha
      simp [this]
    · have hxr : x ∈ rest := by
        rcases List.mem_cons.1 hx with e | e
        · exact absurd e.symm hzx
        · exact e
      simp [hzx, ih hnd.2 hxr]

theorem nodup_set_insert (lines : List line_id) (x : line_id) (h : lines.Nodup) :
    (set_insert lines x).Nodup := by
  unfold set_insert
  by_cases hx : x ∈ lines
  · simpa [hx] using h
  · simp only [hx, if_false]
    rw [List.nodup_append]
    exact ⟨h, List.nodup_singleton _, by simpa [List.disjoint_left] using hx⟩

theorem registry_fill_nodup (p : patterns) (messages : List (String × Nat)) :
    ∀ lines0 lines : List line_id, lines0.Nodup →
      messages.foldlM (fun lines l => do
        let x ← make_line_id p l.1
        pure (set_insert lines x)) lines0 = .ok lines →
      lines.Nodup := by
  induction messages with
  | nil =>
    intro lines0 lines h0 h
    cases h
    exact h0
  | cons m ms ih =>
    intro lines0 lines h0 h
    rw [List.foldlM_cons] at h
    cases hm : make_line_id p m.1 with
    | error e =>
      simp only [hm, bind, Except.bind] at h
      cases h
    | ok v =>
      simp only [hm, bind, Except.bind, pure, Except.pure] at h
      exact ih _ _ (nodup_set_insert _ _ h0) h

theorem registry_fill_mem (p : patterns) (messages : List (String × Nat)) :
    ∀ lines0 lines : List line_id,
      messages.foldlM (fun lines l => do
        let x ← make_line_id p l.1
        pure (set_insert lines x)) lines0 = .ok lines →
      ∀ x ∈ lines, x ∈ lines0 ∨ ∃ m ∈ messages, make_line_id p m.1 = .ok x := by
  induction messages with
  | nil =>
    intro lines0 lines h x hx
    cases h
    exact Or.inl hx
  | cons m ms ih =>
    intro lines0 lines h x hx
    rw [List.foldlM_cons] at h
    cases hm : make_line_id p m.1 with
    | error e =>
      simp only [hm, bind, Except.bind] at h
      cases h
    | ok v =>
      simp only [hm, bind, Except.bind, pure, Except.pure] at h
      rcases ih _ _ h x hx with h1 | ⟨m', hm', hx'⟩
      · rcases (mem_set_insert _ _ _).1 h1 with h2 | h2
        · exact Or.inl h2
        · subst h2
          exact Or.inr ⟨m, List.mem_cons_self _ _, hm⟩
      · exact Or.inr ⟨m', List.mem_cons_of_mem _ hm', hx'⟩

theorem find_line_ok (p : patterns) (lines : List line_id) (t : String) (x : line_id)
    (h : find_line p lines t = .ok x) : make_line_id p t = .ok x ∧ x ∈ lines := by
  unfold find_line at h
  cases hm : make_line_id p t with
  | error e =>
    simp only [hm, bind, Except.bind] at h
    cases h
  | ok v =>
    simp only [hm, bind, Except.bind] at h
    by_cases hv : v ∈ lines
    · simp only [hv, if_true, pure, Except.pure] at h
      cases h
      exact ⟨rfl, hv⟩
    · simp only [hv, if_false] at h
      cases h

theorem registry_fill_total (p : patterns) (messages : List (String × Nat))
    (hm : ∀ m ∈ messages, ∃ loc, make_line_id p m.1 = .ok loc) :
    ∀ lines0 : List line_id, ∃ lines,
      messages.foldlM (fun lines l => do
        let x ← make_line_id p l.1
        pure (set_insert lines x)) lines0 = .ok lines := by
  induction messages with
  | nil => intro lines0; exact ⟨lines0, rfl⟩
  | cons m ms ih =>
    intro lines0
    obtain ⟨loc, hloc⟩ := hm m (List.mem_cons_self _ _)
    obtain ⟨lines, hl⟩ := ih (fun m' hm' => hm m' (List.mem_cons_of_mem _ hm'))
      (set_insert lines0 loc)
    refine ⟨lines, ?_⟩
    rw [List.foldlM_cons]
    simp only [hloc, bind, Except.bind, pure, Except.pure]
    exact hl

theorem registry_fill_error_kind (p : patterns) (messages : List (String × Nat)) :
    ∀ (lines0 : List line_id) (e : failure),
      messages.foldlM (fun lines l => do
        let x ← make_line_id p l.1
        pure (set_insert lines x)) lines0 = .error e → e = .bad_lexical_cast := by
  induction messages with
  | nil => intro lines0 e h; cases h
  | cons m ms ih =>
    intro lines0 e h
    rw [List.foldlM_cons] at h
    cases hm : make_line_id p m.1 with
    | error e' =>
      simp only [hm, bind, Except.bind] at h
      cases h
      exact make_line_id_error p m.1 e hm
    | ok v =>
      simp only [hm, bind, Except.bind, pure, Except.pure] at h
      exact ih _ e h

theorem call_graph_error_kind (c : compiler) (p : patterns) (input : List String)
    (e : failure) (h : call_graph c p input = .error e) : e = .bad_lexical_cast := by
  cases hf : registry_fill p (frequency_pass p input).messages with
  | error e' =>
    have he' := registry_fill_error_kind p _ [] e' hf
    simp only [call_graph, hf, bind, Except.bind] at h
    cases h
    exact he'
  | ok lines =>
    obtain ⟨_, _, _, _, _, _, _, hcg⟩ := call_graph_ok c p input lines hf
    rw [hcg] at h
    cases h

theorem foldl_filter_skip {α β : Type} (f : β → α → β) (keep : α → Bool)
    (hskip : ∀ b a, keep a = false → f b a = b) (l : List α) :
    ∀ b, (l.filter keep).foldl f b = l.foldl f b := by
  induction l with
  | nil => intro b; rfl
  | cons a l ih =>
    intro b
    by_cases hk : keep a = true
    · rw [List.filter_cons_of_pos hk, List.foldl_cons, List.foldl_cons, ih]
    · have hk' : keep a = false := by simpa using hk
      rw [List.filter_cons_of_neg hk, List.foldl_cons, hskip b a hk', ih]

theorem foldlM_filter_skip {α β : Type} (f : β → α → Except failure β) (keep : α → Bool)
    (hskip : ∀ b a, keep a = false → f b a = .ok b) (l : List α) :
    ∀ b, (l.filter keep).foldlM f b = l.foldlM f b := by
  induction l with
  | nil => intro b; rfl
  | cons a l ih =>
    intro b
    by_cases hk : keep a = true
    · rw [List.filter_cons_of_pos hk, List.foldlM_cons, List.foldlM_cons]
      cases f b a with
      | error e => rfl
      | ok b' => exact ih b'
    · have hk' : keep a = false := by simpa using hk
      rw [List.filter_cons_of_neg hk, List.foldlM_cons, hskip b a hk']
      exact ih b

theorem foldlM_map_events {α : Type} (step : loop_state → event → Except failure loop_state)
    (g : α → event) (l : List α) :
    ∀ st, (l.map g).foldlM step st = l.foldlM (fun st a => step st (g a)) st := by
  induction l with
  | nil => intro st; rfl
  | cons a l ih =>
    intro st
    rw [List.map_cons, List.foldlM_cons, List.foldlM_cons]
    cases step st (g a) with
    | error e => rfl
    | ok st' => exact ih st'

theorem classify_unmatched (p : patterns) (lines : List line_id) (line : String)
    (h : is_unmatched p line = true) : classify p lines line = .unmatched := by
  simp only [is_unmatched, Bool.and_eq_true, Option.isNone_iff_eq_none, Bool.not_eq_true'] at h
  obtain ⟨⟨h1, h2⟩, h3⟩ := h
  simp [classify, h1, h2, h3]

theorem tally_line_unmatched (p : patterns) (t : tally) (line : String)
    (h : is_unmatched p line = true) : tally_line p t line = t := by
  simp only [is_unmatched, Bool.and_eq_true, Option.isNone_iff_eq_none] at h
  simp [tally_line, h.1.1]

theorem frequency_pass_drop_unmatched (p : patterns) (input : List String) :
    frequency_pass p (input.filter (fun l => !is_unmatched p l)) = frequency_pass p input := by
  unfold frequency_pass
  apply foldl_filter_skip
  intro t line hl
  exact tally_line_unmatched p t line (by simpa using hl)

theorem tree_loop_drop_unmatched (c : compiler) (p : patterns) (lines : List line_id)
    (input : List String) :
    tree_loop c ((input.filter (fun l => !is_unmatched p l)).map (classify p lines)) =
      tree_loop c (input.map (classify p lines)) := by
  have hm : ((input.filter (fun l => !is_unmatched p l)).map (classify p lines)).foldlM
        msvc_step loop_state.init =
      (input.map (classify p lines)).foldlM msvc_step loop_state.init := by
    rw [foldlM_map_events, foldlM_map_events]
    apply foldlM_filter_skip
    intro st line hl
    rw [classify_unmatched p lines line (by simpa using hl)]
    rfl
  have hg : ((input.filter (fun l => !is_unmatched p l)).map (classify p lines)).foldlM
        gnuc_step loop_state.init =
      (input.map (classify p lines)).foldlM gnuc_step loop_state.init := by
    rw [foldlM_map_events, foldlM_map_events]
    apply foldlM_filter_skip
    intro st line hl
    rw [classify_unmatched p lines line (by simpa using hl)]
    rfl
  cases c with
  | msvc => simp only [tree_loop, msvc_loop, hm]
  | gnuc => simp only [tree_loop, gnuc_loop, hg]

theorem postprocess_drop_unmatched (c : compiler) (p : patterns) (input : List String) :
    postprocess c p (input.filter (fun l => !is_unmatched p l)) = postprocess c p input := by
  simp only [postprocess, flat, call_graph, frequency_pass_drop_unmatched,
    tree_loop_drop_unmatched]

theorem commit_view (bd bd' : Nat) (s : instantiation_state) (ci : Option line_id) :
    (commit ⟨bd, s, ci⟩).map view = (commit ⟨bd', s, ci⟩).map view := by
  cases ci with
  | none => rfl
  | some x =>
    simp only [commit, bind, Except.bind]
    rw [add_instantiation_backtrace s (some x) bd 0, add_instantiation_backtrace s (some x) bd' 0]
    cases add_instantiation s (some x) 0 with
    | error e => rfl
    | ok s' => rfl

theorem commit_view_cases (s : instantiation_state) (ci : Option line_id) :
    (∃ e, ∀ b, commit ⟨b, s, ci⟩ = .error e) ∨
      ∃ s', ∀ b, commit ⟨b, s, ci⟩ = .ok ⟨b, s', ci⟩ := by
  cases ci with
  | none => exact Or.inr ⟨s, fun b => rfl⟩
  | some x =>
    cases h : add_instantiation s (some x) 0 with
    | error e =>
      left
      refine ⟨e, fun b => ?_⟩
      simp only [commit, bind, Except.bind, add_instantiation_backtrace s (some x) b 0, h]
    | ok s' =>
      right
      refine ⟨s', fun b => ?_⟩
      simp only [commit, bind, Except.bind, add_instantiation_backtrace s (some x) b 0, h,
        pure, Except.pure]

theorem msvc_step_view (st st' : loop_state) (e : event) (h : view st = view st') :
    (msvc_step st e).map view = (msvc_step st' e).map view := by
  obtain ⟨bd, s, ci⟩ := st
  obtain ⟨bd', s', ci'⟩ := st'
  simp only [view, Prod.mk.injEq] at h
  obtain ⟨h1, h2⟩ := h
  subst h1
  subst h2
  cases e with
  | enter loc =>
    rcases commit_view_cases s ci with ⟨e, he⟩ | ⟨s1, hs1⟩
    · simp only [msvc_step, he, bind, Except.bind]
    · simp only [msvc_step, hs1, bind, Except.bind]
      cases loc with
      | error e => rfl
      | ok l => rfl
  | frame => rfl
  | exit =>
    rcases commit_view_cases s ci with ⟨e, he⟩ | ⟨s1, hs1⟩
    · simp only [msvc_step, he, bind, Except.bind]
    · simp only [msvc_step, hs1, bind, Except.bind]
      cases finish_instantiation s1 with
      | error e => rfl
      | ok s2 => rfl
  | unmatched => rfl

theorem gnuc_step_view (st st' : loop_state) (e : event) (h : view st = view st') :
    (gnuc_step st e).map view = (gnuc_step st' e).map view := by
  obtain ⟨bd, s, ci⟩ := st
  obtain ⟨bd', s', ci'⟩ := st'
  simp only [view, Prod.mk.injEq] at h
  obtain ⟨h1, h2⟩ := h
  subst h1
  subst h2
  cases e with
  | enter loc =>
    cases loc with
    | error e => rfl
    | ok l =>
      simp only [gnuc_step, bind, Except.bind]
      rw [add_instantiation_backtrace s (some l) (bd + 1) 0,
        add_instantiation_backtrace s (some l) (bd' + 1) 0]
  | frame => rfl
  | exit =>
    simp only [gnuc_step, bind, Except.bind]
  | unmatched => rfl

theorem foldlM_drop_frames (step : loop_state → event → Except failure loop_state)
    (hview : ∀ st st' e, view st = view st' → (step st e).map view = (step st' e).map view)
    (hframe : ∀ st, ∃ st', step st .frame = .ok st' ∧ view st' = view st)
    (events : List event) :
    ∀ st st', view st = view st' →
      ((events.filter not_frame).foldlM step st).map view =
        (events.foldlM step st').map view := by
  induction events with
  | nil =>
    intro st st' h
    simp only [List.filter_nil, List.foldlM_nil, pure, Except.pure, Except.map, h]
  | cons e es ih =>
    intro st st' h
    by_cases hk : not_frame e = true
    · rw [List.filter_cons_of_pos hk, List.foldlM_cons, List.foldlM_cons]
      have hs := hview st st' e h
      cases h1 : step st e with
      | error a =>
        cases h2 : step st' e with
        | error a' =>
          rw [h1, h2] at hs
          simp only [Except.map, Except.error.injEq] at hs
          subst hs
          rfl
        | ok r' =>
          rw [h1, h2] at hs
          simp [Except.map] at hs
      | ok r =>
        cases h2 : step st' e with
        | error a' =>
          rw [h1, h2] at hs
          simp [Except.map] at hs
        | ok r' =>
          rw [h1, h2] at hs
          simp only [Except.map, Except.ok.injEq] at hs
          exact ih r r' hs
    · have he : e = .frame := by
        cases e with
        | frame => rfl
        | enter l => simp [not_frame] at hk
        | exit => simp [not_frame] at hk
        | unmatched => simp [not_frame] at hk
      subst he
      obtain ⟨st'', hst, hv⟩ := hframe st'
      rw [List.filter_cons_of_neg hk, List.foldlM_cons, hst]
      exact ih st st'' (h.trans hv.symm)

theorem tree_loop_drop_frames (c : compiler) (events : List event) :
    (tree_loop c (events.filter not_frame)).map (fun st => st.state) =
      (tree_loop c events).map (fun st => st.state) := by
  cases c with
  | msvc =>
    have h := foldlM_drop_frames msvc_step msvc_step_view (fun st => ⟨_, rfl, rfl⟩) events
      loop_state.init loop_state.init rfl
    simp only [tree_loop, msvc_loop, bind, Except.bind]
    cases h1 : (events.filter not_frame).foldlM msvc_step loop_state.init with
    | error a =>
      cases h2 : events.foldlM msvc_step loop_state.init with
      | error a' =>
        rw [h1, h2] at h
        simp only [Except.map, Except.error.injEq] at h
        subst h
        rfl
      | ok r' =>
        rw [h1, h2] at h
        simp [Except.map] at h
    | ok r =>
      cases h2 : events.foldlM msvc_step loop_state.init with
      | error a' =>
        rw [h1, h2] at h
        simp [Except.map] at h
      | ok r' =>
        rw [h1, h2] at h
        simp only [Except.map, Except.ok.injEq] at h
        obtain ⟨bd, s, ci⟩ := r
        obtain ⟨bd', s', ci'⟩ := r'
        simp only [view, Prod.mk.injEq] at h
        obtain ⟨e1, e2⟩ := h
        subst e1
        subst e2
        have hc := commit_view bd bd' s ci
        show Except.map (fun st => st.state) (commit ⟨bd, s, ci⟩) =
          Except.map (fun st => st.state) (commit ⟨bd', s, ci⟩)
        cases h3 : commit ⟨bd, s, ci⟩ with
        | error a =>
          cases h4 : commit ⟨bd', s, ci⟩ with
          | error a' =>
            rw [h3, h4] at hc
            simp only [Except.map, Except.error.injEq] at hc
            subst hc
            rfl
          | ok q' =>
            rw [h3, h4] at hc
            simp [Except.map] at hc
        | ok q =>
          cases h4 : commit ⟨bd', s, ci⟩ with
          | error a' =>
            rw [h3, h4] at hc
            simp [Except.map] at hc
          | ok q' =>
            rw [h3, h4] at hc
            simp only [Except.map, Except.ok.injEq, view, Prod.mk.injEq] at hc
            simp only [Except.map, hc.1]
  | gnuc =>
    have h := foldlM_drop_frames gnuc_step gnuc_step_view (fun st => ⟨_, rfl, rfl⟩) events
      loop_state.init loop_state.init rfl
    simp only [tree_loop, gnuc_loop]
    cases h1 : (events.filter not_frame).foldlM gnuc_step loop_state.init with
    | error a =>
      cases h2 : events.foldlM gnuc_step loop_state.init with
      | error a' =>
        rw [h1, h2] at h
        simp only [Except.map, Except.error.injEq] at h
        subst h
        rfl
      | ok r' =>
        rw [h1, h2] at h
        simp [Except.map] at h
    | ok r =>
      cases h2 : events.foldlM gnuc_step loop_state.init with
      | error a' =>
        rw [h1, h2] at h
        simp [Except.map] at h
      | ok r' =>
        rw [h1, h2] at h
        simp only [Except.map, Except.ok.injEq, view, Prod.mk.injEq] at h
        simp only [Except.map, h.1]

theorem classify_not_frame (p : patterns) (lines : List line_id) (line : String) :
    not_frame (classify p lines line) = !is_frame p line := by
  unfold classify is_frame
  cases h1 : p.enter_message line with
  | some t => simp [not_frame]
  | none =>
    by_cases h2 : p.call_graph_line line = true
    · simp [h2, not_frame]
    · by_cases h3 : p.exit_message line = true
      · simp [h2, h3, not_frame]
      · simp [h2, h3, not_frame]

theorem tally_line_frame (p : patterns) (t : tally) (line : String)
    (h : is_frame p line = true) : tally_line p t line = t := by
  simp only [is_frame, Bool.and_eq_true, Option.isNone_iff_eq_none] at h
  simp [tally_line, h.1]

theorem frequency_pass_drop_frames (p : patterns) (input : List String) :
    frequency_pass p (input.filter (fun l => !is_frame p l)) = frequency_pass p input := by
  unfold frequency_pass
  apply foldl_filter_skip
  intro t line hl
  exact tally_line_frame p t line (by simpa using hl)

theorem call_graph_of_state (c : compiler) (p : patterns) (input : List String) :
    call_graph c p input =
      (registry_fill p (frequency_pass p input).messages).bind (fun lines =>
        ((tree_loop c (input.map (classify p lines))).map (fun st => st.state)).bind
          (fun s => (get_graph s []).bind (fun g => .ok (std_sort call_graph_less g)))) := by
  unfold call_graph
  cases registry_fill p (frequency_pass p input).messages with
  | error e => rfl
  | ok lines =>
    simp only [bind, Except.bind]
    cases tree_loop c (input.map (classify p lines)) with
    | error e => rfl
    | ok st => rfl

theorem postprocess_drop_frames (c : compiler) (p : patterns) (input : List String) :
    postprocess c p (input.filter (fun l => !is_frame p l)) = postprocess c p input := by
  have hmap : ∀ lines : List line_id,
      (input.filter (fun l => !is_frame p l)).map (classify p lines) =
        (input.map (classify p lines)).filter not_frame := by
    intro lines
    rw [List.filter_map]
    congr 1
    apply List.filter_congr
    intro l _
    simp [classify_not_frame]
  simp only [postprocess, flat, call_graph_of_state, frequency_pass_drop_frames, hmap,
    tree_loop_drop_frames]

theorem count_records_visit (h : List node) (g : graph_t) (i : Nat) :
    sum_records (fun ni => ni.count) (visit h g i) =
      sum_records (fun ni => ni.count) g + if id_of h i = none then 0 else 1 := by
  unfold visit
  have h0 := sum_records_count_node (fun ni => ni.count) rfl 1 (fun _ => rfl) g (id_of h i)
  generalize count_node g (id_of h i) = g0 at h0
  induction ancestors h i generalizing g0 with
  | nil => exact h0
  | cons y ys ih =>
    simp only [List.foldl_cons]
    apply ih
    rw [sum_records_add_child (fun ni => ni.count) rfl 0 0 (fun _ _ => rfl) (fun _ _ => rfl)
      (fun _ => rfl), h0]
    simp

theorem count_records_foldl_visit (h : List node) (t : List Nat) :
    ∀ g : graph_t, sum_records (fun ni => ni.count) (t.foldl (visit h) g) =
      sum_records (fun ni => ni.count) g + t.countP (fun n => decide (id_of h n ≠ none)) := by
  induction t with
  | nil => intro g; simp
  | cons x xs ih =>
    intro g
    rw [List.foldl_cons, ih, count_records_visit, List.countP_cons]
    by_cases hx : id_of h x = none
    · simp [hx]
    · simp [hx]
      omega

theorem tree_loop_ids (c : compiler) (evs : List located) :
    ∃ st, tree_loop c (evs.map located.event) = .ok st ∧ state_ok st.state ∧
      st.state.heap.map node.id = none :: (enter_locations evs).map some := by
  obtain ⟨sm, sg, _, h2, h3, h4, h5⟩ := loops_agree_init evs
  obtain ⟨sg', g1, _, g3⟩ := gnuc_fold_ids evs loop_state.init state_ok_init
  have hsg : sg' = sg := by
    have : Except.ok sg' = Except.ok sg := g1.symm.trans h2
    exact Except.ok.inj this
  subst hsg
  have oks := state_ok_settled sm h3
  have hids : sg'.state.heap.map node.id = none :: (enter_locations evs).map some := by
    rw [g3]
    rfl
  cases c with
  | msvc => exact ⟨_, h4, oks, by rw [h5]; exact hids⟩
  | gnuc => exact ⟨sg', h2, by rw [← h5]; exact oks, hids⟩

theorem locate_input (p : patterns) (lines : List line_id) (input : List String)
    (h : ∀ line ∈ input, ∀ text, p.enter_message line = some text →
      ∃ loc, find_line p lines text = .ok loc ∧ make_line_id p text = .ok loc) :
    ∃ evs : List located, input.map (classify p lines) = evs.map located.event ∧
      (enter_texts p input).map (make_line_id p) = (enter_locations evs).map Except.ok := by
  induction input with
  | nil => exact ⟨[], rfl, rfl⟩
  | cons line rest ih =>
    obtain ⟨evs, h1, h2⟩ := ih (fun l hl => h l (List.mem_cons_of_mem _ hl))
    cases hm : p.enter_message line with
    | some text =>
      obtain ⟨loc, hf, hk⟩ := h line (List.mem_cons_self _ _) text hm
      refine ⟨.enter loc :: evs, ?_, ?_⟩
      · simp only [List.map_cons, h1, classify, hm, hf, located.event]
      · simp only [enter_texts, List.filterMap_cons, hm, List.map_cons, enter_locations, hk]
        exact congrArg _ h2
    | none =>
      have htexts : enter_texts p (line :: rest) = enter_texts p rest := by
        simp [enter_texts, List.filterMap_cons, hm]
      by_cases c1 : p.call_graph_line line = true
      · exact ⟨.frame :: evs, by simp [h1, classify, hm, c1, located.event],
          by rw [htexts, h2]; rfl⟩
      · by_cases c2 : p.exit_message line = true
        · exact ⟨.exit :: evs, by simp [h1, classify, hm, c1, c2, located.event],
            by rw [htexts, h2]; rfl⟩
        · exact ⟨.unmatched :: evs, by simp [h1, classify, hm, c1, c2, located.event],
            by rw [htexts, h2]; rfl⟩

theorem sum_filter_map_index (P : String → Bool) (k : String) (m : List (String × Nat)) :
    (((map_index 0 (· + 1) k m).filter (fun e => P e.1)).map Prod.snd).sum =
      ((m.filter (fun e => P e.1)).map Prod.snd).sum + if P k then 1 else 0 := by
  induction m with
  | nil =>
    by_cases hk : P k = true
    · simp [map_index, hk]
    · simp [map_index, hk]
  | cons x m ih =>
    obtain ⟨k0, v⟩ := x
    by_cases h0 : k0 = k
    · subst h0
      by_cases hk : P k0 = true
      · simp [map_index, hk]
        omega
      · simp [map_index, hk]
    · by_cases hk0 : P k0 = true
      · simp only [map_index, h0, if_false, List.filter_cons_of_pos, hk0, List.map_cons,
          List.sum_cons, ih]
        omega
      · have e1 : ∀ l : List (String × Nat),
            ((k0, v) :: l).filter (fun e => P e.1) = l.filter (fun e => P e.1) :=
          fun l => List.filter_cons_of_neg (by simpa using hk0)
        simp only [map_index, h0, if_false, e1, ih]

theorem frequency_fold_filter (p : patterns) (P : String → Bool) (input : List String) :
    ∀ t : tally,
      (((input.foldl (tally_line p) t).messages.filter (fun e => P e.1)).map Prod.snd).sum =
        ((t.messages.filter (fun e => P e.1)).map Prod.snd).sum +
          (enter_texts p input).countP P := by
  induction input with
  | nil => intro t; simp [enter_texts]
  | cons line rest ih =>
    intro t
    rw [List.foldl_cons, ih]
    cases hm : p.enter_message line with
    | none =>
      simp [tally_line, hm, enter_texts, List.filterMap_cons]
    | some m1 =>
      have htexts : enter_texts p (line :: rest) = m1 :: enter_texts p rest := by
        simp [enter_texts, List.filterMap_cons, hm]
      simp only [tally_line, hm, htexts, sum_filter_map_index, List.countP_cons]
      omega

theorem rows_filter_sum (p : patterns) (P : String → Bool) (input : List String) :
    (((flat p input).rows.filter (fun r => P r.1)).map (fun r => r.2.1)).sum =
      (enter_texts p input).countP P := by
  have e1 : ((flat p input).rows.filter (fun r => P r.1)).map (fun r => r.2.1) =
      ((((flat p input).rows.map (fun r => (r.1, r.2.1))).filter (fun e => P e.1)).map
        Prod.snd) := by
    rw [List.filter_map, List.map_map]
    rfl
  have e2 : (flat p input).rows.map (fun r => (r.1, r.2.1)) =
      std_sort compare (frequency_pass p input).messages := for_each_print_fst _ 0
  rw [e1, e2]
  have hperm := (((std_sort_perm compare (frequency_pass p input).messages).filter
    (fun e => P e.1)).map Prod.snd).sum_eq
  rw [hperm]
  have hf := frequency_fold_filter p P input ⟨[], 0, 0⟩
  simpa [frequency_pass] using hf

theorem countP_ids (h : List node) (t : List Nat) (hperm : t.Perm (List.range h.length))
    (Q : Option line_id → Bool) :
    t.countP (fun n => Q (id_of h n)) = (h.map node.id).countP Q := by
  rw [hperm.countP_eq, ← map_id_of_range, List.countP_map]
  rfl

theorem countP_some_eq (locs : List line_id) (l : line_id) :
    (locs.map some).countP (fun o => decide (o = some l)) =
      locs.countP (fun x => decide (x = l)) := by
  rw [List.countP_map]
  apply List.countP_congr
  intro x _
  simp

theorem countP_some_ne_none (locs : List line_id) :
    (locs.map some).countP (fun o => decide (o ≠ none)) = locs.length := by
  rw [List.countP_map, List.countP_eq_length]
  intro x _
  simp

theorem countP_splits_to (p : patterns) (texts : List String) (locs : List line_id)
    (l : line_id) (h : texts.map (make_line_id p) = locs.map Except.ok) :
    texts.countP (fun t => splits_to p t l) = locs.countP (fun x => decide (x = l)) := by
  induction texts generalizing locs with
  | nil =>
    cases locs with
    | nil => rfl
    | cons x xs => cases h
  | cons t ts ih =>
    cases locs with
    | nil => cases h
    | cons x xs =>
      simp only [List.map_cons, List.cons.injEq] at h
      rw [List.countP_cons, List.countP_cons, ih xs h.2]
      simp only [splits_to, h.1]

/-! ## The claims -/

/-- C1. Symmetry of the aggregated graph: for the tree built by any sequence of
`add_instantiation` and `finish_instantiation` calls, `get_graph` on an empty graph
returns a graph in which, for all locations `A` and `B`, the weight under `B` in
`graph[A].children` equals the weight under `A` in `graph[B].parents` (absent keys
counting as 0). -/
theorem C1_graph_symmetry (cs : List call) :
    ∃ s g, run_calls instantiation_state.init cs = .ok s ∧ get_graph s [] = .ok g ∧
      ∀ A B : line_id, weight (graph_at g A).children B = weight (graph_at g B).parents A := by
  obtain ⟨s, hs, _, hg⟩ := graph_of_calls cs
  refine ⟨s, _, hs, hg, ?_⟩
  exact symmetric_foldl_visit s.heap _ [] (fun _ _ => rfl)

/-- C2. `get_graph` equals its reference definition: for the tree built by any sequence
of calls, `get_graph` on an empty graph returns a graph in which (1) `graph[L].count` is
the number of non-root tree nodes with location `L` and (2) for `A != B`,
`graph[A].children[B]` is the number of pairs of a node with location `B` and a proper
ancestor of it, at any distance, with location `A`. For the tree
root -> (a.cpp,10) -> (a.cpp,20) the record of (a.cpp,10) has direct count 1,
total-with-children 1 and the single child edge to (a.cpp,20) of weight 1. -/
theorem C2_get_graph_reference :
    (∀ cs : List call,
      ∃ s g, run_calls instantiation_state.init cs = .ok s ∧ get_graph s [] = .ok g ∧
        (∀ L : line_id, (graph_at g L).count = occurrences s.heap L) ∧
        (∀ A B : line_id, A ≠ B →
          weight (graph_at g A).children B = nested_occurrences s.heap A B)) ∧
    (∃ s g, run_calls instantiation_state.init
        [call.add (some ("a.cpp", 10)) 0, call.add (some ("a.cpp", 20)) 0] = .ok s ∧
      s.heap = [⟨[1], none, none, 0⟩, ⟨[2], some ("a.cpp", 10), some 0, 1⟩,
        ⟨[], some ("a.cpp", 20), some 1, 2⟩] ∧
      get_graph s [] = .ok g ∧
      graph_at g ("a.cpp", 10) = ⟨[(("a.cpp", 20), 1)], [], 1, 1⟩) := by
  constructor
  · intro cs
    obtain ⟨s, hs, ok, hg⟩ := graph_of_calls cs
    refine ⟨s, _, hs, hg, ?_, ?_⟩
    · intro L
      rw [count_foldl_visit, subtree_root_eq ok.1, List.countP_append]
      simp [graph_at_nil, occurrences, ok.1.root_id]
    · intro A B hAB
      have := child_weight_foldl_visit s.heap A B hAB (subtree s.heap s.heap.length 0) []
      unfold child_weight at this
      rw [this, (walked_pairs_perm ok.1).countP_eq]
      simp [graph_at_nil, weight, map_find, nested_occurrences]
  · exact ⟨_, _, rfl, rfl, rfl, by decide⟩

/-- C3. For every bracket-balanced stream of enter, backtrace-frame and exit events with
well-formed locations (and unmatched lines anywhere), the `_MSC_VER` loop returns the tree
of the bracket structure: the node of each enter event has the bracket nesting level of
that enter (1 at top level) as depth and the node of the innermost enclosing unclosed
enter (or the root) as parent, and the cursor is back at the root at the end of the
input. -/
theorem C3_msvc_tree_is_bracket_tree (evs : List located) (hb : balanced evs = true) :
    ∃ st, msvc_loop (evs.map located.event) = .ok st ∧
      st.state.heap = bracket_tree evs ∧ st.state.current = some 0 := by
  obtain ⟨sm, sg, _, h2, _, h4, h5⟩ := loops_agree_init evs
  obtain ⟨sg', g1, g2, g3⟩ := gnuc_fold_bracket evs loop_state.init
    ⟨[⟨[], none, none, 0⟩], []⟩ heap_ok_init trivial rfl
  have hsg : sg' = sg := by
    have : Except.ok sg' = Except.ok sg := g1.symm.trans h2
    exact Except.ok.inj this
  subst hsg
  have hlen := g3 0 (by simpa [balanced] using hb)
  have hnil : (evs.foldl bracket_step ⟨[⟨[], none, none, 0⟩], []⟩).unclosed = [] :=
    List.length_eq_zero.1 hlen
  refine ⟨_, h4, ?_, ?_⟩
  · simp only [h5, g2, bracket_tree]
  · simp only [h5, g2, hnil, List.headD_nil]

/-- C3 at the stream enter(a.cpp,10), enter(a.cpp,20), exit, exit: the tree is
root -> (a.cpp,10) -> (a.cpp,20). -/
theorem C3_msvc_tree_is_bracket_tree_witness :
    balanced [.enter ("a.cpp", 10), .enter ("a.cpp", 20), .exit, .exit] = true ∧
    bracket_tree [.enter ("a.cpp", 10), .enter ("a.cpp", 20), .exit, .exit] =
      [⟨[1], none, none, 0⟩, ⟨[2], some ("a.cpp", 10), some 0, 1⟩,
        ⟨[], some ("a.cpp", 20), some 1, 2⟩] ∧
    ∃ st, msvc_loop (([.enter ("a.cpp", 10), .enter ("a.cpp", 20), .exit, .exit] :
        List located).map located.event) = .ok st ∧
      st.state.heap = bracket_tree [.enter ("a.cpp", 10), .enter ("a.cpp", 20), .exit, .exit] ∧
      st.state.current = some 0 :=
  ⟨by decide, by decide,
    C3_msvc_tree_is_bracket_tree [.enter ("a.cpp", 10), .enter ("a.cpp", 20), .exit, .exit]
      (by decide)⟩

/-- C4. Dialect equivalence: for every finite sequence of enter and exit events with
well-formed locations, balanced or not, with backtrace frames and unmatched lines anywhere
in between, the `_MSC_VER` loop (with its commit
at the end of the input) and the `__GNUC__` loop both return, and with the same heap of
nodes and the same cursor: the same tree in shape and in the location of every node. -/
theorem C4_dialects_build_the_same_tree (evs : List located) :
    ∃ sm sg, msvc_loop (evs.map located.event) = .ok sm ∧
      gnuc_loop (evs.map located.event) = .ok sg ∧ sm.state = sg.state := by
  obtain ⟨sm, sg, _, h2, _, h4, h5⟩ := loops_agree_init evs
  exact ⟨_, sg, h4, h2, h5⟩

/-- C5. No enter event is discarded: for every event stream with well-formed locations
the `_MSC_VER` loop returns a tree whose non-root nodes correspond one to one to the enter
events of the stream (the locations of the allocated nodes are the locations of the
enter events in order, and the non-root nodes reachable from the root are exactly the
allocated ones); and when the stream ends with an enter event that has no exit (only
backtrace frames and unmatched lines follow it), the node of that event is allocated
last, with `up` pointing to the node that was current when the input ended and as a
member of the `children` of that node, and is the final cursor. -/
theorem C5_no_enter_is_discarded (evs : List located) :
    ∃ st, msvc_loop (evs.map located.event) = .ok st ∧
      st.state.heap.tail.map node.id = (enter_locations evs).map some ∧
      (descendants st.state.heap 0).Perm (List.range st.state.heap.length).tail ∧
      ((descendants st.state.heap 0).map (id_of st.state.heap)).Perm
        ((enter_locations evs).map some) ∧
      ∀ (evs0 : List located) (l : line_id) (rest : List located),
        evs = evs0 ++ located.enter l :: rest →
        (∀ e ∈ rest, e = located.frame ∨ e = located.unmatched) →
        ∃ st0 c, (evs.map located.event).foldlM msvc_step loop_state.init = .ok st0 ∧
          st0.state.current = some c ∧
          st.state.heap.length = st0.state.heap.length + 1 ∧
          id_of st.state.heap st0.state.heap.length = some l ∧
          up_of st.state.heap st0.state.heap.length = some c ∧
          st0.state.heap.length ∈ kids_of st.state.heap c ∧
          st0.state.heap.length ∈ descendants st.state.heap 0 ∧
          st.state.current = some st0.state.heap.length := by
  obtain ⟨sm, sg, h1, h2, h3, h4, h5⟩ := loops_agree_init evs
  obtain ⟨sg', g1, g2, g3⟩ := gnuc_fold_ids evs loop_state.init state_ok_init
  have hsg : sg' = sg := by
    have : Except.ok sg' = Except.ok sg := g1.symm.trans h2
    exact Except.ok.inj this
  subst hsg
  have oks := state_ok_settled sm h3
  have hids : (settled sm).heap.map node.id = none :: (enter_locations evs).map some := by
    rw [h5, g3]
    rfl
  have htail : (settled sm).heap.tail.map node.id = (enter_locations evs).map some := by
    rw [List.map_tail, hids]
    rfl
  have hperm := descendants_root_perm oks.1
  refine ⟨_, h4, htail, hperm, ?_, ?_⟩
  · have := hperm.map (id_of (settled sm).heap)
    rw [List.map_tail, map_id_of_range, ← List.map_tail, htail] at this
    exact this
  · intro evs0 l rest hev hrest
    obtain ⟨st0, p1, p2, p3⟩ :=
      pending_after_enter evs0 l rest hrest loop_state.init state_ok_init
    rw [← hev] at p1
    have hst : st0 = sm := by
      have : Except.ok st0 = Except.ok sm := p1.symm.trans h1
      exact Except.ok.inj this
    subst hst
    obtain ⟨c, hc, hlt, _, _⟩ := state_ok_add st0.state (some l) 0 p2
    have hset : settled st0 = ⟨heap_add st0.state.heap c (some l), some st0.state.heap.length⟩ := by
      obtain ⟨bd, s, ci⟩ := st0
      simp only at p3
      subst p3
      exact settled_some bd s l c hc
    refine ⟨st0, c, h1, hc, ?_, ?_, ?_, ?_, ?_, ?_⟩
    · simp only [hset, length_heap_add]
    · simp only [hset, id_of_heap_add _ _ _ _ hlt, if_true]
    · simp only [hset, up_of_heap_add _ _ _ _ hlt, if_true]
    · have hne : ¬ (c = st0.state.heap.length) := by omega
      simp only [hset, kids_of_heap_add _ _ _ _ hlt, hne, if_false, if_true]
      simp
    · apply hperm.mem_iff.2
      have hl : (settled st0).heap.length = st0.state.heap.length + 1 := by
        simp only [hset, length_heap_add]
      rw [hl, List.range_succ_eq_map]
      simp only [List.tail_cons, List.mem_map, List.mem_range]
      have := p2.1.len_pos
      exact ⟨st0.state.heap.length - 1, by omega, by omega⟩
    · simp only [hset]

/-- C6. An exit at the root is a no-op: with the cursor at the root `finish_instantiation`
returns normally and leaves the cursor and the heap of nodes as they are; both loops
return normally on every event stream with well-formed locations, whatever the numbers of
its enter and exit events; on input lines, the call-graph half of `postprocess` returns
normally in both dialects whenever the registry fill does; and an exit event met with no
pending location and the cursor at the root leaves the tree and the cursor as they are, in
both loops. The stream exit, exit, enter(a.cpp,10), exit, exit is run as an example. -/
theorem C6_exit_at_root_is_no_op :
    (∀ h : List node, finish_instantiation ⟨h, some 0⟩ = .ok ⟨h, some 0⟩) ∧
    (∀ evs : List located,
      (∃ sm, msvc_loop (evs.map located.event) = .ok sm) ∧
      (∃ sg, gnuc_loop (evs.map located.event) = .ok sg)) ∧
    (∀ (c : compiler) (p : patterns) (input : List String) (lines : List line_id),
      registry_fill p (frequency_pass p input).messages = .ok lines →
      ∃ r, call_graph c p input = .ok r) ∧
    (∀ (h : List node) (bd : Nat),
      ∃ bd', msvc_step ⟨bd, ⟨h, some 0⟩, none⟩ .exit = .ok ⟨bd', ⟨h, some 0⟩, none⟩) ∧
    (∀ (h : List node) (bd : Nat) (ci : Option line_id),
      gnuc_step ⟨bd, ⟨h, some 0⟩, ci⟩ .exit = .ok ⟨0, ⟨h, some 0⟩, ci⟩) ∧
    (msvc_loop ([located.exit, located.exit, located.enter ("a.cpp", 10), located.exit,
        located.exit].map located.event) =
      .ok ⟨0, ⟨[⟨[1], none, none, 0⟩, ⟨[], some ("a.cpp", 10), some 0, 1⟩], some 0⟩, none⟩) := by
  refine ⟨?_, ?_, ?_, ?_, ?_, ?_⟩
  · intro h
    simp [finish_instantiation]
  · intro evs
    obtain ⟨sm, sg, _, h2, _, h4, _⟩ := loops_agree_init evs
    exact ⟨⟨_, h4⟩, ⟨sg, h2⟩⟩
  · intro c p input lines hfill
    obtain ⟨_, _, g, _, _, _, _, hcg⟩ := call_graph_ok c p input lines hfill
    exact ⟨_, hcg⟩
  · intro h bd
    refine ⟨if bd ≠ 0 then bd - 1 else bd, ?_⟩
    simp [msvc_step, commit, finish_instantiation, bind, Except.bind, pure, Except.pure]
  · intro h bd ci
    simp [gnuc_step, finish_instantiation, bind, Except.bind, pure, Except.pure]
  · rfl

/-- C7, amended. When a line matches the enter pattern and the text captured from it
cannot be split into a file and a number that converts to `int`, `postprocess` writes the
flat report and then ends with the exception `bad_lexical_cast`, thrown while the registry
is filled: no tree is built and no call graph is reported, in either dialect. -/
theorem C7_malformed_fragment_is_fatal (c : compiler) (p : patterns) (input : List String)
    (h : ∃ line ∈ input, ∃ text e, p.enter_message line = some text ∧
      make_line_id p text = .error e) :
    postprocess c p input = (flat p input, .error .bad_lexical_cast) := by
  obtain ⟨line, hline, text, e, hm, he⟩ := h
  have hkey : text ∈ (frequency_pass p input).messages.map Prod.fst := by
    rw [(frequency_pass_spec p input).2.1]
    exact List.mem_filterMap.2 ⟨line, hline, hm⟩
  obtain ⟨x, hx, hxt⟩ := List.mem_map.1 hkey
  have hfill : registry_fill p (frequency_pass p input).messages = .error .bad_lexical_cast :=
    registry_fill_error p _ [] ⟨x, hx, e, by rw [hxt]; exact he⟩
  simp only [postprocess, call_graph, hfill, bind, Except.bind]

set_option maxRecDepth 1000000 in
/-- C7 at the single line `a.cpp : warning C4150: ... incomplete_enter ...` of the
`_MSC_VER` dialect, whose text `a.cpp` has no line number. -/
theorem C7_malformed_fragment_is_fatal_witness :
    postprocess .msvc expressions_msvc
      ["a.cpp : warning C4150: deletion of pointer to incomplete type 'template_profiler::incomplete_enter'; no destructor called"] =
    (flat expressions_msvc
      ["a.cpp : warning C4150: deletion of pointer to incomplete type 'template_profiler::incomplete_enter'; no destructor called"],
      .error .bad_lexical_cast) :=
  C7_malformed_fragment_is_fatal .msvc expressions_msvc _
    ⟨_, List.mem_singleton_self _, "a.cpp", .bad_lexical_cast, by decide, rfl⟩

set_option maxRecDepth 1000000 in
/-- C7 fails: in the `_MSC_VER` dialect the second line below matches the enter pattern
with the text `a.cpp`, which `split_file_and_line` does not match; `postprocess` ends with
`bad_lexical_cast`, whereas without that line it reports the call graph of the other
three lines. -/
theorem C7_counterexample :
    expressions_msvc.enter_message
      "a.cpp : warning C4150: deletion of pointer to incomplete type 'template_profiler::incomplete_enter'; no destructor called" =
      some "a.cpp" ∧
    expressions_msvc.split_file_and_line "a.cpp" = none ∧
    (postprocess .msvc expressions_msvc
      ["a.cpp(10) : warning C4150: deletion of pointer to incomplete type 'template_profiler::incomplete_enter'; no destructor called",
       "a.cpp : warning C4150: deletion of pointer to incomplete type 'template_profiler::incomplete_enter'; no destructor called",
       "a.cpp(10) : warning C4150: deletion of pointer to incomplete type 'template_profiler::incomplete_exit'; no destructor called"]).2 =
      .error .bad_lexical_cast ∧
    (postprocess .msvc expressions_msvc
      ["a.cpp(10) : warning C4150: deletion of pointer to incomplete type 'template_profiler::incomplete_enter'; no destructor called",
       "a.cpp(10) : warning C4150: deletion of pointer to incomplete type 'template_profiler::incomplete_exit'; no destructor called"]).2 =
      .ok [(("a.cpp", 10), ⟨[], [], 1, 0⟩)] := by
  refine ⟨by decide, by decide, ?_, ?_⟩
  · rfl
  · rfl

set_option maxRecDepth 1000000 in
/-- C8. Flat frequency table counts: for every sequence of input lines the table has
exactly one row per distinct location text captured from an enter line, the count of a
row is the number of enter lines whose captured text equals the text of the row, and
`total_matches` is the number of enter lines, which is the sum of the counts of the
rows. Two enter lines with text "a.cpp(10)" give the single row ("a.cpp(10)", 2, 2) and
`total_matches == 2`. -/
theorem C8_frequency_table_counts :
    (∀ (p : patterns) (input : List String),
      ((flat p input).rows.map (fun r => r.1)).Nodup ∧
      (∀ x, x ∈ (flat p input).rows.map (fun r => r.1) ↔ x ∈ enter_texts p input) ∧
      (∀ r ∈ (flat p input).rows, r.2.1 = (enter_texts p input).count r.1) ∧
      (flat p input).total_matches = (enter_texts p input).length ∧
      (flat p input).total_matches = ((flat p input).rows.map (fun r => r.2.1)).sum) ∧
    flat expressions_msvc
      ["a.cpp(10) : warning C4150: deletion of pointer to incomplete type 'template_profiler::incomplete_enter'; no destructor called",
       "a.cpp(10) : warning C4150: deletion of pointer to incomplete type 'template_profiler::incomplete_enter'; no destructor called"] =
      ⟨2, [("a.cpp(10)", 2, 2)]⟩ := by
  constructor
  · intro p input
    obtain ⟨i1, i2, i3, i4, i5⟩ := frequency_pass_spec p input
    have hrows : (flat p input).rows.map (fun r => (r.1, r.2.1)) =
        std_sort compare (frequency_pass p input).messages := for_each_print_fst _ 0
    have hperm := std_sort_perm compare (frequency_pass p input).messages
    rw [← hrows] at hperm
    have hfst : (flat p input).rows.map (fun r => r.1) =
        ((flat p input).rows.map (fun r => (r.1, r.2.1))).map Prod.fst := by
      rw [List.map_map]; rfl
    have hsnd : (flat p input).rows.map (fun r => r.2.1) =
        ((flat p input).rows.map (fun r => (r.1, r.2.1))).map Prod.snd := by
      rw [List.map_map]; rfl
    refine ⟨?_, ?_, ?_, i4, ?_⟩
    · rw [hfst]
      exact ((hperm.map Prod.fst).nodup_iff).2 i1
    · intro x
      rw [hfst, (hperm.map Prod.fst).mem_iff]
      exact i2 x
    · intro r hr
      apply i3 r.1 r.2.1
      apply hperm.mem_iff.1
      exact List.mem_map.2 ⟨r, hr, rfl⟩
    · rw [hsnd, (hperm.map Prod.snd).sum_eq, i5]
      exact i4
  · decide

/-- C9. Flat frequency table order and cumulative column: for every input the printed
rows, without their cumulative column, are a permutation of the tallied (text, count)
pairs, their counts are in non-increasing order, the cumulative value of each row is the
sum of the counts of that row and of all rows before it, and the cumulative value of the
last row is `total_matches`. -/
theorem C9_frequency_table_order (p : patterns) (input : List String) :
    ((flat p input).rows.map (fun r => (r.1, r.2.1))).Perm (frequency_pass p input).messages ∧
    ((flat p input).rows.map (fun r => r.2.1)).Sorted (fun a b => a ≥ b) ∧
    (∀ i, i < (flat p input).rows.length →
      ((flat p input).rows.map (fun r => r.2.2))[i]? =
        some ((((flat p input).rows.take (i + 1)).map (fun r => r.2.1)).sum)) ∧
    (∀ r, (flat p input).rows.getLast? = some r → r.2.2 = (flat p input).total_matches) := by
  obtain ⟨i1, i2, i3, i4, i5⟩ := frequency_pass_spec p input
  have hrows : (flat p input).rows.map (fun r => (r.1, r.2.1)) =
      std_sort compare (frequency_pass p input).messages := for_each_print_fst _ 0
  have hperm := std_sort_perm compare (frequency_pass p input).messages
  have hlen : (flat p input).rows.length =
      (std_sort compare (frequency_pass p input).messages).length := for_each_print_length _ 0
  have hsnd : ∀ (l : List (String × Nat × Nat)), l.map (fun r => r.2.1) =
      (l.map (fun r => (r.1, r.2.1))).map Prod.snd := by
    intro l
    rw [List.map_map]; rfl
  have hcum : ∀ i, i < (flat p input).rows.length →
      ((flat p input).rows.map (fun r => r.2.2))[i]? =
        some ((((flat p input).rows.take (i + 1)).map (fun r => r.2.1)).sum) := by
    intro i hi
    have := for_each_print_cumulative (std_sort compare (frequency_pass p input).messages) 0 i
      (by rw [← hlen]; exact hi)
    rw [hsnd, List.map_take, hrows]
    simpa using this
  refine ⟨?_, ?_, hcum, ?_⟩
  · rw [hrows]
    exact hperm
  · rw [hsnd, hrows]
    have := std_sort_compare_sorted (frequency_pass p input).messages
    exact List.pairwise_map.2 this
  · intro r hr
    have hne : (flat p input).rows.length ≠ 0 := by
      intro h0
      rw [List.length_eq_zero.1 h0] at hr
      cases hr
    have hc := hcum ((flat p input).rows.length - 1) (by omega)
    rw [List.getElem?_map, ← List.getLast?_eq_getElem?, hr] at hc
    simp only [Option.map_some', Option.some.injEq] at hc
    rw [hc, show (flat p input).rows.length - 1 + 1 = (flat p input).rows.length by omega,
      List.take_length, hsnd, hrows, (hperm.map Prod.snd).sum_eq, i5]
    exact i4.symm

/-- C10, amended. For the tree built by any sequence of calls, after `get_graph` on an
empty graph: for `A != B`, `graph[A].children[B]` is the number of tree edges from a node
with location `A` to a child with location `B` plus the number of pairs of a node with
location `B` and an ancestor with location `A` two or more levels above it; and
`graph[A].children[A]` is 0. -/
theorem C10_edge_weight_counts_all_ancestors (cs : List call) :
    ∃ s g, run_calls instantiation_state.init cs = .ok s ∧ get_graph s [] = .ok g ∧
      ∀ A B : line_id, weight (graph_at g A).children B =
        if A = B then 0 else edge_count s.heap A B + distant_count s.heap A B := by
  obtain ⟨s, hs, ok, hg⟩ := graph_of_calls cs
  refine ⟨s, _, hs, hg, ?_⟩
  intro A B
  by_cases hAB : A = B
  · subst hAB
    have := child_weight_foldl_visit_self s.heap A (subtree s.heap s.heap.length 0) []
    unfold child_weight at this
    rw [this]
    simp [graph_at_nil, weight, map_find]
  · have := child_weight_foldl_visit s.heap A B hAB (subtree s.heap s.heap.length 0) []
    unfold child_weight at this
    rw [this, (walked_pairs_perm ok.1).countP_eq, if_neg hAB,
      ← nested_eq_edges_add_distant ok.1]
    simp [graph_at_nil, weight, map_find, nested_occurrences]

/-- C10 fails: in the tree root -> (a.cpp,1) -> (a.cpp,2) -> (a.cpp,3) no tree edge goes
from (a.cpp,1) to (a.cpp,3), yet `graph[(a.cpp,1)].children[(a.cpp,3)]` is 1; and in the
tree root -> (a.cpp,1) -> (a.cpp,1) one tree edge goes from (a.cpp,1) to (a.cpp,1), yet
`graph[(a.cpp,1)].children` has no entry for (a.cpp,1). -/
theorem C10_counterexample :
    (∃ s g, run_calls instantiation_state.init
        [call.add (some ("a.cpp", 1)) 0, call.add (some ("a.cpp", 2)) 0,
          call.add (some ("a.cpp", 3)) 0] = .ok s ∧
      get_graph s [] = .ok g ∧
      weight (graph_at g ("a.cpp", 1)).children ("a.cpp", 3) = 1 ∧
      edge_count s.heap ("a.cpp", 1) ("a.cpp", 3) = 0) ∧
    (∃ s g, run_calls instantiation_state.init
        [call.add (some ("a.cpp", 1)) 0, call.add (some ("a.cpp", 1)) 0] = .ok s ∧
      get_graph s [] = .ok g ∧
      weight (graph_at g ("a.cpp", 1)).children ("a.cpp", 1) = 0 ∧
      edge_count s.heap ("a.cpp", 1) ("a.cpp", 1) = 1) :=
  ⟨⟨_, _, rfl, rfl, by decide, by decide⟩, ⟨_, _, rfl, rfl, by decide, by decide⟩⟩

/-- C11, amended. `get_graph` adds to the map it is given: for the tree built by any
sequence of calls and every graph map, it returns the map with each count raised by the
number of tree nodes at that location, each total-with-children by the number of pairs of
an ancestor at that location and a node at another one, and each edge weight between
different locations by the number of ancestor pairs with these locations. Hence the
result for an empty map depends on the tree only, and a second application to that result
doubles every count, total and edge weight. -/
theorem C11_get_graph_accumulates (cs : List call) :
    ∃ s, run_calls instantiation_state.init cs = .ok s ∧
      (∀ g0 : graph_t, ∃ g, get_graph s g0 = .ok g ∧
        (∀ A : line_id, (graph_at g A).count = (graph_at g0 A).count + occurrences s.heap A) ∧
        (∀ A : line_id, (graph_at g A).total_with_children =
          (graph_at g0 A).total_with_children + nested_elsewhere s.heap A) ∧
        (∀ A B : line_id, weight (graph_at g A).children B =
          weight (graph_at g0 A).children B +
            if A = B then 0 else nested_occurrences s.heap A B) ∧
        (∀ A B : line_id, weight (graph_at g B).parents A =
          weight (graph_at g0 B).parents A +
            if A = B then 0 else nested_occurrences s.heap A B)) ∧
      ∃ g1 g2, get_graph s [] = .ok g1 ∧ get_graph s g1 = .ok g2 ∧
        ∀ A B : line_id, (graph_at g2 A).count = 2 * (graph_at g1 A).count ∧
          (graph_at g2 A).total_with_children = 2 * (graph_at g1 A).total_with_children ∧
          weight (graph_at g2 A).children B = 2 * weight (graph_at g1 A).children B ∧
          weight (graph_at g2 B).parents A = 2 * weight (graph_at g1 B).parents A := by
  obtain ⟨s, hs, ok⟩ := run_calls_ok cs _ state_ok_init
  refine ⟨s, hs, fun g0 => get_graph_adds ok g0, ?_⟩
  obtain ⟨g1, h1, a1, a2, a3, a4⟩ := get_graph_adds ok []
  obtain ⟨g2, h2, b1, b2, b3, b4⟩ := get_graph_adds ok g1
  refine ⟨g1, g2, h1, h2, ?_⟩
  intro A B
  have e1 := a1 A
  have e2 := a2 A
  have e3 := a3 A B
  have e4 := a4 A B
  simp only [graph_at_nil] at e1 e2 e3 e4
  have z1 : weight ([] : List (line_id × Nat)) B = 0 := rfl
  have z2 : weight ([] : List (line_id × Nat)) A = 0 := rfl
  rw [z1] at e3
  rw [z2] at e4
  refine ⟨?_, ?_, ?_, ?_⟩
  · rw [b1 A, e1]
    show 0 + occurrences s.heap A + occurrences s.heap A = 2 * (0 + occurrences s.heap A)
    omega
  · rw [b2 A, e2]
    show 0 + nested_elsewhere s.heap A + nested_elsewhere s.heap A =
      2 * (0 + nested_elsewhere s.heap A)
    omega
  · rw [b3 A B, e3]
    omega
  · rw [b4 A B, e4]
    omega

/-- C11 fails: for the tree root -> (a.cpp,10), `get_graph` on an empty map leaves the
count 1 for (a.cpp,10), and `get_graph` applied again to that map leaves the count 2: the
map after two applications is not the map after one. -/
theorem C11_counterexample :
    ∃ s g1 g2, run_calls instantiation_state.init [call.add (some ("a.cpp", 10)) 0] = .ok s ∧
      get_graph s [] = .ok g1 ∧ get_graph s g1 = .ok g2 ∧
      g1 = [(("a.cpp", 10), ⟨[], [], 1, 0⟩)] ∧
      g2 = [(("a.cpp", 10), ⟨[], [], 2, 0⟩)] ∧ g2 ≠ g1 :=
  ⟨_, _, _, rfl, rfl, rfl, rfl, rfl, by decide⟩

/-- C12. No self-loops: for the tree built by any sequence of calls, also one where a node
has an ancestor with its own location, after `get_graph` on an empty graph no location
`A` is a key of `graph[A].children` or of `graph[A].parents`, and
`graph[A].total_with_children` is the number of pairs of an ancestor with location `A` and
a node with another location: pairs with equal locations add nothing to it. In the tree
root -> (a.cpp,1) -> (a.cpp,1) -> (a.cpp,2) the record of (a.cpp,1) has the one child
edge to (a.cpp,2), of weight 2, no parent edge and total-with-children 2. -/
theorem C12_no_self_loops :
    (∀ cs : List call,
      ∃ s g, run_calls instantiation_state.init cs = .ok s ∧ get_graph s [] = .ok g ∧
        ∀ A : line_id, map_find (graph_at g A).children A = none ∧
          map_find (graph_at g A).parents A = none ∧
          (graph_at g A).total_with_children = nested_elsewhere s.heap A) ∧
    (∃ s g, run_calls instantiation_state.init
        [call.add (some ("a.cpp", 1)) 0, call.add (some ("a.cpp", 1)) 0,
          call.add (some ("a.cpp", 2)) 0] = .ok s ∧
      get_graph s [] = .ok g ∧
      graph_at g ("a.cpp", 1) = ⟨[(("a.cpp", 2), 2)], [], 2, 2⟩) := by
  constructor
  · intro cs
    obtain ⟨s, hs, ok, hg⟩ := graph_of_calls cs
    refine ⟨s, _, hs, hg, ?_⟩
    intro A
    have hns := no_self_edge_foldl_visit s.heap (subtree s.heap s.heap.length 0) []
      (fun a => ⟨rfl, rfl⟩) A
    refine ⟨hns.1, hns.2, ?_⟩
    rw [total_foldl_visit, (walked_pairs_perm ok.1).countP_eq]
    simp [graph_at_nil, nested_elsewhere]
  · exact ⟨_, _, rfl, rfl, by decide⟩

/-- C13. Registry uniqueness: when the registry fill returns, the location set holds each
(file, line number) pair at most once and holds only pairs made from the texts of enter
lines; `lines.find` of two members is the same position exactly when the pairs are equal;
and two lookups of the tree-building pass (`&*lines.find(...)` for two texts) end at the
same position exactly when the two texts give equal pairs, at different positions
otherwise. -/
theorem C13_registry_uniqueness (p : patterns) (input : List String) (lines : List line_id)
    (h : registry_fill p (frequency_pass p input).messages = .ok lines) :
    lines.Nodup ∧
    (∀ x ∈ lines, lines.countP (fun y => decide (y = x)) = 1 ∧
      ∃ t ∈ enter_texts p input, make_line_id p t = .ok x) ∧
    (∀ x ∈ lines, ∀ y ∈ lines, (lines_find lines x = lines_find lines y ↔ x = y)) ∧
    (∀ (t1 t2 : String) (x1 x2 : line_id),
      find_line p lines t1 = .ok x1 → find_line p lines t2 = .ok x2 →
      (lines_find lines x1).isSome ∧ (lines_find lines x2).isSome ∧
      (lines_find lines x1 = lines_find lines x2 ↔
        make_line_id p t1 = make_line_id p t2)) := by
  have hnd : lines.Nodup := registry_fill_nodup p _ [] lines List.nodup_nil h
  have hfind : ∀ x ∈ lines, ∀ y ∈ lines, (lines_find lines x = lines_find lines y ↔ x = y) := by
    intro x hx y _
    exact lines_find_inj lines x y hx
  refine ⟨hnd, ?_, hfind, ?_⟩
  · intro x hx
    refine ⟨countP_eq_one_of_nodup lines x hnd hx, ?_⟩
    rcases registry_fill_mem p _ [] lines h x hx with h0 | ⟨m, hm, hmx⟩
    · cases h0
    · refine ⟨m.1, ?_, hmx⟩
      rw [← (frequency_pass_spec p input).2.1]
      exact List.mem_map.2 ⟨m, hm, rfl⟩
  · intro t1 t2 x1 x2 h1 h2
    obtain ⟨m1, hx1⟩ := find_line_ok p lines t1 x1 h1
    obtain ⟨m2, hx2⟩ := find_line_ok p lines t2 x2 h2
    refine ⟨(lines_find_isSome lines x1).2 hx1, (lines_find_isSome lines x2).2 hx2, ?_⟩
    rw [hfind x1 hx1 x2 hx2, m1, m2]
    constructor
    · intro e; rw [e]
    · intro e; exact Except.ok.inj e

set_option maxRecDepth 1000000 in
/-- C13 at the two `_MSC_VER` enter lines with texts "a.cpp(10)" and "a.cpp(010)", which
differ only in the spelling of the number: the location set is the single pair
(a.cpp, 10) and both lookups end at it. -/
theorem C13_registry_uniqueness_witness :
    registry_fill expressions_msvc (frequency_pass expressions_msvc
      ["a.cpp(10) : warning C4150: deletion of pointer to incomplete type 'template_profiler::incomplete_enter'; no destructor called",
       "a.cpp(010) : warning C4150: deletion of pointer to incomplete type 'template_profiler::incomplete_enter'; no destructor called"]).messages =
      .ok [("a.cpp", 10)] ∧
    enter_texts expressions_msvc
      ["a.cpp(10) : warning C4150: deletion of pointer to incomplete type 'template_profiler::incomplete_enter'; no destructor called",
       "a.cpp(010) : warning C4150: deletion of pointer to incomplete type 'template_profiler::incomplete_enter'; no destructor called"] =
      ["a.cpp(10)", "a.cpp(010)"] ∧
    find_line expressions_msvc [("a.cpp", 10)] "a.cpp(10)" = .ok ("a.cpp", 10) ∧
    find_line expressions_msvc [("a.cpp", 10)] "a.cpp(010)" = .ok ("a.cpp", 10) ∧
    (lines_find [("a.cpp", 10)] ("a.cpp", 10)).isSome ∧
    (lines_find [("a.cpp", 10)] ("a.cpp", 10) = lines_find [("a.cpp", 10)] ("a.cpp", 10) ↔
      make_line_id expressions_msvc "a.cpp(10)" = make_line_id expressions_msvc "a.cpp(010)") :=
  ⟨rfl, by decide, rfl, rfl,
    ((C13_registry_uniqueness expressions_msvc
      ["a.cpp(10) : warning C4150: deletion of pointer to incomplete type 'template_profiler::incomplete_enter'; no destructor called",
       "a.cpp(010) : warning C4150: deletion of pointer to incomplete type 'template_profiler::incomplete_enter'; no destructor called"]
      [("a.cpp", 10)] rfl).2.2.2 "a.cpp(10)" "a.cpp(010)" ("a.cpp", 10) ("a.cpp", 10)
        rfl rfl).1,
    ((C13_registry_uniqueness expressions_msvc
      ["a.cpp(10) : warning C4150: deletion of pointer to incomplete type 'template_profiler::incomplete_enter'; no destructor called",
       "a.cpp(010) : warning C4150: deletion of pointer to incomplete type 'template_profiler::incomplete_enter'; no destructor called"]
      [("a.cpp", 10)] rfl).2.2.2 "a.cpp(10)" "a.cpp(010)" ("a.cpp", 10) ("a.cpp", 10)
        rfl rfl).2.2⟩

/-- C14. The registry is complete before the tree is built: when the text of every enter
line of the input splits into a file and a number that converts to `int`, the registry
fill returns a location set, every lookup `lines.find(...)` of the tree-building pass
finds the pair it looks for in that set (it is never `lines.end()`, so the dereference is
defined) and `postprocess` reports a call graph, in either dialect. Whatever the input, the
call-graph half of `postprocess` never ends in undefined behaviour: it returns or throws
`bad_lexical_cast`. -/
theorem C14_registry_is_complete (c : compiler) (p : patterns) (input : List String)
    (h : ∀ line ∈ input, ∀ text, p.enter_message line = some text →
      ∃ loc, make_line_id p text = .ok loc) :
    (∃ lines, registry_fill p (frequency_pass p input).messages = .ok lines ∧
      (∀ line ∈ input, ∀ text, p.enter_message line = some text →
        ∃ loc, make_line_id p text = .ok loc ∧ (lines_find lines loc).isSome ∧
          find_line p lines text = .ok loc ∧ classify p lines line = .enter (.ok loc)) ∧
      ∃ r, (postprocess c p input).2 = .ok r) ∧
    ∀ (c' : compiler) (input' : List String) (e : failure),
      (postprocess c' p input').2 = .error e → e = .bad_lexical_cast := by
  constructor
  · have hkeys : ∀ m ∈ (frequency_pass p input).messages,
        ∃ loc, make_line_id p m.1 = .ok loc := by
      intro m hm
      have hmem : m.1 ∈ enter_texts p input := by
        rw [← (frequency_pass_spec p input).2.1]
        exact List.mem_map.2 ⟨m, hm, rfl⟩
      obtain ⟨line, hline, htext⟩ := List.mem_filterMap.1 hmem
      exact h line hline m.1 htext
    obtain ⟨lines, hfill⟩ := registry_fill_total p _ hkeys []
    refine ⟨lines, hfill, ?_, ?_⟩
    · intro line hline text htext
      have hkey : text ∈ (frequency_pass p input).messages.map Prod.fst := by
        rw [(frequency_pass_spec p input).2.1]
        exact List.mem_filterMap.2 ⟨line, hline, htext⟩
      obtain ⟨x, hx, hxt⟩ := List.mem_map.1 hkey
      obtain ⟨loc, hloc, hmem⟩ := (registry_fill_ok p _ [] lines hfill).2 x hx
      rw [hxt] at hloc
      have hfl : find_line p lines text = .ok loc := by
        simp only [find_line, hloc, bind, Except.bind, hmem, if_true, pure, Except.pure]
      refine ⟨loc, hloc, (lines_find_isSome lines loc).2 hmem, hfl, ?_⟩
      simp only [classify, htext, hfl]
    · obtain ⟨_, _, g, _, _, _, _, hcg⟩ := call_graph_ok c p input lines hfill
      exact ⟨_, hcg⟩
  · intro c' input' e he
    exact call_graph_error_kind c' p input' e he

set_option maxRecDepth 1000000 in
/-- C14 at the four `__GNUC__` lines enter a.cpp:10, enter a.cpp:20, exit, exit. -/
theorem C14_registry_is_complete_witness :
    (∃ lines, registry_fill expressions_gnuc (frequency_pass expressions_gnuc
        ["a.cpp:10: warning: unused int template_profiler::enter(int)",
         "a.cpp:20: warning: unused int template_profiler::enter(int)",
         "a.cpp:20: warning: unused int template_profiler::exit(int)",
         "a.cpp:10: warning: unused int template_profiler::exit(int)"]).messages = .ok lines ∧
      (∀ line ∈ ["a.cpp:10: warning: unused int template_profiler::enter(int)",
         "a.cpp:20: warning: unused int template_profiler::enter(int)",
         "a.cpp:20: warning: unused int template_profiler::exit(int)",
         "a.cpp:10: warning: unused int template_profiler::exit(int)"],
        ∀ text, expressions_gnuc.enter_message line = some text →
        ∃ loc, make_line_id expressions_gnuc text = .ok loc ∧ (lines_find lines loc).isSome ∧
          find_line expressions_gnuc lines text = .ok loc ∧
          classify expressions_gnuc lines line = .enter (.ok loc)) ∧
      ∃ r, (postprocess .gnuc expressions_gnuc
        ["a.cpp:10: warning: unused int template_profiler::enter(int)",
         "a.cpp:20: warning: unused int template_profiler::enter(int)",
         "a.cpp:20: warning: unused int template_profiler::exit(int)",
         "a.cpp:10: warning: unused int template_profiler::exit(int)"]).2 = .ok r) ∧
    (postprocess .gnuc expressions_gnuc
        ["a.cpp:10: warning: unused int template_profiler::enter(int)",
         "a.cpp:20: warning: unused int template_profiler::enter(int)",
         "a.cpp:20: warning: unused int template_profiler::exit(int)",
         "a.cpp:10: warning: unused int template_profiler::exit(int)"]).2 =
      .ok [(("a.cpp", 10), ⟨[(("a.cpp", 20), 1)], [], 1, 1⟩),
        (("a.cpp", 20), ⟨[], [(("a.cpp", 10), 1)], 1, 0⟩)] :=
  ⟨(C14_registry_is_complete .gnuc expressions_gnuc
      ["a.cpp:10: warning: unused int template_profiler::enter(int)",
       "a.cpp:20: warning: unused int template_profiler::enter(int)",
       "a.cpp:20: warning: unused int template_profiler::exit(int)",
       "a.cpp:10: warning: unused int template_profiler::exit(int)"]
      (by
        intro line hline text htext
        simp only [List.mem_cons, List.mem_singleton, List.not_mem_nil, or_false] at hline
        rcases hline with e | e | e | e
        · subst e
          have h1 : expressions_gnuc.enter_message
              "a.cpp:10: warning: unused int template_profiler::enter(int)" = some "a.cpp:10" := by
            decide
          rw [h1] at htext
          cases htext
          exact ⟨("a.cpp", 10), rfl⟩
        · subst e
          have h1 : expressions_gnuc.enter_message
              "a.cpp:20: warning: unused int template_profiler::enter(int)" = some "a.cpp:20" := by
            decide
          rw [h1] at htext
          cases htext
          exact ⟨("a.cpp", 20), rfl⟩
        · subst e
          have h1 : expressions_gnuc.enter_message
              "a.cpp:20: warning: unused int template_profiler::exit(int)" = none := by
            decide
          rw [h1] at htext
          cases htext
        · subst e
          have h1 : expressions_gnuc.enter_message
              "a.cpp:10: warning: unused int template_profiler::exit(int)" = none := by
            decide
          rw [h1] at htext
          cases htext)).1,
    rfl⟩

/-- C15. Call-graph report order: for every graph map, the records in the order in which
the report prints them (the result of `std::sort` with `call_graph_less`) are a permutation
of the entries of the graph with `total_with_children` non-increasing from each record to
the next; and whenever `postprocess` reports a call graph, in either dialect, the records
it prints are such a permutation of the graph that `get_graph` produced for the tree. -/
theorem C15_call_graph_report_order :
    (∀ g : graph_t, (std_sort call_graph_less g).Perm g ∧
      (std_sort call_graph_less g).Sorted
        (fun a b => a.2.total_with_children ≥ b.2.total_with_children)) ∧
    (∀ (c : compiler) (p : patterns) (input : List String) (r : List (line_id × node_info)),
      (postprocess c p input).2 = .ok r →
      ∃ (lines : List line_id) (st : loop_state) (g : graph_t),
        registry_fill p (frequency_pass p input).messages = .ok lines ∧
        tree_loop c (input.map (classify p lines)) = .ok st ∧
        get_graph st.state [] = .ok g ∧ r.Perm g ∧
        r.Sorted (fun a b => a.2.total_with_children ≥ b.2.total_with_children)) := by
  constructor
  · intro g
    exact ⟨std_sort_perm _ g, std_sort_call_graph_less_sorted g⟩
  · intro c p input r h
    obtain ⟨lines, st, g, h1, h2, h3, h4⟩ := call_graph_inv c p input r h
    subst h4
    exact ⟨lines, st, g, h1, h2, h3, std_sort_perm _ g, std_sort_call_graph_less_sorted g⟩

/-- C16. Unmatched lines are ignored: for every input and either dialect, deleting the
lines that match none of the enter, backtrace-frame and exit patterns changes neither the
tally of the frequency pass (table, `total_matches`) and the flat report, nor the outcome
of the tree-building loop (heap of nodes, cursor, pending location, or the failure), nor
the outcome of `postprocess` as a whole (reports, or the failure); so two inputs that
differ only by such lines, inserted or deleted anywhere, have the same outcome, and such
lines raise no error of their own. -/
theorem C16_unmatched_lines_are_ignored (c : compiler) (p : patterns) (input : List String) :
    frequency_pass p (input.filter (fun l => !is_unmatched p l)) = frequency_pass p input ∧
    flat p (input.filter (fun l => !is_unmatched p l)) = flat p input ∧
    (∀ lines : List line_id,
      tree_loop c ((input.filter (fun l => !is_unmatched p l)).map (classify p lines)) =
        tree_loop c (input.map (classify p lines))) ∧
    postprocess c p (input.filter (fun l => !is_unmatched p l)) = postprocess c p input ∧
    (∀ (before after : List String) (line : String), is_unmatched p line = true →
      input = before ++ after →
      postprocess c p (before ++ line :: after) = postprocess c p input ∧
      frequency_pass p (before ++ line :: after) = frequency_pass p input ∧
      ∀ lines : List line_id,
        tree_loop c ((before ++ line :: after).map (classify p lines)) =
          tree_loop c (input.map (classify p lines))) := by
  refine ⟨frequency_pass_drop_unmatched p input, ?_,
    fun lines => tree_loop_drop_unmatched c p lines input,
    postprocess_drop_unmatched c p input, ?_⟩
  · simp only [flat, frequency_pass_drop_unmatched]
  · intro before after line hline hinput
    have hfil : (before ++ line :: after).filter (fun l => !is_unmatched p l) =
        input.filter (fun l => !is_unmatched p l) := by
      rw [hinput, List.filter_append, List.filter_append,
        List.filter_cons_of_neg (by simp [hline])]
    refine ⟨?_, ?_, ?_⟩
    · rw [← postprocess_drop_unmatched c p (before ++ line :: after), hfil,
        postprocess_drop_unmatched]
    · rw [← frequency_pass_drop_unmatched p (before ++ line :: after), hfil,
        frequency_pass_drop_unmatched]
    · intro lines
      rw [← tree_loop_drop_unmatched c p lines (before ++ line :: after), hfil,
        tree_loop_drop_unmatched]

/-- C17. Cursor and depth invariant: after any finite sequence of `add_instantiation` and
`finish_instantiation` calls on a fresh `instantiation_state`, the calls have returned
normally, the cursor is the root or a node reachable from the root through `children`
containers, every allocated node is reachable in that way, every non-root node has an `up`
link, which points to the one node whose `children` hold it, and the `depth` of every node
is its number of proper ancestors (0 for the root). -/
theorem C17_cursor_and_depth_invariant (cs : List call) :
    ∃ s c, run_calls instantiation_state.init cs = .ok s ∧ s.current = some c ∧
      (c = 0 ∨ c ∈ descendants s.heap 0) ∧
      (∀ j, j < s.heap.length → j = 0 ∨ j ∈ descendants s.heap 0) ∧
      (∀ j, 0 < j → j < s.heap.length →
        ∃ p, up_of s.heap j = some p ∧ j ∈ kids_of s.heap p ∧
          ∀ q, j ∈ kids_of s.heap q → q = p) ∧
      (∀ j, j < s.heap.length → depth_of s.heap j = proper_ancestor_count s.heap j) ∧
      depth_of s.heap 0 = 0 := by
  obtain ⟨s, hs, ok, c, hc, hlt⟩ := run_calls_ok cs _ state_ok_init
  have hreach : ∀ j, j < s.heap.length → j = 0 ∨ j ∈ descendants s.heap 0 := by
    intro j hj
    have := (mem_subtree_root ok j).2 hj
    rw [subtree_root_eq ok, List.mem_append, List.mem_singleton] at this
    exact this.symm
  refine ⟨s, c, hs, hc, hreach c hlt, hreach, ?_, ?_, ok.root_depth⟩
  · intro j h0 hj
    obtain ⟨p, hp, hpj⟩ := ok.up_lt j h0 hj
    have hpl : p < s.heap.length := by omega
    refine ⟨p, hp, (kids_of_mem ok hpl).2 hp, ?_⟩
    intro q hq
    have hql : q < s.heap.length := by
      by_contra hge
      have hnone : s.heap[q]? = none := List.getElem?_eq_none (by omega)
      simp [kids_of, hnone] at hq
    have := (kids_of_mem ok hql).1 hq
    rw [hp] at this
    exact (Option.some.inj this).symm
  · intro j hj
    rw [proper_ancestor_count_eq ok, depth_eq_length_ancestors ok j hj]

/-- C18. Backtrace frames do not influence the result: in either dialect, for every
stream of events the tree-building loop ends with the same tree (heap of nodes with their
locations and depths, cursor), or the same failure, as on the stream without its
backtrace-frame events; on streams with well-formed locations both runs return, with the
same tree and therefore the same aggregated graph; and deleting the backtrace-frame lines
of an input, or inserting one anywhere, leaves the outcome of `postprocess` (both
reports, or the failure) as it is. -/
theorem C18_frames_do_not_influence_the_tree (c : compiler) :
    (∀ events : List event,
      (tree_loop c (events.filter not_frame)).map (fun st => st.state) =
        (tree_loop c events).map (fun st => st.state)) ∧
    (∀ evs : List located, ∃ st st',
      tree_loop c (evs.map located.event) = .ok st ∧
      tree_loop c ((evs.filter (fun e => decide (e ≠ located.frame))).map located.event) =
        .ok st' ∧
      st'.state = st.state ∧ get_graph st'.state [] = get_graph st.state []) ∧
    (∀ (p : patterns) (input : List String),
      postprocess c p (input.filter (fun l => !is_frame p l)) = postprocess c p input) ∧
    (∀ (p : patterns) (before after : List String) (line : String), is_frame p line = true →
      postprocess c p (before ++ line :: after) = postprocess c p (before ++ after)) := by
  refine ⟨tree_loop_drop_frames c, ?_, postprocess_drop_frames c, ?_⟩
  · intro evs
    obtain ⟨st, hst, _⟩ := tree_loop_ok c evs
    obtain ⟨st', hst', _⟩ := tree_loop_ok c (evs.filter (fun e => decide (e ≠ located.frame)))
    have hmap : (evs.filter (fun e => decide (e ≠ located.frame))).map located.event =
        (evs.map located.event).filter not_frame := by
      rw [List.filter_map]
      congr 1
      apply List.filter_congr
      intro e _
      cases e <;> simp [not_frame, located.event]
    have h := tree_loop_drop_frames c (evs.map located.event)
    rw [← hmap, hst, hst'] at h
    simp only [Except.map, Except.ok.injEq] at h
    exact ⟨st, st', hst, hst', h, by rw [h]⟩
  · intro p before after line hline
    have hfil : (before ++ line :: after).filter (fun l => !is_frame p l) =
        (before ++ after).filter (fun l => !is_frame p l) := by
      rw [List.filter_append, List.filter_append, List.filter_cons_of_neg (by simp [hline])]
    rw [← postprocess_drop_frames c p (before ++ line :: after), hfil,
      postprocess_drop_frames]

/-- C19. Total-with-children is the sum of the outgoing edge weights: for the tree built
by any sequence of calls, after `get_graph` on an empty graph every location is a key of
the graph at most once, for every location `A` `graph[A].total_with_children` is the sum of
all weights in `graph[A].children`, and the sum over the records of the graph of the
`children` weights equals the sum over the records of the `parents` weights. -/
theorem C19_total_is_sum_of_children_weights (cs : List call) :
    ∃ s g, run_calls instantiation_state.init cs = .ok s ∧ get_graph s [] = .ok g ∧
      (g.map Prod.fst).Nodup ∧
      (∀ A : line_id, (graph_at g A).total_with_children =
        ((graph_at g A).children.map Prod.snd).sum) ∧
      (g.map (fun e => (e.2.children.map Prod.snd).sum)).sum =
        (g.map (fun e => (e.2.parents.map Prod.snd).sum)).sum := by
  obtain ⟨s, hs, ok, hg⟩ := graph_of_calls cs
  refine ⟨s, _, hs, hg, ?_, ?_, ?_⟩
  · exact foldl_visit_invariant (fun g => (g.map Prod.fst).Nodup) nodup_keys_add_child
      nodup_keys_count_node s.heap _ [] List.nodup_nil
  · exact foldl_visit_invariant totals_ok totals_ok_add_child totals_ok_count_node s.heap _ []
      (fun _ => rfl)
  · exact foldl_visit_invariant sums_agree sums_agree_add_child sums_agree_count_node
      s.heap _ [] rfl

/-- C20. The aggregated graph and the flat report count the same enter events: for every
input in which the text of every enter line splits, in either dialect, the registry is
filled, the loop builds a tree and `get_graph` returns a graph `g` whose records, sorted,
are what `postprocess` reports; the sum of `count` over all records of `g` (and over the
printed records) is the `total_matches` of the flat report; and for every location `L`,
`graph[L].count` is the sum of the counts of the rows of the flat table whose text splits
to `L`, which is the number of enter lines whose text splits to `L`; the same holds for
the `count` of every printed record. -/
theorem C20_graph_counts_match_flat_report (c : compiler) (p : patterns)
    (input : List String)
    (h : ∀ line ∈ input, ∀ text, p.enter_message line = some text →
      ∃ loc, make_line_id p text = .ok loc) :
    ∃ (lines : List line_id) (st : loop_state) (g : graph_t),
      registry_fill p (frequency_pass p input).messages = .ok lines ∧
      tree_loop c (input.map (classify p lines)) = .ok st ∧
      get_graph st.state [] = .ok g ∧
      (postprocess c p input).2 = .ok (std_sort call_graph_less g) ∧
      sum_records (fun ni => ni.count) g = (postprocess c p input).1.total_matches ∧
      sum_records (fun ni => ni.count) (std_sort call_graph_less g) =
        (postprocess c p input).1.total_matches ∧
      (∀ L : line_id, (graph_at g L).count =
        (((postprocess c p input).1.rows.filter (fun r => splits_to p r.1 L)).map
          (fun r => r.2.1)).sum) ∧
      (∀ L : line_id, (graph_at g L).count =
        (enter_texts p input).countP (fun t => splits_to p t L)) ∧
      (∀ r ∈ std_sort call_graph_less g, r.2.count =
        (((postprocess c p input).1.rows.filter (fun x => splits_to p x.1 r.1)).map
          (fun x => x.2.1)).sum) := by
  have hkeys : ∀ m ∈ (frequency_pass p input).messages,
      ∃ loc, make_line_id p m.1 = .ok loc := by
    intro m hm
    have hmem : m.1 ∈ enter_texts p input := by
      rw [← (frequency_pass_spec p input).2.1]
      exact List.mem_map.2 ⟨m, hm, rfl⟩
    obtain ⟨line, hline, htext⟩ := List.mem_filterMap.1 hmem
    exact h line hline m.1 htext
  obtain ⟨lines, hfill0⟩ := registry_fill_total p _ hkeys []
  have hfill : registry_fill p (frequency_pass p input).messages = .ok lines := hfill0
  have hloc : ∀ line ∈ input, ∀ text, p.enter_message line = some text →
      ∃ loc, find_line p lines text = .ok loc ∧ make_line_id p text = .ok loc := by
    intro line hline text htext
    have hkey : text ∈ (frequency_pass p input).messages.map Prod.fst := by
      rw [(frequency_pass_spec p input).2.1]
      exact List.mem_filterMap.2 ⟨line, hline, htext⟩
    obtain ⟨x, hx, hxt⟩ := List.mem_map.1 hkey
    obtain ⟨loc, hl, hmem⟩ := (registry_fill_ok p _ [] lines hfill).2 x hx
    rw [hxt] at hl
    refine ⟨loc, ?_, hl⟩
    simp only [find_line, hl, bind, Except.bind, hmem, if_true, pure, Except.pure]
  obtain ⟨evs, hmap, htexts⟩ := locate_input p lines input hloc
  obtain ⟨st, hst, ok, hids⟩ := tree_loop_ids c evs
  have hg := get_graph_eq ok []
  have hperm := subtree_root_perm ok.1
  have hcount : ∀ L : line_id,
      (graph_at ((subtree st.state.heap st.state.heap.length 0).foldl
        (visit st.state.heap) []) L).count =
        (enter_texts p input).countP (fun t => splits_to p t L) := by
    intro L
    rw [count_foldl_visit, countP_ids st.state.heap _ hperm (fun o => decide (o = some L)),
      hids, List.countP_cons, countP_some_eq, countP_splits_to p _ _ L htexts]
    simp [graph_at_nil]
  have htotal : sum_records (fun ni => ni.count)
      ((subtree st.state.heap st.state.heap.length 0).foldl (visit st.state.heap) []) =
        (flat p input).total_matches := by
    rw [count_records_foldl_visit,
      countP_ids st.state.heap _ hperm (fun o => decide (o ≠ none)), hids,
      List.countP_cons, countP_some_ne_none]
    have hlen : (enter_locations evs).length = (enter_texts p input).length := by
      have := congrArg List.length htexts
      simpa using this.symm
    have ht : (flat p input).total_matches = (enter_texts p input).length :=
      (frequency_pass_spec p input).2.2.2.1
    rw [hlen, ht]
    simp [sum_records]
  have hnodup : (((subtree st.state.heap st.state.heap.length 0).foldl
      (visit st.state.heap) []).map Prod.fst).Nodup :=
    foldl_visit_invariant (fun g => (g.map Prod.fst).Nodup)
      (fun g a b hg0 => nodup_keys_add_child g a b hg0)
      (fun g l hg0 => nodup_keys_count_node g l hg0) _ _ [] List.nodup_nil
  refine ⟨lines, st, _, hfill, by rw [hmap]; exact hst, hg, ?_, htotal, ?_, ?_, hcount, ?_⟩
  · simp only [postprocess, call_graph, hfill, hmap, hst, hg, bind, Except.bind, pure,
      Except.pure]
  · show _ = (flat p input).total_matches
    rw [← htotal]
    exact ((std_sort_perm call_graph_less _).map (fun e => e.2.count)).sum_eq
  · intro L
    rw [hcount L]
    exact (rows_filter_sum p (fun t => splits_to p t L) input).symm
  · intro r hr
    have hmem := (std_sort_perm call_graph_less _).mem_iff.1 hr
    have hfind := map_find_of_mem _ hnodup r.1 r.2 hmem
    have hat : graph_at ((subtree st.state.heap st.state.heap.length 0).foldl
        (visit st.state.heap) []) r.1 = r.2 := by
      simp only [graph_at, hfind, Option.getD_some]
    rw [← hat, hcount r.1]
    exact (rows_filter_sum p (fun t => splits_to p t r.1) input).symm

set_option maxRecDepth 1000000 in
/-- C20 at the log `two_spellings_log`: the flat table has the two rows `a.cpp(10)` and
`a.cpp(010)` with count 1 each and total 2, the graph has the one record `(a.cpp, 10)`
with count 2. -/
theorem C20_graph_counts_match_flat_report_witness :
    (∀ line ∈ two_spellings_log, ∀ text, expressions_msvc.enter_message line = some text →
      ∃ loc, make_line_id expressions_msvc text = .ok loc) ∧
    postprocess .msvc expressions_msvc two_spellings_log =
      (⟨2, [("a.cpp(10)", 1, 1), ("a.cpp(010)", 1, 2)]⟩,
        .ok [(("a.cpp", 10), ⟨[], [], 2, 0⟩)]) ∧
    ∃ (lines : List line_id) (st : loop_state) (g : graph_t),
      registry_fill expressions_msvc
        (frequency_pass expressions_msvc two_spellings_log).messages = .ok lines ∧
      tree_loop .msvc (two_spellings_log.map (classify expressions_msvc lines)) = .ok st ∧
      get_graph st.state [] = .ok g ∧
      (postprocess .msvc expressions_msvc two_spellings_log).2 =
        .ok (std_sort call_graph_less g) ∧
      sum_records (fun ni => ni.count) g =
        (postprocess .msvc expressions_msvc two_spellings_log).1.total_matches ∧
      sum_records (fun ni => ni.count) (std_sort call_graph_less g) =
        (postprocess .msvc expressions_msvc two_spellings_log).1.total_matches ∧
      (∀ L : line_id, (graph_at g L).count =
        (((postprocess .msvc expressions_msvc two_spellings_log).1.rows.filter
          (fun r => splits_to expressions_msvc r.1 L)).map (fun r => r.2.1)).sum) ∧
      (∀ L : line_id, (graph_at g L).count =
        (enter_texts expressions_msvc two_spellings_log).countP
          (fun t => splits_to expressions_msvc t L)) ∧
      (∀ r ∈ std_sort call_graph_less g, r.2.count =
        (((postprocess .msvc expressions_msvc two_spellings_log).1.rows.filter
          (fun x => splits_to expressions_msvc x.1 r.1)).map (fun x => x.2.1)).sum) := by
  have hh : ∀ line ∈ two_spellings_log, ∀ text,
      expressions_msvc.enter_message line = some text →
        ∃ loc, make_line_id expressions_msvc text = .ok loc := by
    intro line hline text htext
    simp only [two_spellings_log, List.mem_cons, List.mem_singleton, List.not_mem_nil,
      or_false] at hline
    rcases hline with e | e | e | e
    · subst e
      have h1 : expressions_msvc.enter_message
          "a.cpp(10) : warning C4150: deletion of pointer to incomplete type 'template_profiler::incomplete_enter'; no destructor called" =
            some "a.cpp(10)" := by decide
      rw [h1] at htext
      cases htext
      exact ⟨("a.cpp", 10), rfl⟩
    · subst e
      have h1 : expressions_msvc.enter_message
          "a.cpp(010) : warning C4150: deletion of pointer to incomplete type 'template_profiler::incomplete_enter'; no destructor called" =
            some "a.cpp(010)" := by decide
      rw [h1] at htext
      cases htext
      exact ⟨("a.cpp", 10), rfl⟩
    · subst e
      have h1 : expressions_msvc.enter_message
          "a.cpp(010) : warning C4150: deletion of pointer to incomplete type 'template_profiler::incomplete_exit'; no destructor called" =
            none := by decide
      rw [h1] at htext
      cases htext
    · subst e
      have h1 : expressions_msvc.enter_message
          "a.cpp(10) : warning C4150: deletion of pointer to incomplete type 'template_profiler::incomplete_exit'; no destructor called" =
            none := by decide
      rw [h1] at htext
      cases htext
  exact ⟨hh, rfl, C20_graph_counts_match_flat_report .msvc expressions_msvc
    two_spellings_log hh⟩

end Postprocess
